import Mathlib

/-! # SwiftSplit memory scanner

A shallow embedding of `SwiftSplit/Core/memory_scanner.c` (with the declarations of
`SwiftSplit/memory_scanner.h`) and theorems about it.

* Machine integers are `Nat` and `Int` with explicit wrap-around: `vm_address_t`, `vm_size_t` and
  `size_t` are 64-bit unsigned, `int` and `uint32_t` are 32-bit.
* The Mach kernel is a parameter (`mach_env`): the answers it gives to `host_page_size`,
  `vm_region_recurse_64` and `vm_read_overwrite`. It is a pure function of the arguments, which
  models a target whose memory and region layout stay unchanged.
* The two `while(true)` loops take fuel; running out of it is the result `timeout`.
* An array access outside its bounds is the result `fault`.
-/

namespace SwiftSplit

/-! ## Machine integers -/

/-- The number of values of a 64-bit unsigned integer (`vm_address_t`, `vm_size_t`, `size_t`). -/
def U64 : Nat := 18446744073709551616

/-- Conversion of a mathematical integer to a 64-bit unsigned integer. -/
def wrap64 (z : Int) : Nat := (z % 18446744073709551616).toNat

/-- Conversion of a mathematical integer to a 32-bit two's complement `int`. -/
def wrap32 (z : Int) : Int := (z + 2147483648) % 4294967296 - 2147483648

/-- Conversion of a mathematical integer to `unsigned char`. -/
def wrap8 (z : Int) : Nat := (z % 256).toNat

/-! ## Constants of the Mach headers and of `memory_scanner.h` -/

/-- Modelled from the spec: `KERN_INVALID_ADDRESS` of the Mach headers (absent from the sources),
the "invalid address" sentinel of the region query; its value in `mach/kern_return.h` is 1. -/
def KERN_INVALID_ADDRESS : Int := 1

/-- Modelled from the spec: `VM_PROT_DEFAULT` of the Mach headers (absent from the sources), the
default baseline permissions `VM_PROT_READ | VM_PROT_WRITE`; its value in `mach/vm_prot.h` is 3. -/
def VM_PROT_DEFAULT : Nat := 3

def MEMSCAN_SUCCESS : Int := 0

def MEMSCAN_ERROR_PAGE_SIZE_FAILED : Int := 256

def MEMSCAN_ERROR_VM_REGION_INFO_FAILED : Int := 512

def MEMSCAN_ERROR_VM_READ_MEMORY_FAILED : Int := 768

def MEMSCAN_ERROR_VM_WRITE_MEMORY_FAILED : Int := 1024

/-! ## Data model -/

structure memscan_target where
  pid : Int
  task : Nat
deriving DecidableEq, Repr

/-- A signature: `signature` and `mask` are the two heap arrays, bytes are numbers below 256. -/
structure memscan_signature where
  length : Nat
  signature : List Nat
  mask : List Bool
deriving DecidableEq, Repr

structure memscan_filter where
  start_address : Nat
  end_address : Nat
deriving DecidableEq, Repr

structure memscan_match where
  address : Nat
deriving DecidableEq, Repr

/-- The error value stored through the `error` pointer: the category and the Mach status. -/
structure memscan_error where
  memscan : Int
  mach : Int
deriving DecidableEq, Repr

/-- The scanner state `struct memscan_scanner_t`. The borrowed signature is held by value. -/
structure memscan_scanner where
  target : memscan_target
  signature : memscan_signature
  filter : memscan_filter
  region_address : Nat
  region_size : Nat
  region_depth : Nat
  page_size : Nat
  page_address : Nat
  page_buffer : List Nat
  previous_page_buffer : List Nat
  scan_index : Int
deriving DecidableEq, Repr

/-! ## The environment: the Mach kernel and the allocator -/

/-- What `vm_region_recurse_64` leaves behind: its status, the in/out arguments `address`, `size`
and `depth` after the call, and the two fields of `info` the scanner reads. -/
structure vm_region_reply where
  kr : Int
  address : Nat
  size : Nat
  depth : Nat
  is_submap : Bool
  protection : Nat
deriving DecidableEq, Repr

/-- The calls the scanner makes into its environment.
* `host_page_size`: the status and the page size.
* `vm_region_recurse_64 task address size depth`: the arguments are the values of the in/out
  parameters before the call.
* `vm_read_overwrite task address size`: the status and, when the call succeeds, the bytes it
  stored in the destination buffer (a call that fails leaves the destination as it was).
* `malloc k size`: the (indeterminate) contents of the k-th freshly allocated buffer. -/
structure mach_env where
  host_page_size : Int × Nat
  vm_region_recurse_64 : Nat → Nat → Nat → Nat → vm_region_reply
  vm_read_overwrite : Nat → Nat → Nat → Int × List Nat
  malloc : Nat → Nat → List Nat

/-- A record of one call into the kernel, with the arguments it was issued with (for the region
query, the values of the in/out parameters `address`, `size` and `depth` before the call). -/
inductive os_call where
  | page_size_query
  | region_query (task address size depth : Nat)
  | page_read (task address size : Nat)
deriving DecidableEq, Repr

/-- The result of running a C function of the model. -/
inductive outcome (α : Type) where
  | done (a : α)
  | fault
  | timeout
deriving DecidableEq, Repr

/-! ## Signatures -/

/-- The length of a C string: the characters before the first NUL. -/
def strlen (s : List Char) : Nat := (s.takeWhile (fun c => c.toNat ≠ 0)).length

/-- The character at an index of a C string; past the end it is the terminator. -/
def char_at (s : List Char) (i : Nat) : Char := s.getD i (Char.ofNat 0)

/-- The value of a character as a digit in base 16, as `strtol` reads it. -/
def hex_digit_value (c : Char) : Option Nat :=
  if 48 ≤ c.toNat ∧ c.toNat ≤ 57 then some (c.toNat - 48)
  else if 97 ≤ c.toNat ∧ c.toNat ≤ 102 then some (c.toNat - 87)
  else if 65 ≤ c.toNat ∧ c.toNat ≤ 70 then some (c.toNat - 55)
  else none

/-- The characters `isspace` accepts in the C locale. -/
def isspace (c : Char) : Bool := c.toNat = 32 || (9 ≤ c.toNat && c.toNat ≤ 13)

/-- The digits part of `strtol`: the value of the longest run of base-16 digits. -/
def strtol_digits : List Char → Nat → Nat
  | [], acc => acc
  | c :: cs, acc =>
    match hex_digit_value c with
    | some d => strtol_digits cs (acc * 16 + d)
    | none => acc

/-- The part of `strtol` after the sign: an optional `0x` or `0X` that a digit follows, then the
digits. -/
def strtol_unsigned : List Char → Nat
  | c0 :: cx :: c :: cs =>
    if c0.toNat = 48 ∧ (cx.toNat = 120 ∨ cx.toNat = 88) ∧ (hex_digit_value c).isSome then
      strtol_digits (c :: cs) 0
    else strtol_digits (c0 :: cx :: c :: cs) 0
  | cs => strtol_digits cs 0

/-- The part of `strtol` after the white space: an optional sign, then the number. -/
def strtol_signed : List Char → Int
  | c :: cs =>
    if c.toNat = 45 then - (strtol_unsigned cs : Int)
    else if c.toNat = 43 then (strtol_unsigned cs : Int)
    else (strtol_unsigned (c :: cs) : Int)
  | [] => 0

/-- Modelled from the spec: `strtol(s, NULL, 16)` of the C library (absent from the sources), which
the spec calls parsing the pair "as a hex byte". It follows ISO C: leading white space, an optional
sign, an optional `0x`, the longest run of digits, no digits giving 0, and the result clamped to
the range of `long`. -/
def strtol16 (s : List Char) : Int :=
  let v := strtol_signed (s.dropWhile isspace)
  if v > 9223372036854775807 then 9223372036854775807
  else if v < -9223372036854775808 then -9223372036854775808
  else v

/-- The two-character string `parse_string` of iteration `i`, cut at a NUL as C reads it. -/
def parse_string (signature_string : List Char) (i : Nat) : List Char :=
  [char_at signature_string (i * 2), char_at signature_string (i * 2 + 1)].takeWhile
    (fun c => c.toNat ≠ 0)

/-- The byte stored at index `i` by `memscan_signature_parse`. -/
def parse_byte (signature_string : List Char) (i : Nat) : Nat :=
  if char_at signature_string (i * 2) = '?' ∨ char_at signature_string (i * 2 + 1) = '?' then 0
  else wrap8 (strtol16 (parse_string signature_string i))

/-- The mask stored at index `i` by `memscan_signature_parse`. -/
def parse_mask (signature_string : List Char) (i : Nat) : Bool :=
  if char_at signature_string (i * 2) = '?' ∨ char_at signature_string (i * 2 + 1) = '?' then false
  else true

def memscan_signature_parse (signature_string : List Char) : memscan_signature :=
  let length := strlen signature_string / 2
  { length := length
    signature := (List.range length).map (parse_byte signature_string)
    mask := (List.range length).map (parse_mask signature_string) }

/-- The copy made by `memcpy` of the first `length` elements of a buffer. -/
def memcpy {α : Type} (src : List α) (length : Nat) : List α := src.take length

def memscan_signature_create (signature : List Nat) (mask : List Bool) (length : Nat) :
    memscan_signature :=
  { length := length
    signature := memcpy signature length
    mask := memcpy mask length }

def memscan_signature_copy (other : memscan_signature) : memscan_signature :=
  { length := other.length
    signature := memcpy other.signature other.length
    mask := memcpy other.mask other.length }

/-! ## Scanners -/

/-- The scanner `memscan_scanner_create` returns: the compound literal sets the three
configuration fields and zero-fills the rest. -/
def memscan_scanner_create (target : memscan_target) (signature : memscan_signature)
    (filter : memscan_filter) : memscan_scanner :=
  { target := target
    signature := signature
    filter := filter
    region_address := 0
    region_size := 0
    region_depth := 0
    page_size := 0
    page_address := 0
    page_buffer := []
    previous_page_buffer := []
    scan_index := 0 }

/-- What a call of `memscan_scanner_next_region` leaves behind: the returned flag, the scanner,
the value stored through `error` (if one was stored) and the kernel calls issued, in order. -/
structure region_result where
  ret : Bool
  scanner : memscan_scanner
  error_write : Option memscan_error
  calls : List os_call
deriving DecidableEq, Repr

/-- The `while(true)` loop of `memscan_scanner_next_region`; `none` is running out of fuel. -/
def next_region_loop (env : mach_env) :
    Nat → memscan_scanner → List os_call → Option region_result
  | 0, _, _ => none
  | fuel + 1, scanner, calls =>
    -- advance to the end of the current region and start searching from there
    let address := (scanner.region_address + scanner.region_size) % U64
    let reply :=
      env.vm_region_recurse_64 scanner.target.task address scanner.region_size scanner.region_depth
    let calls := calls ++
      [os_call.region_query scanner.target.task address scanner.region_size scanner.region_depth]
    let scanner := { scanner with
      region_address := reply.address
      region_size := reply.size
      region_depth := reply.depth }
    if reply.kr = KERN_INVALID_ADDRESS then
      some { ret := false, scanner := scanner, error_write := none, calls := calls }
    else if reply.kr ≠ 0 then
      some { ret := false, scanner := scanner,
             error_write := some { memscan := MEMSCAN_ERROR_VM_REGION_INFO_FAILED,
                                   mach := reply.kr },
             calls := calls }
    else if reply.is_submap then
      next_region_loop env fuel
        { scanner with region_depth := (scanner.region_depth + 1) % 4294967296 } calls
    else if reply.protection &&& VM_PROT_DEFAULT = VM_PROT_DEFAULT then
      some { ret := true, scanner := scanner, error_write := none, calls := calls }
    else
      next_region_loop env fuel scanner calls

def memscan_scanner_next_region (env : mach_env) (fuel : Nat) (scanner : memscan_scanner) :
    Option region_result :=
  next_region_loop env fuel
    (if scanner.region_address = 0 then
      { scanner with region_address := scanner.filter.start_address }
     else scanner) []

/-- What a call of `memscan_scanner_next` leaves behind: the returned flag, the scanner, the
values stored through `match` and through `error` (if any was stored) and the kernel calls
issued, in order. -/
structure next_result where
  ret : Bool
  scanner : memscan_scanner
  match_write : Option memscan_match
  error_write : Option memscan_error
  calls : List os_call
deriving DecidableEq, Repr

/-- The result of one iteration of the loop of `memscan_scanner_next`. -/
inductive step_result where
  | again (scanner : memscan_scanner) (match_progress : Nat) (calls : List os_call)
  | returned (r : next_result)
  | fault
  | timeout
deriving DecidableEq, Repr

/-- The byte at the scan index (lines 279-285): a negative index reads the end of the previous
page. `none` is an access outside the buffer. -/
def page_value (scanner : memscan_scanner) : Option Nat :=
  if scanner.scan_index < 0 then
    scanner.previous_page_buffer[wrap64 (scanner.page_size + scanner.scan_index)]?
  else
    scanner.page_buffer[scanner.scan_index.toNat]?

/-- Whether the comparison of line 287 finds a mismatch. `none` is an access outside the
signature's arrays; the byte of the signature is only read where the mask is set. -/
def mismatch (signature : memscan_signature) (match_progress : Nat) (value : Nat) :
    Option Bool :=
  match signature.mask[match_progress]? with
  | none => none
  | some false => some false
  | some true =>
    match signature.signature[match_progress]? with
    | none => none
    | some b => some (decide (value ≠ b))

/-- Lines 279-306: fetch the byte at the scan index and compare it with the signature. -/
def scan_compare (scanner : memscan_scanner) (match_progress : Nat) (calls : List os_call) :
    step_result :=
  match page_value scanner with
  | none => step_result.fault
  | some value =>
    match mismatch scanner.signature match_progress value with
    | none => step_result.fault
    | some true =>
      -- the match failed: roll back to right after this match attempt started
      let scan_index :=
        if match_progress > 0 then wrap32 (scanner.scan_index - match_progress)
        else scanner.scan_index
      step_result.again { scanner with scan_index := wrap32 (scan_index + 1) } 0 calls
    | some false =>
      -- the match is progressing
      let match_progress := (match_progress + 1) % U64
      let scanner := { scanner with scan_index := wrap32 (scanner.scan_index + 1) }
      if match_progress = scanner.signature.length then
        step_result.returned
          { ret := true, scanner := scanner,
            match_write := some
              { address := wrap64 (scanner.page_address + scanner.scan_index - match_progress) },
            error_write := none, calls := calls }
      else step_result.again scanner match_progress calls

/-- Lines 264-306: rotate the buffers, read the page at `page_address` into the page buffer, then
compare. A read that fails leaves the destination as it was: the page buffer is then the rotated
buffer, with the contents of the old previous buffer. -/
def scan_read (env : mach_env) (scanner : memscan_scanner) (match_progress : Nat)
    (calls : List os_call) : step_result :=
  let read := env.vm_read_overwrite scanner.target.task scanner.page_address scanner.page_size
  let calls := calls ++
    [os_call.page_read scanner.target.task scanner.page_address scanner.page_size]
  if read.1 ≠ 0 then
    step_result.returned
      { ret := false,
        scanner := { scanner with
          previous_page_buffer := scanner.page_buffer
          page_buffer := scanner.previous_page_buffer },
        match_write := none,
        error_write := some { memscan := MEMSCAN_ERROR_VM_READ_MEMORY_FAILED,
                              mach := read.1 },
        calls := calls }
  else
    scan_compare
      { scanner with
        previous_page_buffer := scanner.page_buffer
        page_buffer := read.2 }
      match_progress calls

/-- Lines 258-306: load the page at `page_address` if `load_page` is set, unless the filter's end
address stops the scan, then compare. -/
def scan_load (env : mach_env) (scanner : memscan_scanner) (match_progress : Nat)
    (load_page : Bool) (calls : List os_call) : step_result :=
  if load_page then
    if scanner.filter.end_address ≠ 0 ∧ scanner.page_address > scanner.filter.end_address then
      step_result.returned
        { ret := false, scanner := scanner, match_write := none, error_write := none,
          calls := calls }
    else scan_read env scanner match_progress calls
  else scan_compare scanner match_progress calls

/-- Lines 239-256 and what follows them in the iteration: ask for the next accepted region, drop
the partial match if the region does not start at the scan position, and load its first page. -/
def scan_region (env : mach_env) (region_fuel : Nat) (scanner : memscan_scanner)
    (match_progress : Nat) (calls : List os_call) : step_result :=
  match memscan_scanner_next_region env region_fuel scanner with
  | none => step_result.timeout
  | some r =>
    if r.ret = false then
      -- we could not find another region: we ran out or ran into an error
      step_result.returned
        { ret := false, scanner := r.scanner, match_write := none,
          error_write := r.error_write, calls := calls ++ r.calls }
    else
      scan_load env
        { r.scanner with page_address := r.scanner.region_address, scan_index := 0 }
        -- if this new region is not contiguous, reset the match progress
        (if wrap64 (r.scanner.page_address + r.scanner.scan_index) ≠ r.scanner.region_address
          then 0 else match_progress)
        true (calls ++ r.calls)

/-- The test of line 230: the scan index, converted to `vm_size_t`, equals the page size. -/
def at_page_end (scanner : memscan_scanner) : Bool :=
  decide (scanner.scan_index % 18446744073709551616 = (scanner.page_size : Int))

/-- Lines 230-234: at the end of a page, step forward to the start of the next one. -/
def page_end_step (scanner : memscan_scanner) : memscan_scanner :=
  if at_page_end scanner then
    { scanner with
      page_address := (scanner.page_address + scanner.page_size) % U64
      scan_index := 0 }
  else scanner

/-- The test of line 238: the scan position is at or past the end of the current region (and
the scan has not rolled back into the previous page). -/
def region_ended (scanner : memscan_scanner) : Prop :=
  0 ≤ scanner.scan_index ∧
    (scanner.region_address + scanner.region_size) % U64 ≤
      wrap64 (scanner.page_address + scanner.scan_index)

instance (scanner : memscan_scanner) : Decidable (region_ended scanner) := by
  unfold region_ended
  infer_instance

/-- One iteration of the `while(true)` loop of `memscan_scanner_next` (lines 227-306).
`region_fuel` is the fuel of the region enumeration it may call. -/
def scan_step (env : mach_env) (region_fuel : Nat) (scanner : memscan_scanner)
    (match_progress : Nat) (calls : List os_call) : step_result :=
  if region_ended (page_end_step scanner) then
    scan_region env region_fuel (page_end_step scanner) match_progress calls
  else scan_load env (page_end_step scanner) match_progress (at_page_end scanner) calls

/-- The `while(true)` loop of `memscan_scanner_next`, with `match_progress` and the kernel calls
issued so far. -/
def scan_loop (env : mach_env) (region_fuel : Nat) :
    Nat → memscan_scanner → Nat → List os_call → outcome next_result
  | 0, _, _, _ => outcome.timeout
  | fuel + 1, scanner, match_progress, calls =>
    match scan_step env region_fuel scanner match_progress calls with
    | step_result.again scanner match_progress calls =>
      scan_loop env region_fuel fuel scanner match_progress calls
    | step_result.returned r => outcome.done r
    | step_result.fault => outcome.fault
    | step_result.timeout => outcome.timeout

/-- The function `memscan_scanner_next`: `fuel` bounds the iterations of its loop and of each
region enumeration it calls. -/
def memscan_scanner_next (env : mach_env) (fuel : Nat) (scanner : memscan_scanner) :
    outcome next_result :=
  if scanner.page_size = 0 then
    -- this is the first call
    if env.host_page_size.1 ≠ 0 then
      outcome.done
        { ret := false, scanner := scanner, match_write := none,
          error_write := some { memscan := MEMSCAN_ERROR_PAGE_SIZE_FAILED,
                                mach := env.host_page_size.1 },
          calls := [os_call.page_size_query] }
    else
      scan_loop env fuel fuel
        { scanner with
          page_size := env.host_page_size.2
          page_buffer := env.malloc 0 env.host_page_size.2
          previous_page_buffer := env.malloc 1 env.host_page_size.2 }
        0 [os_call.page_size_query]
  else scan_loop env fuel fuel scanner 0 []

/-- The function `memscan_read`: the returned buffer (`none` is the null pointer) and the value
stored through `error`, if one was stored. -/
def memscan_read (env : mach_env) (target : memscan_target) (start length : Nat) :
    Option (List Nat) × Option memscan_error :=
  let read := env.vm_read_overwrite target.task start length
  if read.1 ≠ 0 then
    (none, some { memscan := MEMSCAN_ERROR_VM_READ_MEMORY_FAILED, mach := read.1 })
  else (some read.2, none)

/-! ## Callers and synthetic targets -/

/-- A caller that invokes `memscan_scanner_next` on one scanner until it returns false (at most
`calls` times) and collects the reported addresses, in order, with the result of the last call. -/
def scan_until_false (env : mach_env) (fuel : Nat) :
    Nat → memscan_scanner → outcome (List Nat × next_result)
  | 0, _ => outcome.timeout
  | calls + 1, scanner =>
    match memscan_scanner_next env fuel scanner with
    | outcome.done r =>
      if r.ret = false then outcome.done ([], r)
      else
        match scan_until_false env fuel calls r.scanner with
        | outcome.done (found, last) =>
          outcome.done ((r.match_write.toList.map memscan_match.address) ++ found, last)
        | outcome.fault => outcome.fault
        | outcome.timeout => outcome.timeout
    | outcome.fault => outcome.fault
    | outcome.timeout => outcome.timeout

/-- The bytes of a memory at the addresses `address`, ..., `address + size - 1`. -/
def memory_slice (memory : Nat → Nat) (address size : Nat) : List Nat :=
  (List.range size).map (fun i => memory (address + i))

/-- A region of a synthetic address space. -/
structure vm_region where
  address : Nat
  size : Nat
  protection : Nat
  is_submap : Bool
deriving DecidableEq, Repr

/-- A synthetic target: a page size, the regions of the address space in increasing address order
and the bytes of the memory. The region query answers with the first region that ends after the
queried address, and with `KERN_INVALID_ADDRESS` (arguments untouched) when there is none; a read
succeeds when the range lies inside one region; fresh buffers are zero-filled. -/
def layout_env (page_size : Nat) (regions : List vm_region) (memory : Nat → Nat) : mach_env :=
  { host_page_size := (0, page_size)
    vm_region_recurse_64 := fun _ address size depth =>
      match regions.find? (fun r => decide (address < r.address + r.size)) with
      | some r =>
        { kr := 0, address := r.address, size := r.size, depth := depth,
          is_submap := r.is_submap, protection := r.protection }
      | none =>
        { kr := KERN_INVALID_ADDRESS, address := address, size := size, depth := depth,
          is_submap := false, protection := 0 }
    vm_read_overwrite := fun _ address size =>
      if regions.any (fun r => decide (r.address ≤ address ∧ address + size ≤ r.address + r.size))
      then (0, memory_slice memory address size)
      else (KERN_INVALID_ADDRESS, [])
    malloc := fun _ size => List.replicate size 0 }

/-- The memory that holds the listed bytes from address `base` on, and zero elsewhere. -/
def memory_of (base : Nat) (bytes : List Nat) : Nat → Nat :=
  fun a => if base ≤ a then bytes.getD (a - base) 0 else 0

/-- A target handle for the scenarios. -/
def demo_target : memscan_target := { pid := 1, task := 7 }

/-- The filter with no bounds. -/
def unbounded : memscan_filter := { start_address := 0, end_address := 0 }

/-- A leaf region with the default protection (read and write), which the enumerator accepts. -/
def leaf_region (address size : Nat) : vm_region :=
  { address := address, size := size, protection := 3, is_submap := false }

/-- The signature that asks for exactly the listed bytes (no wildcard). -/
def exact_signature (bytes : List Nat) : memscan_signature :=
  { length := bytes.length, signature := bytes, mask := bytes.map (fun _ => true) }

/-- The content of a caller's slot after a call that stored `write` through the pointer to it
(or stored nothing). -/
def slot_after {α : Type} (slot : α) (write : Option α) : α := write.getD slot

/-- A hexadecimal digit of the rendering, in upper or lower case. -/
def hex_digit (upper : Bool) (d : Nat) : Char :=
  if d < 10 then Char.ofNat (48 + d)
  else if upper then Char.ofNat (55 + d) else Char.ofNat (87 + d)

/-- The rendering of one position of a signature: two hexadecimal digits for an exact byte,
`??` for a wildcard. -/
def render_entry (upper : Bool) (e : Nat × Bool) : Char × Char :=
  if e.2 then (hex_digit upper (e.1 / 16), hex_digit upper (e.1 % 16)) else ('?', '?')

/-- The rendering of a list of (byte, mask) pairs as signature text. The sources have no
formatting function; this one follows the text format the parser reads. -/
def render (upper : Bool) : List (Nat × Bool) → List Char
  | [] => []
  | e :: es => (render_entry upper e).1 :: (render_entry upper e).2 :: render upper es

/-! ## Specification vocabulary -/

/-- The signature occurs at address `a` of the memory: every position whose mask is set holds
the byte of the signature. -/
def occurs_at (memory : Nat → Nat) (sig : memscan_signature) (a : Nat) : Prop :=
  ∀ j, j < sig.length → sig.mask[j]? = some true → sig.signature[j]? = some (memory (a + j))

instance (memory : Nat → Nat) (sig : memscan_signature) (a : Nat) :
    Decidable (occurs_at memory sig a) := by
  unfold occurs_at
  infer_instance

/-- The invariant of the signature type: both arrays have `length` elements. -/
def well_formed (sig : memscan_signature) : Prop :=
  sig.signature.length = sig.length ∧ sig.mask.length = sig.length

/-- The reply describes a leaf region that passes the protection filter of the enumerator. -/
def accepts (reply : vm_region_reply) : Prop :=
  reply.kr = 0 ∧ reply.is_submap = false ∧
    reply.protection &&& VM_PROT_DEFAULT = VM_PROT_DEFAULT

/-- The kernel reports `[address, address + size)` as a leaf region that passes the protection
filter, in answer to some region query. -/
def accepted (env : mach_env) (task address size : Nat) : Prop :=
  ∃ a sz d, accepts (env.vm_region_recurse_64 task a sz d) ∧
    (env.vm_region_recurse_64 task a sz d).address = address ∧
    (env.vm_region_recurse_64 task a sz d).size = size

/-- The assumptions on the target: the page size query succeeds with a page size `P` that an
`int` holds, every accepted region is a positive number of pages that ends below 2^64, and every
successful page read returns the bytes of one unchanging memory. -/
structure stable_target (env : mach_env) (task P : Nat) (memory : Nat → Nat) : Prop where
  page_size : env.host_page_size = (0, P)
  page_pos : 0 < P
  page_small : P < 2147483648
  regions : ∀ a sz d, accepts (env.vm_region_recurse_64 task a sz d) →
    0 < (env.vm_region_recurse_64 task a sz d).size ∧
    P ∣ (env.vm_region_recurse_64 task a sz d).size ∧
    (env.vm_region_recurse_64 task a sz d).address + (env.vm_region_recurse_64 task a sz d).size
      < 18446744073709551616
  reads : ∀ a, (env.vm_read_overwrite task a P).1 = 0 →
    (env.vm_read_overwrite task a P).2 = memory_slice memory a P

/-- The loop invariant of `memscan_scanner_next` at the top of an iteration, with
`match_progress = mp`: the current page lies in the current accepted region and is loaded, the
attempt under way started less than a page before the current page, the previous buffer holds
the page before whenever the attempt started there, and the bytes of the attempt agree with the
signature. -/
structure scan_inv (env : mach_env) (task P : Nat) (memory : Nat → Nat)
    (sig : memscan_signature) (flt : memscan_filter) (s : memscan_scanner) (mp : Nat) :
    Prop where
  task_eq : s.target.task = task
  sig_eq : s.signature = sig
  filter_eq : s.filter = flt
  page_size_eq : s.page_size = P
  region_ok : accepted env task s.region_address s.region_size
  page_lo : s.region_address ≤ s.page_address
  page_hi : s.page_address + P ≤ s.region_address + s.region_size
  rest_al : P ∣ (s.region_address + s.region_size - (s.page_address + P))
  buffer : s.page_buffer = memory_slice memory s.page_address P
  progress_lt : mp < sig.length
  index_le : s.scan_index ≤ P
  start_gt : -(P : Int) < s.scan_index - mp
  history : s.scan_index - mp < 0 →
    s.previous_page_buffer = memory_slice memory (s.page_address - P) P ∧
    P ≤ s.page_address ∧
    (s.region_address + P ≤ s.page_address ∨
      ∃ pb ps, accepted env task pb ps ∧ pb + ps = s.region_address ∧ P ≤ ps)
  prefix_ok : ∀ j, j < mp → sig.mask[j]? = some true →
    sig.signature[j]? = some (memory (Int.toNat (s.page_address + s.scan_index - mp) + j))
  filter_ok : s.filter.end_address ≠ 0 → s.page_address ≤ s.filter.end_address

/-- The scanners a caller holds after creating one and calling `memscan_scanner_next` on it a
number of times, each call having returned true. -/
inductive reachable (env : mach_env) (target : memscan_target) (sig : memscan_signature)
    (filter : memscan_filter) : memscan_scanner → Prop where
  | created : reachable env target sig filter (memscan_scanner_create target sig filter)
  | next (s : memscan_scanner) (fuel : Nat) (r : next_result) :
    reachable env target sig filter s → memscan_scanner_next env fuel s = outcome.done r →
    r.ret = true → reachable env target sig filter r.scanner

/-- The scanner `s'` differs from `s` in the three region fields at most. -/
def same_scan (s s' : memscan_scanner) : Prop :=
  s' = { s with region_address := s'.region_address, region_size := s'.region_size,
                region_depth := s'.region_depth }

/-- What holds of a call that returned true: the scanner satisfies the invariant again, an
address `a` was stored through `match`, the signature occurs at `a`, the scan position is the
byte after the occurrence, and the occurrence starts in the current region or in an accepted
region that ends where the current one starts. -/
def match_ok (env : mach_env) (task P : Nat) (memory : Nat → Nat) (sig : memscan_signature)
    (flt : memscan_filter) (r : next_result) : Prop :=
  scan_inv env task P memory sig flt r.scanner 0 ∧
  ∃ a, r.match_write = some { address := a } ∧ occurs_at memory sig a ∧
    ((a + sig.length : Nat) : Int) = r.scanner.page_address + r.scanner.scan_index ∧
    (r.scanner.region_address ≤ a ∨
      ∃ pb ps, accepted env task pb ps ∧ pb + ps = r.scanner.region_address ∧ pb ≤ a)

/-- What holds of the result of an iteration started under the invariant. -/
def step_ok (env : mach_env) (task P : Nat) (memory : Nat → Nat) (sig : memscan_signature)
    (flt : memscan_filter) : step_result → Prop
  | step_result.again s mp _ => scan_inv env task P memory sig flt s mp
  | step_result.returned r => r.ret = true → match_ok env task P memory sig flt r
  | step_result.fault => False
  | step_result.timeout => True

/-- The state in which `scan_region` may be entered with `match_progress = mp`: the scan index is
0 and, when a partial match is under way, the page buffer holds the page that ends at
`page_address`, that page is the end of an accepted region, and its last `mp` bytes agree with
the signature. -/
structure entry_inv (env : mach_env) (task P : Nat) (memory : Nat → Nat)
    (sig : memscan_signature) (flt : memscan_filter) (s : memscan_scanner) (mp : Nat) :
    Prop where
  task_eq : s.target.task = task
  sig_eq : s.signature = sig
  filter_eq : s.filter = flt
  page_size_eq : s.page_size = P
  index_eq : s.scan_index = 0
  address_lt : s.page_address < 18446744073709551616
  progress_lt : mp < sig.length
  carry : 0 < mp →
    s.page_buffer = memory_slice memory (s.page_address - P) P ∧ P ≤ s.page_address ∧
    (∃ pb ps, accepted env task pb ps ∧ pb + ps = s.page_address ∧ P ≤ ps) ∧
    ∀ j, j < mp → sig.mask[j]? = some true →
      sig.signature[j]? = some (memory (s.page_address - mp + j))

/-! ## Vocabulary for a target with one accepted region -/

/-- A target whose address space, as the scanner sees it with an unbounded filter, is the single
accepted region `[base, base + size)`: the first region query (at address 0) answers with it, the
query at its end answers with the invalid-address sentinel, and every page inside it can be
read. -/
structure single_region (env : mach_env) (task P : Nat) (memory : Nat → Nat)
    (base size : Nat) : Prop where
  stable : stable_target env task P memory
  first_accepts : accepts (env.vm_region_recurse_64 task 0 0 0)
  first_address : (env.vm_region_recurse_64 task 0 0 0).address = base
  first_size : (env.vm_region_recurse_64 task 0 0 0).size = size
  last : (env.vm_region_recurse_64 task (base + size) size
    (env.vm_region_recurse_64 task 0 0 0).depth).kr = KERN_INVALID_ADDRESS
  reads : ∀ a, base ≤ a → a + P ≤ base + size → (env.vm_read_overwrite task a P).1 = 0

/-- The scanner is in the single region of the target. -/
structure region_inv (env : mach_env) (task base size : Nat) (s : memscan_scanner) : Prop where
  region_address_eq : s.region_address = base
  region_size_eq : s.region_size = size
  region_depth_eq : s.region_depth = (env.vm_region_recurse_64 task 0 0 0).depth

/-- The lowest of the `count` addresses from `lo` on at which the signature occurs. -/
def first_occurrence (memory : Nat → Nat) (sig : memscan_signature) : Nat → Nat → Option Nat
  | 0, _ => none
  | count + 1, lo =>
    if occurs_at memory sig lo then some lo
    else first_occurrence memory sig count (lo + 1)

/-- The lowest address in `[lo, hi)` at which the signature occurs wholly below `hi`. -/
def first_inside (memory : Nat → Nat) (sig : memscan_signature) (lo hi : Nat) : Option Nat :=
  first_occurrence memory sig (hi + 1 - (lo + sig.length)) lo

/-- The occurrences of the signature wholly inside `[lo, hi)` taken greedily from the left: the
lowest one, then the lowest one that starts at or after the end of the one before, and so on
(at most `count` of them). -/
def greedy_occurrences (memory : Nat → Nat) (sig : memscan_signature) (hi : Nat) :
    Nat → Nat → List Nat
  | 0, _ => []
  | count + 1, lo =>
    match first_inside memory sig lo hi with
    | none => []
    | some a => a :: greedy_occurrences memory sig hi count (a + sig.length)

/-- The address at which the attempt under way started. -/
def attempt_start (s : memscan_scanner) (mp : Nat) : Nat :=
  Int.toNat (s.page_address + s.scan_index - mp)

/-- A bound on the iterations the loop still makes before it returns, in a region that ends at
`hi`: every iteration moves the attempt forward or starts a later one. -/
def scan_measure (hi : Nat) (sig : memscan_signature) (s : memscan_scanner) (mp : Nat) : Nat :=
  (hi - attempt_start s mp) * (sig.length + 1) + (sig.length - mp)

/-- What holds of a call made in the single region with no occurrence in `[f, start)` where
`start` is the start of the attempt under way: it returns the lowest occurrence from `f` on that
lies inside the region, or, when there is none, false without an error. -/
def call_post (env : mach_env) (task P : Nat) (memory : Nat → Nat) (sig : memscan_signature)
    (base size f : Nat) (r : next_result) : Prop :=
  (r.ret = true ∧ match_ok env task P memory sig { start_address := 0, end_address := 0 } r ∧
    region_inv env task base size r.scanner ∧
    ∃ a, r.match_write = some { address := a } ∧ f ≤ a ∧
      ∀ a', f ≤ a' → a' < a → ¬ occurs_at memory sig a') ∨
  (r.ret = false ∧ r.match_write = none ∧ r.error_write = none ∧
    ∀ a', f ≤ a' → a' + sig.length ≤ base + size → ¬ occurs_at memory sig a')

/-- The scanner of the first call once the page size is known and the buffers are allocated. -/
def first_scanner (env : mach_env) (target : memscan_target) (sig : memscan_signature)
    (flt : memscan_filter) : memscan_scanner :=
  { memscan_scanner_create target sig flt with
    page_size := env.host_page_size.2
    page_buffer := env.malloc 0 env.host_page_size.2
    previous_page_buffer := env.malloc 1 env.host_page_size.2 }

/-! ## Vocabulary for a target with a chain of accepted regions -/

/-- The region enumeration of a target with the unbounded filter, from the cursor `cur` (the
address and size of the region found last, or `(0, 0)` at the start): the queries answer with
the listed accepted regions (address, size), in order, and then with the invalid-address
sentinel, whatever the depth they are issued with. -/
def enumerates (env : mach_env) (task : Nat) : Nat × Nat → List (Nat × Nat) → Prop
  | cur, [] => ∀ d,
    (env.vm_region_recurse_64 task ((cur.1 + cur.2) % U64) cur.2 d).kr = KERN_INVALID_ADDRESS
  | cur, r :: rest =>
    (∀ d, accepts (env.vm_region_recurse_64 task ((cur.1 + cur.2) % U64) cur.2 d) ∧
      (env.vm_region_recurse_64 task ((cur.1 + cur.2) % U64) cur.2 d).address = r.1 ∧
      (env.vm_region_recurse_64 task ((cur.1 + cur.2) % U64) cur.2 d).size = r.2) ∧
    enumerates env task r rest

/-- Every page inside the listed regions can be read. -/
def readable (env : mach_env) (task P : Nat) (regions : List (Nat × Nat)) : Prop :=
  ∀ r, r ∈ regions → ∀ a, r.1 ≤ a → a + P ≤ r.1 + r.2 →
    (env.vm_read_overwrite task a P).1 = 0

/-- The next occurrence the scan meets from the address `f` on, in the run of contiguous
regions that ends at `hi` and then in the regions still to come: the lowest occurrence wholly
below `hi`; when there is none, the search goes on in the next region, from `f` when that
region starts at `hi` (the run goes on) and from its base otherwise. The result is the address
with the end of the run and the regions still to come at that point. -/
def next_occurrence (memory : Nat → Nat) (sig : memscan_signature) :
    List (Nat × Nat) → Nat → Nat → Option (Nat × Nat × List (Nat × Nat))
  | rest, f, hi =>
    match first_inside memory sig f hi with
    | some a => some (a, hi, rest)
    | none =>
      match rest with
      | [] => none
      | r :: rest' => next_occurrence memory sig rest' (if r.1 = hi then f else r.1) (r.1 + r.2)

/-- The addresses a scan of the listed regions reports, call after call (at most `count`): each
call reports the next occurrence from the end of the occurrence reported before. -/
def all_occurrences (memory : Nat → Nat) (sig : memscan_signature) :
    Nat → List (Nat × Nat) → Nat → Nat → List Nat
  | 0, _, _, _ => []
  | count + 1, rest, f, hi =>
    match next_occurrence memory sig rest f hi with
    | none => []
    | some (a, hi', rest') => a :: all_occurrences memory sig count rest' (a + sig.length) hi'

/-- A target whose accepted regions, as the enumerator meets them with the unbounded filter,
are the listed ones (address, size), each of whose pages can be read. -/
structure region_chain (env : mach_env) (task P : Nat) (memory : Nat → Nat)
    (regions : List (Nat × Nat)) : Prop where
  stable : stable_target env task P memory
  chain : enumerates env task (0, 0) regions
  reads : readable env task P regions

/-- The sum of the sizes of the listed regions. -/
def total_size (regions : List (Nat × Nat)) : Nat := (regions.map Prod.snd).sum

/-- The invariant of a scan of a chain of regions at the top of an iteration: the loop
invariant, the regions still to come after the current one, whose pages can be read like those
of the current one, a bound `T` on the bytes still to scan, and no occurrence from the address
`f` up to the start of the attempt under way. -/
structure chain_inv (env : mach_env) (task P : Nat) (memory : Nat → Nat)
    (sig : memscan_signature) (T : Nat) (rest : List (Nat × Nat)) (f : Nat)
    (s : memscan_scanner) (mp : Nat) : Prop where
  inv : scan_inv env task P memory sig { start_address := 0, end_address := 0 } s mp
  chain : enumerates env task (s.region_address, s.region_size) rest
  reads_here : ∀ a, s.region_address ≤ a → a + P ≤ s.region_address + s.region_size →
    (env.vm_read_overwrite task a P).1 = 0
  reads_rest : readable env task P rest
  budget : s.region_size + total_size rest ≤ T
  frontier_le : f ≤ attempt_start s mp
  no_earlier : ∀ a', f ≤ a' → a' < attempt_start s mp → ¬ occurs_at memory sig a'

/-- A bound on the iterations the loop still makes in a chain of regions. -/
def chain_measure (sig : memscan_signature) (s : memscan_scanner) (mp : Nat)
    (rest : List (Nat × Nat)) : Nat :=
  (s.region_address + s.region_size - attempt_start s mp + total_size rest) *
    (sig.length + 1) + (sig.length - mp)

/-- What holds of a call made in a chain of regions, given the next occurrence `spec` the
specification finds: the call reports it, and the scanner is ready for the next call; or there
is none and the call returns false without an error. -/
def chain_post (env : mach_env) (task P : Nat) (memory : Nat → Nat) (sig : memscan_signature)
    (T : Nat) (spec : Option (Nat × Nat × List (Nat × Nat))) (r : next_result) : Prop :=
  match spec with
  | none => r.ret = false ∧ r.match_write = none ∧ r.error_write = none
  | some (a, hi, rest) =>
    r.ret = true ∧ r.match_write = some { address := a } ∧
    chain_inv env task P memory sig T rest (a + sig.length) r.scanner 0 ∧
    r.scanner.region_address + r.scanner.region_size = hi ∧
    attempt_start r.scanner 0 = a + sig.length

/-! ## Vocabulary for the region enumerator and for the log of kernel calls -/

/-- The depth the enumerator holds after a reply that did not end its loop: the depth the kernel
left, plus one (as a `uint32_t`) when the reply reports a submap. -/
def depth_after (reply : vm_region_reply) : Nat :=
  if reply.is_submap then (reply.depth + 1) % 4294967296 else reply.depth

/-- The region queries `qs` are the ones the loop of the enumerator issues from the cursor
`(address, size, depth)`: the first at `address + size`, each further one at the end of the
region the reply before reported, with the size and the depth that reply left; the replies to
all but the last are successes that the enumerator does not accept (a submap or a leaf that
fails the protection filter), and the last reply is a failure or is accepted. -/
def enumeration (env : mach_env) (task : Nat) : List os_call → Nat → Nat → Nat → Prop
  | [], _, _, _ => False
  | [q], address, size, depth =>
    q = os_call.region_query task ((address + size) % U64) size depth ∧
    ((env.vm_region_recurse_64 task ((address + size) % U64) size depth).kr ≠ 0 ∨
      accepts (env.vm_region_recurse_64 task ((address + size) % U64) size depth))
  | q :: q' :: rest, address, size, depth =>
    q = os_call.region_query task ((address + size) % U64) size depth ∧
    (env.vm_region_recurse_64 task ((address + size) % U64) size depth).kr = 0 ∧
    ¬ accepts (env.vm_region_recurse_64 task ((address + size) % U64) size depth) ∧
    enumeration env task (q' :: rest)
      (env.vm_region_recurse_64 task ((address + size) % U64) size depth).address
      (env.vm_region_recurse_64 task ((address + size) % U64) size depth).size
      (depth_after (env.vm_region_recurse_64 task ((address + size) % U64) size depth))

/-- What the enumerator leaves behind, given the reply `reply` to its last query. -/
def enumerator_post (reply : vm_region_reply) (r : region_result) : Prop :=
  r.scanner.region_address = reply.address ∧ r.scanner.region_size = reply.size ∧
  r.scanner.region_depth = reply.depth ∧
  (r.ret = true ↔ accepts reply) ∧
  (reply.kr = 0 → r.error_write = none) ∧
  (reply.kr = KERN_INVALID_ADDRESS → r.error_write = none) ∧
  (reply.kr ≠ 0 → reply.kr ≠ KERN_INVALID_ADDRESS →
    r.error_write = some { memscan := MEMSCAN_ERROR_VM_REGION_INFO_FAILED, mach := reply.kr })

/-- A synthetic target with one level of nesting: a region query with depth 0 sees the regions
`outer` (a submap is one entry there), a query with a depth of 1 or more sees the regions
`inner` (the address space with the contents of the submaps in place of their entries). The
page size, the reads and the fresh buffers are those of `layout_env` on the inner regions. -/
def nested_env (page_size : Nat) (outer inner : List vm_region) (memory : Nat → Nat) :
    mach_env :=
  { host_page_size := (0, page_size)
    vm_region_recurse_64 := fun task address size depth =>
      if depth = 0 then
        (layout_env page_size outer memory).vm_region_recurse_64 task address size depth
      else (layout_env page_size inner memory).vm_region_recurse_64 task address size depth
    vm_read_overwrite := (layout_env page_size inner memory).vm_read_overwrite
    malloc := (layout_env page_size inner memory).malloc }

/-- A submap entry of a synthetic address space. -/
def submap_region (address size : Nat) : vm_region :=
  { address := address, size := size, protection := 3, is_submap := true }

/-- The query the loop of the enumerator issues when the scanner is `s`. -/
def cursor_query (s : memscan_scanner) : os_call :=
  os_call.region_query s.target.task ((s.region_address + s.region_size) % U64) s.region_size
    s.region_depth

/-- The reply of the kernel to the query the loop of the enumerator issues when the scanner
is `s`. -/
def cursor_reply (env : mach_env) (s : memscan_scanner) : vm_region_reply :=
  env.vm_region_recurse_64 s.target.task ((s.region_address + s.region_size) % U64)
    s.region_size s.region_depth

/-- The failure a logged kernel call ended in, as the category the scanner reports it under and
the status of the call: a page-size query or a page read with a status other than 0, a region
query with a status that is neither 0 nor the invalid-address sentinel. `none` is a call that
did not fail. -/
def failure (env : mach_env) : os_call → Option (Int × Int)
  | os_call.page_size_query =>
    if env.host_page_size.1 ≠ 0 then
      some (MEMSCAN_ERROR_PAGE_SIZE_FAILED, env.host_page_size.1)
    else none
  | os_call.region_query task address size depth =>
    if (env.vm_region_recurse_64 task address size depth).kr ≠ 0 ∧
        (env.vm_region_recurse_64 task address size depth).kr ≠ KERN_INVALID_ADDRESS then
      some (MEMSCAN_ERROR_VM_REGION_INFO_FAILED,
        (env.vm_region_recurse_64 task address size depth).kr)
    else none
  | os_call.page_read task address size =>
    if (env.vm_read_overwrite task address size).1 ≠ 0 then
      some (MEMSCAN_ERROR_VM_READ_MEMORY_FAILED, (env.vm_read_overwrite task address size).1)
    else none

/-- None of the listed calls failed. -/
def no_failure (env : mach_env) (calls : List os_call) : Prop :=
  ∀ c, c ∈ calls → failure env c = none

/-- Every failed call in the log of the result is the last call of the log, and the result is
false with the category and the status of that call stored through `error` and nothing stored
through `match`. -/
def surfaced (env : mach_env) (r : next_result) : Prop :=
  ∀ (i : Nat) (c : os_call) (cat k : Int), r.calls[i]? = some c →
    failure env c = some (cat, k) →
    i + 1 = r.calls.length ∧ r.ret = false ∧
    r.error_write = some { memscan := cat, mach := k } ∧ r.match_write = none

/-- What holds of the result of an iteration that was started with a log without a failed
call: the log still has none when the loop goes on, and a failed call is surfaced when the
iteration returns. -/
def surfaced_step (env : mach_env) : step_result → Prop
  | step_result.again _ _ calls => no_failure env calls
  | step_result.returned r => surfaced env r
  | step_result.fault => True
  | step_result.timeout => True

/-- A synthetic target like `layout_env` whose page-size query and whose region queries end
in the given statuses when these are not 0. -/
def faulty_env (page_status region_status : Int) (page_size : Nat) (regions : List vm_region)
    (memory : Nat → Nat) : mach_env :=
  { host_page_size := (page_status, page_size)
    vm_region_recurse_64 := fun task address size depth =>
      if region_status ≠ 0 then
        { kr := region_status, address := address, size := size, depth := depth,
          is_submap := false, protection := 0 }
      else (layout_env page_size regions memory).vm_region_recurse_64 task address size depth
    vm_read_overwrite := (layout_env page_size regions memory).vm_read_overwrite
    malloc := (layout_env page_size regions memory).malloc }

/-! ## The iteration up to the byte fetch, and the bounds of the indices -/

/-- Lines 264-277: `scan_read` up to the byte fetch. The result `again scanner match_progress
calls` stands for: the iteration reaches the byte fetch of line 279 in this state. -/
def read_before_fetch (env : mach_env) (scanner : memscan_scanner) (match_progress : Nat)
    (calls : List os_call) : step_result :=
  let read := env.vm_read_overwrite scanner.target.task scanner.page_address scanner.page_size
  let calls := calls ++
    [os_call.page_read scanner.target.task scanner.page_address scanner.page_size]
  if read.1 ≠ 0 then
    step_result.returned
      { ret := false,
        scanner := { scanner with
          previous_page_buffer := scanner.page_buffer
          page_buffer := scanner.previous_page_buffer },
        match_write := none,
        error_write := some { memscan := MEMSCAN_ERROR_VM_READ_MEMORY_FAILED,
                              mach := read.1 },
        calls := calls }
  else
    step_result.again
      { scanner with
        previous_page_buffer := scanner.page_buffer
        page_buffer := read.2 }
      match_progress calls

/-- Lines 258-277: `scan_load` up to the byte fetch. -/
def load_before_fetch (env : mach_env) (scanner : memscan_scanner) (match_progress : Nat)
    (load_page : Bool) (calls : List os_call) : step_result :=
  if load_page then
    if scanner.filter.end_address ≠ 0 ∧ scanner.page_address > scanner.filter.end_address then
      step_result.returned
        { ret := false, scanner := scanner, match_write := none, error_write := none,
          calls := calls }
    else read_before_fetch env scanner match_progress calls
  else step_result.again scanner match_progress calls

/-- Lines 239-277: `scan_region` up to the byte fetch. -/
def region_before_fetch (env : mach_env) (region_fuel : Nat) (scanner : memscan_scanner)
    (match_progress : Nat) (calls : List os_call) : step_result :=
  match memscan_scanner_next_region env region_fuel scanner with
  | none => step_result.timeout
  | some r =>
    if r.ret = false then
      step_result.returned
        { ret := false, scanner := r.scanner, match_write := none,
          error_write := r.error_write, calls := calls ++ r.calls }
    else
      load_before_fetch env
        { r.scanner with page_address := r.scanner.region_address, scan_index := 0 }
        (if wrap64 (r.scanner.page_address + r.scanner.scan_index) ≠ r.scanner.region_address
          then 0 else match_progress)
        true (calls ++ r.calls)

/-- Lines 227-277: one iteration of the loop of `memscan_scanner_next` up to the byte fetch. -/
def step_before_fetch (env : mach_env) (region_fuel : Nat) (scanner : memscan_scanner)
    (match_progress : Nat) (calls : List os_call) : step_result :=
  if region_ended (page_end_step scanner) then
    region_before_fetch env region_fuel (page_end_step scanner) match_progress calls
  else load_before_fetch env (page_end_step scanner) match_progress (at_page_end scanner) calls

/-- The rest of an iteration that reached the byte fetch: the fetch and the comparison. -/
def finish_step : step_result → step_result
  | step_result.again scanner match_progress calls => scan_compare scanner match_progress calls
  | other => other

/-- The state at the byte fetch of an iteration (the scanner and the match progress), when the
iteration reaches it. -/
def fetch_state : step_result → List (memscan_scanner × Nat)
  | step_result.again scanner match_progress _ => [(scanner, match_progress)]
  | _ => []

/-- The states at the byte fetches of the loop of `memscan_scanner_next`, in order. -/
def loop_fetches (env : mach_env) (region_fuel : Nat) :
    Nat → memscan_scanner → Nat → List os_call → List (memscan_scanner × Nat)
  | 0, _, _, _ => []
  | fuel + 1, scanner, match_progress, calls =>
    fetch_state (step_before_fetch env region_fuel scanner match_progress calls) ++
    match scan_step env region_fuel scanner match_progress calls with
    | step_result.again scanner match_progress calls =>
      loop_fetches env region_fuel fuel scanner match_progress calls
    | _ => []

/-- The states at the byte fetches of a call of `memscan_scanner_next`, in order. -/
def next_fetches (env : mach_env) (fuel : Nat) (scanner : memscan_scanner) :
    List (memscan_scanner × Nat) :=
  if scanner.page_size = 0 then
    if env.host_page_size.1 ≠ 0 then []
    else
      loop_fetches env fuel fuel
        { scanner with
          page_size := env.host_page_size.2
          page_buffer := env.malloc 0 env.host_page_size.2
          previous_page_buffer := env.malloc 1 env.host_page_size.2 }
        0 [os_call.page_size_query]
  else loop_fetches env fuel fuel scanner 0 []

/-- The scanners a caller holds after creating one and calling `memscan_scanner_next` on it a
number of times, whatever the calls returned. -/
inductive called (env : mach_env) (target : memscan_target) (sig : memscan_signature)
    (filter : memscan_filter) : memscan_scanner → Prop where
  | created : called env target sig filter (memscan_scanner_create target sig filter)
  | next (s : memscan_scanner) (fuel : Nat) (r : next_result) :
    called env target sig filter s → memscan_scanner_next env fuel s = outcome.done r →
    called env target sig filter r.scanner

/-- The part of the loop invariant that bounds the indices: the buffers have the size of a
page, the scan index is at most the page size, and the attempt under way started less than a
page before the current page. -/
structure index_inv (P : Nat) (sig : memscan_signature) (s : memscan_scanner) (mp : Nat) :
    Prop where
  sig_eq : s.signature = sig
  page_size_eq : s.page_size = P
  buffer_len : s.page_buffer.length = P
  previous_len : s.previous_page_buffer.length = P
  progress_lt : mp < sig.length
  index_le : s.scan_index ≤ P
  start_gt : -(P : Int) < s.scan_index - mp

/-- The assumptions on the buffers of a target: the page size `P` is positive and an `int` holds
it, and the buffers the allocator returns and the successful reads fill have the size asked
for. -/
structure sized_env (env : mach_env) (P : Nat) : Prop where
  page_size : env.host_page_size.2 = P
  page_pos : 0 < P
  page_small : P < 2147483648
  reads : ∀ t a, (env.vm_read_overwrite t a P).1 = 0 → (env.vm_read_overwrite t a P).2.length = P
  malloc : ∀ k, (env.malloc k P).length = P

/-- What holds of the result of an iteration, or of a part of one, started under the index
invariant: the invariant holds again, and no access went out of bounds. -/
def index_post (P : Nat) (sig : memscan_signature) : step_result → Prop
  | step_result.again s mp _ => index_inv P sig s mp
  | step_result.returned r => index_inv P sig r.scanner 0
  | step_result.fault => False
  | step_result.timeout => True

/-- What holds of the part of an iteration before the byte fetch, started under the index
invariant: at the fetch the scan index is inside the page or the page before it. -/
def index_fetch_post (P : Nat) (sig : memscan_signature) : step_result → Prop
  | step_result.again s mp _ => index_inv P sig s mp ∧ s.scan_index < P
  | step_result.returned r => index_inv P sig r.scanner 0
  | step_result.fault => False
  | step_result.timeout => True

/-- What holds of `region_before_fetch` started in a state in which `scan_region` may be
entered: when it reaches the byte fetch, the loop invariant holds at the first byte of the
region the enumerator returned, with the match progress kept if that byte is the scan position
and reset otherwise; when it returns, it returns false and stores no match; it faults never, and
runs out of fuel only if the enumerator does. -/
def entry_fetch_post (env : mach_env) (task P : Nat) (memory : Nat → Nat)
    (sig : memscan_signature) (flt : memscan_filter) (region_fuel : Nat) (s : memscan_scanner)
    (mp : Nat) : step_result → Prop
  | step_result.again s' mp' _ =>
    scan_inv env task P memory sig flt s' mp' ∧ s'.scan_index = 0 ∧
    s'.page_address = s'.region_address ∧
    ((s'.page_address = s.page_address ∧ mp' = mp) ∨ mp' = 0) ∧
    ∃ rr, memscan_scanner_next_region env region_fuel s = some rr ∧ rr.ret = true ∧
      s'.region_address = rr.scanner.region_address
  | step_result.returned r => r.ret = false ∧ r.match_write = none
  | step_result.fault => False
  | step_result.timeout => memscan_scanner_next_region env region_fuel s = none

/-- What holds of the part of an iteration before the byte fetch, started under the loop
invariant: when it reaches the byte fetch, the invariant holds with the scan index inside the
page or the page before, and either the scan position and the match progress are unchanged, or
the scan has moved to the first byte of the region the enumerator returned, with no match under
way; when it returns, it returns false and stores no match; it faults never, and runs out of
fuel only if the enumerator does. -/
def fetch_post (env : mach_env) (task P : Nat) (memory : Nat → Nat)
    (sig : memscan_signature) (flt : memscan_filter) (region_fuel : Nat) (s : memscan_scanner)
    (mp : Nat) : step_result → Prop
  | step_result.again s' mp' _ =>
    scan_inv env task P memory sig flt s' mp' ∧ s'.scan_index < P ∧
    (((s'.page_address : Int) + s'.scan_index = s.page_address + s.scan_index ∧ mp' = mp) ∨
      (mp' = 0 ∧ s'.scan_index = 0 ∧ s'.page_address = s'.region_address ∧
        ∃ rr, memscan_scanner_next_region env region_fuel (page_end_step s) = some rr ∧
          rr.ret = true ∧ s'.region_address = rr.scanner.region_address))
  | step_result.returned r => r.ret = false ∧ r.match_write = none
  | step_result.fault => False
  | step_result.timeout => memscan_scanner_next_region env region_fuel (page_end_step s) = none

/-! ## Vocabulary for termination and for the order of the matches -/

/-- The address space of the target is finite and in increasing address order: a region the
kernel reports in answer to a query is not empty, does not start at address 0, ends after the
address queried and at or below `top`; and the region reported in answer to a query at the end
of a reported region starts at or after that end. -/
structure ordered_space (env : mach_env) (task top : Nat) : Prop where
  top_lt : top < 18446744073709551616
  replies : ∀ a sz d, (env.vm_region_recurse_64 task a sz d).kr = 0 →
    0 < (env.vm_region_recurse_64 task a sz d).address ∧
    0 < (env.vm_region_recurse_64 task a sz d).size ∧
    a < (env.vm_region_recurse_64 task a sz d).address +
      (env.vm_region_recurse_64 task a sz d).size ∧
    (env.vm_region_recurse_64 task a sz d).address +
      (env.vm_region_recurse_64 task a sz d).size ≤ top
  order : ∀ a sz d sz2 d2, (env.vm_region_recurse_64 task a sz d).kr = 0 →
    (env.vm_region_recurse_64 task
      ((env.vm_region_recurse_64 task a sz d).address +
        (env.vm_region_recurse_64 task a sz d).size) sz2 d2).kr = 0 →
    (env.vm_region_recurse_64 task a sz d).address +
        (env.vm_region_recurse_64 task a sz d).size ≤
      (env.vm_region_recurse_64 task
        ((env.vm_region_recurse_64 task a sz d).address +
          (env.vm_region_recurse_64 task a sz d).size) sz2 d2).address

/-- The kernel reports `[address, address + size)` as a region in answer to some region query
(a leaf or a submap, whatever its protection). -/
def reported (env : mach_env) (task address size : Nat) : Prop :=
  ∃ a sz d, (env.vm_region_recurse_64 task a sz d).kr = 0 ∧
    (env.vm_region_recurse_64 task a sz d).address = address ∧
    (env.vm_region_recurse_64 task a sz d).size = size

/-- A bound on the iterations the loop of `memscan_scanner_next` still makes in an address
space that ends at `top`: every iteration moves the attempt forward or starts a later one. -/
def progress_measure (top : Nat) (sig : memscan_signature) (s : memscan_scanner) (mp : Nat) :
    Nat :=
  (top - attempt_start s mp) * (sig.length + 1) + (sig.length - mp)

/-- What holds of the part of an iteration before the byte fetch, started under the loop
invariant in an ordered address space: at the fetch the invariant holds, the attempt under way
has not moved back and the bound on the iterations has not grown; a return is a return of false
without a match; the enumerator runs out of fuel only when its fuel is at most `top`. -/
def advance_post (env : mach_env) (task P : Nat) (memory : Nat → Nat)
    (sig : memscan_signature) (flt : memscan_filter) (top region_fuel : Nat)
    (s : memscan_scanner) (mp : Nat) : step_result → Prop
  | step_result.again s' mp' _ =>
    scan_inv env task P memory sig flt s' mp' ∧ s'.scan_index < P ∧
    attempt_start s mp ≤ attempt_start s' mp' ∧
    progress_measure top sig s' mp' ≤ progress_measure top sig s mp
  | step_result.returned r => r.ret = false ∧ r.match_write = none
  | step_result.fault => False
  | step_result.timeout => region_fuel ≤ top

/-- What holds of an iteration started under the loop invariant in an ordered address space:
when the loop goes on, the invariant holds again, the attempt under way has not moved back and
the bound on the iterations has decreased; when the iteration returns, it returns true with a
match at the start of the attempt and without an error, or false without a match; it never
faults, and runs out of fuel only when the fuel of the enumerator is at most `top`. -/
def progress_post (env : mach_env) (task P : Nat) (memory : Nat → Nat)
    (sig : memscan_signature) (flt : memscan_filter) (top region_fuel : Nat)
    (s : memscan_scanner) (mp : Nat) : step_result → Prop
  | step_result.again s' mp' _ =>
    scan_inv env task P memory sig flt s' mp' ∧
    attempt_start s mp ≤ attempt_start s' mp' ∧
    progress_measure top sig s' mp' < progress_measure top sig s mp
  | step_result.returned r =>
    (r.ret = true ∧ r.error_write = none ∧
      ∃ a, r.match_write = some { address := a } ∧ attempt_start s mp ≤ a) ∨
    (r.ret = false ∧ r.match_write = none)
  | step_result.fault => False
  | step_result.timeout => region_fuel ≤ top

theorem memory_slice_length (memory : Nat → Nat) (a n : Nat) :
    (memory_slice memory a n).length = n := by
  simp [memory_slice]

theorem memory_slice_get (memory : Nat → Nat) (a n k : Nat) (h : k < n) :
    (memory_slice memory a n)[k]? = some (memory (a + k)) := by
  simp [memory_slice, List.getElem?_map, List.getElem?_range, h]

theorem wrap32_eq (z : Int) (h0 : -2147483648 ≤ z) (h1 : z < 2147483648) : wrap32 z = z := by
  unfold wrap32; omega

theorem wrap64_eq (z : Int) (h0 : 0 ≤ z) (h1 : z < 18446744073709551616) :
    wrap64 z = z.toNat := by
  unfold wrap64; omega

theorem accepted_bounds {env : mach_env} {task P : Nat} {memory : Nat → Nat}
    (st : stable_target env task P memory) {b sz : Nat} (h : accepted env task b sz) :
    0 < sz ∧ P ∣ sz ∧ b + sz < 18446744073709551616 ∧ P ≤ sz := by
  obtain ⟨a, sz0, d, hacc, rfl, rfl⟩ := h
  obtain ⟨h1, h2, h3⟩ := st.regions a sz0 d hacc
  exact ⟨h1, h2, h3, Nat.le_of_dvd h1 h2⟩

/-! ## The region enumerator -/

theorem next_region_loop_spec (env : mach_env) :
    ∀ (fuel : Nat) (s : memscan_scanner) (calls : List os_call) (r : region_result),
      next_region_loop env fuel s calls = some r →
      same_scan s r.scanner ∧
      (r.ret = true →
        accepted env s.target.task r.scanner.region_address r.scanner.region_size ∧
        r.error_write = none) := by
  intro fuel
  induction fuel with
  | zero => intro s calls r h; simp [next_region_loop] at h
  | succ fuel ih =>
    intro s calls r h
    unfold next_region_loop at h
    simp only at h
    split_ifs at h with h1 h2 h3 h4
    · simp only [Option.some.injEq] at h
      subst h
      exact ⟨rfl, by simp⟩
    · simp only [Option.some.injEq] at h
      subst h
      exact ⟨rfl, by simp⟩
    · obtain ⟨ha, hb⟩ := ih _ _ _ h
      refine ⟨?_, hb⟩
      unfold same_scan at ha ⊢
      rw [ha]
    · simp only [Option.some.injEq] at h
      subst h
      refine ⟨rfl, fun _ => ⟨⟨_, _, _, ⟨?_, ?_, h4⟩, rfl, rfl⟩, rfl⟩⟩
      · simpa using h2
      · simpa using h3
    · obtain ⟨ha, hb⟩ := ih _ _ _ h
      refine ⟨?_, hb⟩
      unfold same_scan at ha ⊢
      rw [ha]

theorem next_region_spec (env : mach_env) (fuel : Nat) (s : memscan_scanner)
    (r : region_result) (h : memscan_scanner_next_region env fuel s = some r) :
    same_scan s r.scanner ∧
      (r.ret = true →
        accepted env s.target.task r.scanner.region_address r.scanner.region_size ∧
        r.error_write = none) := by
  unfold memscan_scanner_next_region at h
  obtain ⟨ha, hb⟩ := next_region_loop_spec env _ _ _ _ h
  split_ifs at ha hb with h0
  · refine ⟨?_, hb⟩
    unfold same_scan at ha ⊢
    rw [ha]
  · exact ⟨ha, hb⟩

/-! ## Symbolic execution of one iteration -/

theorem page_value_eq {env : mach_env} {task P : Nat} {memory : Nat → Nat}
    {sig : memscan_signature} {flt : memscan_filter} {s : memscan_scanner} {mp : Nat}
    (hP : P < 2147483648)
    (inv : scan_inv env task P memory sig flt s mp) (hi : s.scan_index < P) :
    page_value s = some (memory (Int.toNat (s.page_address + s.scan_index))) := by
  unfold page_value
  have h1 := inv.start_gt
  have h2 := inv.page_size_eq
  by_cases hneg : s.scan_index < 0
  · have hh := inv.history (by omega)
    rw [if_pos hneg, hh.1, h2, wrap64_eq _ (by omega) (by omega)]
    rw [memory_slice_get _ _ _ _ (by omega)]
    congr 2
    omega
  · rw [if_neg hneg, inv.buffer, memory_slice_get _ _ _ _ (by omega)]
    congr 2
    omega

theorem mismatch_eq (sig : memscan_signature) (hw : well_formed sig) (mp v : Nat)
    (h : mp < sig.length) :
    mismatch sig mp v =
      some (decide (sig.mask[mp]? = some true ∧ sig.signature[mp]? ≠ some v)) := by
  obtain ⟨h1, h2⟩ := hw
  unfold mismatch
  have hm : mp < sig.mask.length := by omega
  have hs : mp < sig.signature.length := by omega
  rw [List.getElem?_eq_getElem hm, List.getElem?_eq_getElem hs]
  cases hb : sig.mask[mp] <;> simp [eq_comm]

theorem compare_mismatch {env : mach_env} {task P : Nat} {memory : Nat → Nat}
    {sig : memscan_signature} {flt : memscan_filter} {s : memscan_scanner} {mp : Nat}
    (hP : P < 2147483648) (hw : well_formed sig)
    (inv : scan_inv env task P memory sig flt s mp) (hi : s.scan_index < P)
    (calls : List os_call)
    (hm : sig.mask[mp]? = some true ∧
      sig.signature[mp]? ≠ some (memory (Int.toNat (s.page_address + s.scan_index)))) :
    scan_compare s mp calls =
      step_result.again { s with scan_index := s.scan_index - mp + 1 } 0 calls := by
  unfold scan_compare
  rw [page_value_eq hP inv hi]
  simp only [inv.sig_eq]
  rw [mismatch_eq sig hw _ _ inv.progress_lt]
  have h1 := inv.start_gt
  simp only [hm, ne_eq, not_false_eq_true, and_self, decide_True]
  by_cases h0 : mp > 0
  · simp only [h0, if_true]
    rw [wrap32_eq (s.scan_index - mp) (by omega) (by omega), wrap32_eq _ (by omega) (by omega)]
  · have : mp = 0 := by omega
    subst this
    simp only [gt_iff_lt, lt_self_iff_false, if_false]
    rw [wrap32_eq _ (by omega) (by omega)]
    simp

theorem compare_progress {env : mach_env} {task P : Nat} {memory : Nat → Nat}
    {sig : memscan_signature} {flt : memscan_filter} {s : memscan_scanner} {mp : Nat}
    (hP : P < 2147483648) (hw : well_formed sig) (hL : sig.length ≤ P)
    (inv : scan_inv env task P memory sig flt s mp) (hi : s.scan_index < P)
    (calls : List os_call)
    (hm : ¬ (sig.mask[mp]? = some true ∧
      sig.signature[mp]? ≠ some (memory (Int.toNat (s.page_address + s.scan_index)))))
    (hlt : mp + 1 ≠ sig.length) :
    scan_compare s mp calls =
      step_result.again { s with scan_index := s.scan_index + 1 } (mp + 1) calls := by
  unfold scan_compare
  rw [page_value_eq hP inv hi]
  simp only [inv.sig_eq]
  rw [mismatch_eq sig hw _ _ inv.progress_lt]
  have h1 := inv.start_gt
  have h2 := inv.progress_lt
  simp only [hm, decide_False]
  have h3 : (mp + 1) % U64 = mp + 1 := by unfold U64; omega
  rw [h3, wrap32_eq _ (by omega) (by omega), if_neg hlt]

theorem start_nonneg {env : mach_env} {task P : Nat} {memory : Nat → Nat}
    {sig : memscan_signature} {flt : memscan_filter} {s : memscan_scanner} {mp : Nat}
    (inv : scan_inv env task P memory sig flt s mp) :
    (0 : Int) ≤ s.page_address + s.scan_index - mp := by
  have h1 := inv.start_gt
  by_cases h : s.scan_index - mp < 0
  · have h2 := (inv.history h).2.1
    omega
  · omega

theorem compare_found {env : mach_env} {task P : Nat} {memory : Nat → Nat}
    {sig : memscan_signature} {flt : memscan_filter} {s : memscan_scanner} {mp : Nat}
    (st : stable_target env task P memory) (hw : well_formed sig) (hL : sig.length ≤ P)
    (inv : scan_inv env task P memory sig flt s mp) (hi : s.scan_index < P)
    (calls : List os_call)
    (hm : ¬ (sig.mask[mp]? = some true ∧
      sig.signature[mp]? ≠ some (memory (Int.toNat (s.page_address + s.scan_index)))))
    (hlt : mp + 1 = sig.length) :
    scan_compare s mp calls =
      step_result.returned
        { ret := true, scanner := { s with scan_index := s.scan_index + 1 },
          match_write := some { address := Int.toNat (s.page_address + s.scan_index - mp) },
          error_write := none, calls := calls } := by
  have hP := st.page_small
  unfold scan_compare
  rw [page_value_eq hP inv hi]
  simp only [inv.sig_eq]
  rw [mismatch_eq sig hw _ _ inv.progress_lt]
  have h1 := inv.start_gt
  have h2 := inv.progress_lt
  have h4 := inv.page_hi
  have h5 := inv.region_ok
  simp only [hm, decide_False]
  have h6 := (accepted_bounds st h5).2.2.1
  have h7 := start_nonneg inv
  have h3 : (mp + 1) % U64 = mp + 1 := by unfold U64; omega
  rw [h3, wrap32_eq _ (by omega) (by omega), if_pos hlt]
  simp only [step_result.returned.injEq, next_result.mk.injEq, true_and, and_true,
    Option.some.injEq, memscan_match.mk.injEq]
  rw [wrap64_eq _ (by push_cast; omega) (by push_cast; omega)]
  congr 1
  push_cast
  omega

theorem inv_mismatch {env : mach_env} {task P : Nat} {memory : Nat → Nat}
    {sig : memscan_signature} {flt : memscan_filter} {s : memscan_scanner} {mp : Nat} (hpos : 0 < sig.length)
    (inv : scan_inv env task P memory sig flt s mp) (hi : s.scan_index < P) :
    scan_inv env task P memory sig flt { s with scan_index := s.scan_index - mp + 1 } 0 where
  task_eq := inv.task_eq
  sig_eq := inv.sig_eq
  filter_eq := inv.filter_eq
  page_size_eq := inv.page_size_eq
  region_ok := inv.region_ok
  page_lo := inv.page_lo
  page_hi := inv.page_hi
  rest_al := inv.rest_al
  buffer := inv.buffer
  progress_lt := hpos
  index_le := by
    show s.scan_index - mp + 1 ≤ P
    omega
  start_gt := by
    have := inv.start_gt
    show -(P : Int) < s.scan_index - mp + 1 - (0 : Nat)
    omega
  history := by
    intro h
    exact inv.history (by
      have : s.scan_index - mp + 1 - (0 : Nat) < 0 := h
      omega)
  prefix_ok := by
    intro j hj
    omega
  filter_ok := inv.filter_ok

theorem inv_progress {env : mach_env} {task P : Nat} {memory : Nat → Nat}
    {sig : memscan_signature} {flt : memscan_filter} {s : memscan_scanner} {mp : Nat}
    (inv : scan_inv env task P memory sig flt s mp) (hi : s.scan_index < P)
    (hm : ¬ (sig.mask[mp]? = some true ∧
      sig.signature[mp]? ≠ some (memory (Int.toNat (s.page_address + s.scan_index)))))
    (hlt : mp + 1 < sig.length) :
    scan_inv env task P memory sig flt { s with scan_index := s.scan_index + 1 } (mp + 1) where
  task_eq := inv.task_eq
  sig_eq := inv.sig_eq
  filter_eq := inv.filter_eq
  page_size_eq := inv.page_size_eq
  region_ok := inv.region_ok
  page_lo := inv.page_lo
  page_hi := inv.page_hi
  rest_al := inv.rest_al
  buffer := inv.buffer
  progress_lt := hlt
  index_le := by
    show s.scan_index + 1 ≤ P
    omega
  start_gt := by
    have := inv.start_gt
    show -(P : Int) < s.scan_index + 1 - ((mp + 1 : Nat) : Int)
    omega
  history := by
    intro h
    exact inv.history (by
      have : s.scan_index + 1 - ((mp + 1 : Nat) : Int) < 0 := h
      omega)
  prefix_ok := by
    intro j hj hmask
    show sig.signature[j]? =
      some (memory (Int.toNat (s.page_address + (s.scan_index + 1) - ((mp + 1 : Nat) : Int)) + j))
    have e : Int.toNat (s.page_address + (s.scan_index + 1) - ((mp + 1 : Nat) : Int)) =
        Int.toNat (s.page_address + s.scan_index - mp) := by
      congr 1; push_cast; omega
    rw [e]
    by_cases hjm : j < mp
    · exact inv.prefix_ok j hjm hmask
    · have : j = mp := by omega
      subst this
      have h1 := inv.start_gt
      have h2 := start_nonneg inv
      have e2 : Int.toNat (s.page_address + s.scan_index - j) + j =
          Int.toNat (s.page_address + s.scan_index) := by omega
      rw [e2]
      by_contra hne
      exact hm ⟨hmask, hne⟩
  filter_ok := inv.filter_ok

theorem inv_found {env : mach_env} {task P : Nat} {memory : Nat → Nat}
    {sig : memscan_signature} {flt : memscan_filter} {s : memscan_scanner} {mp : Nat} (hpos : 0 < sig.length)
    (inv : scan_inv env task P memory sig flt s mp) (hi : s.scan_index < P) :
    scan_inv env task P memory sig flt { s with scan_index := s.scan_index + 1 } 0 where
  task_eq := inv.task_eq
  sig_eq := inv.sig_eq
  filter_eq := inv.filter_eq
  page_size_eq := inv.page_size_eq
  region_ok := inv.region_ok
  page_lo := inv.page_lo
  page_hi := inv.page_hi
  rest_al := inv.rest_al
  buffer := inv.buffer
  progress_lt := hpos
  index_le := by
    show s.scan_index + 1 ≤ P
    omega
  start_gt := by
    have := inv.start_gt
    show -(P : Int) < s.scan_index + 1 - (0 : Nat)
    omega
  history := by
    intro h
    exact inv.history (by
      have : s.scan_index + 1 - (0 : Nat) < 0 := h
      omega)
  prefix_ok := by
    intro j hj
    omega
  filter_ok := inv.filter_ok

theorem step_mid {env : mach_env} {task P : Nat} {memory : Nat → Nat}
    {sig : memscan_signature} {flt : memscan_filter} {s : memscan_scanner} {mp : Nat}
    (st : stable_target env task P memory)
    (inv : scan_inv env task P memory sig flt s mp) (hi : s.scan_index < P)
    (region_fuel : Nat) (calls : List os_call) :
    scan_step env region_fuel s mp calls = scan_compare s mp calls := by
  have hP := st.page_small
  have h1 := inv.start_gt
  have h2 := inv.page_size_eq
  have h3 := inv.page_hi
  have h4 := (accepted_bounds st inv.region_ok).2.2.1
  have e1 : at_page_end s = false := by
    unfold at_page_end
    rw [decide_eq_false_iff_not, h2]
    omega
  have e0 : page_end_step s = s := by
    unfold page_end_step
    rw [e1]
    rfl
  unfold scan_step
  rw [e0, e1]
  have e2 : ¬ region_ended s := by
    rintro ⟨h5, h6⟩
    rw [wrap64_eq _ (by omega) (by omega)] at h6
    unfold U64 at h6
    omega
  rw [if_neg e2]
  rfl

theorem step_page {env : mach_env} {task P : Nat} {memory : Nat → Nat}
    {sig : memscan_signature} {flt : memscan_filter} {s : memscan_scanner} {mp : Nat}
    (st : stable_target env task P memory)
    (inv : scan_inv env task P memory sig flt s mp) (hi : s.scan_index = P)
    (hin : s.page_address + P < s.region_address + s.region_size)
    (region_fuel : Nat) (calls : List os_call) :
    scan_step env region_fuel s mp calls =
      scan_load env { s with page_address := s.page_address + P, scan_index := 0 } mp true
        calls := by
  have hP := st.page_small
  have h2 := inv.page_size_eq
  have h4 := (accepted_bounds st inv.region_ok).2.2.1
  have e1 : at_page_end s = true := by
    unfold at_page_end
    rw [decide_eq_true_iff, h2]
    omega
  have e3 : (s.page_address + s.page_size) % U64 = s.page_address + P := by
    unfold U64; omega
  have e0 : page_end_step s = { s with page_address := s.page_address + P, scan_index := 0 } := by
    unfold page_end_step
    rw [e1, e3]
    rfl
  unfold scan_step
  rw [e0, e1]
  have e2 : ¬ region_ended { s with page_address := s.page_address + P, scan_index := 0 } := by
    rintro ⟨_, h6⟩
    have h7 : (s.region_address + s.region_size) % U64 ≤
        wrap64 (((s.page_address + P : Nat) : Int) + 0) := h6
    rw [wrap64_eq _ (by omega) (by omega)] at h7
    unfold U64 at h7
    omega
  rw [if_neg e2]

theorem step_region {env : mach_env} {task P : Nat} {memory : Nat → Nat}
    {sig : memscan_signature} {flt : memscan_filter} {s : memscan_scanner} {mp : Nat}
    (st : stable_target env task P memory)
    (inv : scan_inv env task P memory sig flt s mp) (hi : s.scan_index = P)
    (hin : s.page_address + P = s.region_address + s.region_size)
    (region_fuel : Nat) (calls : List os_call) :
    scan_step env region_fuel s mp calls =
      scan_region env region_fuel
        { s with page_address := s.page_address + P, scan_index := 0 } mp calls := by
  have hP := st.page_small
  have h2 := inv.page_size_eq
  have h4 := (accepted_bounds st inv.region_ok).2.2.1
  have e1 : at_page_end s = true := by
    unfold at_page_end
    rw [decide_eq_true_iff, h2]
    omega
  have e3 : (s.page_address + s.page_size) % U64 = s.page_address + P := by
    unfold U64; omega
  have e0 : page_end_step s = { s with page_address := s.page_address + P, scan_index := 0 } := by
    unfold page_end_step
    rw [e1, e3]
    rfl
  unfold scan_step
  rw [e0, e1]
  have e2 : region_ended { s with page_address := s.page_address + P, scan_index := 0 } := by
    refine ⟨le_refl _, ?_⟩
    show (s.region_address + s.region_size) % U64 ≤
        wrap64 (((s.page_address + P : Nat) : Int) + 0)
    rw [wrap64_eq _ (by omega) (by omega)]
    unfold U64
    omega
  rw [if_pos e2]

/-! ## Soundness of one iteration and of the loop -/

theorem compare_ok {env : mach_env} {task P : Nat} {memory : Nat → Nat}
    {sig : memscan_signature} {flt : memscan_filter} {s : memscan_scanner} {mp : Nat}
    (st : stable_target env task P memory) (hw : well_formed sig) (hL : sig.length ≤ P)
    (inv : scan_inv env task P memory sig flt s mp) (hi : s.scan_index < P)
    (calls : List os_call) :
    step_ok env task P memory sig flt (scan_compare s mp calls) := by
  have hpos : 0 < sig.length := by have := inv.progress_lt; omega
  by_cases hm : sig.mask[mp]? = some true ∧
      sig.signature[mp]? ≠ some (memory (Int.toNat (s.page_address + s.scan_index)))
  · rw [compare_mismatch st.page_small hw inv hi calls hm]
    exact inv_mismatch hpos inv hi
  · by_cases hlt : mp + 1 = sig.length
    · rw [compare_found st hw hL inv hi calls hm hlt]
      intro _
      refine ⟨inv_found hpos inv hi, _, rfl, ?_, ?_, ?_⟩
      · intro j hj hmask
        have h1 := start_nonneg inv
        by_cases hjm : j < mp
        · exact inv.prefix_ok j hjm hmask
        · have : j = mp := by omega
          subst this
          have e2 : Int.toNat (s.page_address + s.scan_index - j) + j =
              Int.toNat (s.page_address + s.scan_index) := by omega
          rw [e2]
          by_contra hne
          exact hm ⟨hmask, hne⟩
      · have h1 := start_nonneg inv
        show ((Int.toNat (s.page_address + s.scan_index - mp) + sig.length : Nat) : Int) =
          s.page_address + (s.scan_index + 1)
        omega
      · show s.region_address ≤ Int.toNat (s.page_address + s.scan_index - mp) ∨
          ∃ pb ps, accepted env task pb ps ∧ pb + ps = s.region_address ∧
            pb ≤ Int.toNat (s.page_address + s.scan_index - mp)
        have h1 := inv.start_gt
        have h2 := inv.page_lo
        by_cases hneg : s.scan_index - mp < 0
        · obtain ⟨_, h3, h4 | ⟨pb, ps, h5, h6, h7⟩⟩ := inv.history hneg
          · left; omega
          · right; exact ⟨pb, ps, h5, h6, by omega⟩
        · left; omega
    · rw [compare_progress st.page_small hw hL inv hi calls hm hlt]
      exact inv_progress inv hi hm (by have := inv.progress_lt; omega)

/-- The invariant after a page of the current region has been loaded in place of the
consumed one. -/
theorem inv_page_advance {env : mach_env} {task P : Nat} {memory : Nat → Nat}
    {sig : memscan_signature} {flt : memscan_filter} {s : memscan_scanner} {mp : Nat} (hL : sig.length ≤ P)
    (inv : scan_inv env task P memory sig flt s mp) (hi : s.scan_index = P)
    (hin : s.page_address + P < s.region_address + s.region_size)
    (hf : ¬ (s.filter.end_address ≠ 0 ∧ s.page_address + P > s.filter.end_address))
    (data : List Nat) (hd : data = memory_slice memory (s.page_address + P) P) :
    scan_inv env task P memory sig flt
      { s with page_address := s.page_address + P, scan_index := 0,
               previous_page_buffer := s.page_buffer, page_buffer := data } mp where
  task_eq := inv.task_eq
  sig_eq := inv.sig_eq
  filter_eq := inv.filter_eq
  page_size_eq := inv.page_size_eq
  region_ok := inv.region_ok
  page_lo := by
    have := inv.page_lo
    show s.region_address ≤ s.page_address + P
    omega
  page_hi := by
    show s.page_address + P + P ≤ s.region_address + s.region_size
    have h1 := inv.rest_al
    have h2 : 0 < s.region_address + s.region_size - (s.page_address + P) := by omega
    have h3 := Nat.le_of_dvd h2 h1
    omega
  rest_al := by
    show P ∣ s.region_address + s.region_size - (s.page_address + P + P)
    have h1 := inv.rest_al
    have h2 : 0 < s.region_address + s.region_size - (s.page_address + P) := by omega
    have h3 := Nat.le_of_dvd h2 h1
    have e : s.region_address + s.region_size - (s.page_address + P + P) =
        s.region_address + s.region_size - (s.page_address + P) - P := by omega
    rw [e]
    exact Nat.dvd_sub' h1 (dvd_refl P)
  buffer := hd
  progress_lt := inv.progress_lt
  index_le := by
    show (0 : Int) ≤ P
    omega
  start_gt := by
    have := inv.progress_lt
    show -(P : Int) < 0 - (mp : Int)
    omega
  history := by
    intro _
    have h1 := inv.page_lo
    refine ⟨?_, ?_, Or.inl ?_⟩
    · show s.page_buffer = memory_slice memory (s.page_address + P - P) P
      rw [inv.buffer]
      congr 1
      omega
    · show P ≤ s.page_address + P
      omega
    · show s.region_address + P ≤ s.page_address + P
      omega
  prefix_ok := by
    intro j hj hmask
    have h := inv.prefix_ok j hj hmask
    rw [hi] at h
    show sig.signature[j]? =
      some (memory (Int.toNat (((s.page_address + P : Nat) : Int) + 0 - mp) + j))
    rw [h]
    congr 3
  filter_ok := by
    intro h0
    show s.page_address + P ≤ s.filter.end_address
    by_contra hc
    exact hf ⟨h0, by omega⟩

/-- The invariant after the first page of a newly accepted region has been loaded. -/
theorem inv_region_entry {env : mach_env} {task P : Nat} {memory : Nat → Nat}
    {sig : memscan_signature} {flt : memscan_filter} {s : memscan_scanner} {mp : Nat}
    (st : stable_target env task P memory) (hL : sig.length ≤ P)
    (ent : entry_inv env task P memory sig flt s mp)
    (s' : memscan_scanner) (hs : same_scan s s')
    (hacc : accepted env task s'.region_address s'.region_size)
    (hf : ¬ (s'.filter.end_address ≠ 0 ∧ s'.region_address > s'.filter.end_address))
    (data : List Nat) (hd : data = memory_slice memory s'.region_address P) :
    scan_inv env task P memory sig flt
      { s' with page_address := s'.region_address, scan_index := 0,
                previous_page_buffer := s'.page_buffer, page_buffer := data }
      (if wrap64 (s'.page_address + s'.scan_index) ≠ s'.region_address then 0 else mp) := by
  have hb := accepted_bounds st hacc
  have hpa : s'.page_address = s.page_address := by rw [hs]
  have hsi : s'.scan_index = 0 := by rw [hs]; exact ent.index_eq
  have hbuf : s'.page_buffer = s.page_buffer := by rw [hs]
  have hw : wrap64 (s'.page_address + s'.scan_index) = s.page_address := by
    have := ent.address_lt
    rw [hpa, hsi, wrap64_eq _ (by omega) (by omega)]
    omega
  have hmp : (if wrap64 (s'.page_address + s'.scan_index) ≠ s'.region_address then 0 else mp)
      < sig.length := by
    have := ent.progress_lt
    split_ifs <;> omega
  refine
    { task_eq := ?_, sig_eq := ?_, filter_eq := ?_, page_size_eq := ?_, region_ok := hacc, page_lo := le_refl _,
      page_hi := ?_, rest_al := ?_, buffer := hd, progress_lt := hmp, index_le := ?_,
      start_gt := ?_, history := ?_, prefix_ok := ?_, filter_ok := ?_ }
  · show s'.target.task = task
    rw [hs]; exact ent.task_eq
  · show s'.signature = sig
    rw [hs]; exact ent.sig_eq
  · show s'.filter = flt
    rw [hs]; exact ent.filter_eq
  · show s'.page_size = P
    rw [hs]; exact ent.page_size_eq
  · show s'.region_address + P ≤ s'.region_address + s'.region_size
    omega
  · show P ∣ s'.region_address + s'.region_size - (s'.region_address + P)
    have e : s'.region_address + s'.region_size - (s'.region_address + P) =
        s'.region_size - P := by omega
    rw [e]
    exact Nat.dvd_sub' hb.2.1 (dvd_refl P)
  · show (0 : Int) ≤ P
    omega
  · show -(P : Int) < 0 - ((if wrap64 (s'.page_address + s'.scan_index) ≠ s'.region_address
      then 0 else mp : Nat) : Int)
    omega
  · intro hneg
    have hneg' : (0 : Int) - ((if wrap64 (s'.page_address + s'.scan_index) ≠ s'.region_address
      then 0 else mp : Nat) : Int) < 0 := hneg
    rw [hw] at hneg'
    by_cases hc : s.page_address = s'.region_address
    · rw [if_neg (by simpa using hc)] at hneg'
      obtain ⟨c1, c2, c3, _⟩ := ent.carry (by omega)
      refine ⟨?_, ?_, Or.inr ?_⟩
      · show s'.page_buffer = memory_slice memory (s'.region_address - P) P
        rw [hbuf, c1, hc]
      · show P ≤ s'.region_address
        omega
      · rw [← hc]; exact c3
    · rw [if_pos hc] at hneg'
      omega
  · intro j hj hmask
    rw [hw] at hj
    show sig.signature[j]? = some (memory (Int.toNat ((s'.region_address : Int) + 0 -
      ((if wrap64 (s'.page_address + s'.scan_index) ≠ s'.region_address then 0 else mp : Nat)
        : Int)) + j))
    rw [hw]
    by_cases hc : s.page_address = s'.region_address
    · rw [if_neg (by simpa using hc)] at hj ⊢
      obtain ⟨_, c2, _, c4⟩ := ent.carry (by omega)
      rw [c4 j hj hmask]
      congr 3
      omega
    · rw [if_pos hc] at hj
      omega
  · intro h0
    show s'.region_address ≤ s'.filter.end_address
    by_contra hc
    exact hf ⟨h0, by omega⟩

theorem page_load_ok {env : mach_env} {task P : Nat} {memory : Nat → Nat}
    {sig : memscan_signature} {flt : memscan_filter} {s : memscan_scanner} {mp : Nat}
    (st : stable_target env task P memory) (hw : well_formed sig) (hL : sig.length ≤ P)
    (inv : scan_inv env task P memory sig flt s mp) (hi : s.scan_index = P)
    (hin : s.page_address + P < s.region_address + s.region_size)
    (calls : List os_call) :
    step_ok env task P memory sig flt
      (scan_load env { s with page_address := s.page_address + P, scan_index := 0 } mp true
        calls) := by
  unfold scan_load scan_read
  simp only [if_true]
  split_ifs with hf hr
  · intro h
    simp at h
  · intro h
    simp at h
  · have hr' : (env.vm_read_overwrite task (s.page_address + P) P).1 = 0 := by
      have := inv.task_eq
      have := inv.page_size_eq
      simp_all
    have hd := st.reads _ hr'
    have e : env.vm_read_overwrite s.target.task (s.page_address + P) s.page_size =
        env.vm_read_overwrite task (s.page_address + P) P := by
      rw [inv.task_eq, inv.page_size_eq]
    have inv2 := inv_page_advance hL inv hi hin hf _ hd
    have := compare_ok st hw hL inv2 (by
      show (0 : Int) < P
      have := st.page_pos
      omega) (calls ++ [os_call.page_read s.target.task (s.page_address + P) s.page_size])
    simp only [e]
    exact this

theorem region_step_ok {env : mach_env} {task P : Nat} {memory : Nat → Nat}
    {sig : memscan_signature} {flt : memscan_filter} {s : memscan_scanner} {mp : Nat}
    (st : stable_target env task P memory) (hw : well_formed sig) (hL : sig.length ≤ P)
    (ent : entry_inv env task P memory sig flt s mp) (region_fuel : Nat) (calls : List os_call) :
    step_ok env task P memory sig flt (scan_region env region_fuel s mp calls) := by
  unfold scan_region
  cases hnr : memscan_scanner_next_region env region_fuel s with
  | none => trivial
  | some r =>
    obtain ⟨hs, hacc⟩ := next_region_spec env region_fuel s r hnr
    simp only
    by_cases hret : r.ret = false
    · rw [if_pos hret]
      intro h
      simp at h
    · rw [if_neg hret]
      have hret' : r.ret = true := by simpa using hret
      have hacc' := (hacc hret').1
      rw [ent.task_eq] at hacc'
      have htask : r.scanner.target.task = task := by rw [hs]; exact ent.task_eq
      have hps : r.scanner.page_size = P := by rw [hs]; exact ent.page_size_eq
      have key := fun hf data hd => inv_region_entry st hL ent r.scanner hs hacc' hf data hd
      generalize (if wrap64 (r.scanner.page_address + r.scanner.scan_index) ≠
        r.scanner.region_address then 0 else mp) = mp' at key ⊢
      unfold scan_load scan_read
      simp only [if_true]
      split_ifs with hf hr
      · intro h
        simp at h
      · intro h
        simp at h
      · have hr' : (env.vm_read_overwrite task r.scanner.region_address P).1 = 0 := by
          simp_all
        have hd := st.reads _ hr'
        have e : env.vm_read_overwrite r.scanner.target.task r.scanner.region_address
            r.scanner.page_size = env.vm_read_overwrite task r.scanner.region_address P := by
          rw [htask, hps]
        have inv2 := key hf _ hd
        have := compare_ok st hw hL inv2 (by
          show (0 : Int) < P
          have := st.page_pos
          omega) (calls ++ r.calls ++
            [os_call.page_read r.scanner.target.task r.scanner.region_address
              r.scanner.page_size])
        simp only [e]
        exact this

theorem entry_of_inv {env : mach_env} {task P : Nat} {memory : Nat → Nat}
    {sig : memscan_signature} {flt : memscan_filter} {s : memscan_scanner} {mp : Nat}
    (st : stable_target env task P memory)
    (inv : scan_inv env task P memory sig flt s mp) (hi : s.scan_index = P)
    (hin : s.page_address + P = s.region_address + s.region_size) :
    entry_inv env task P memory sig flt
      { s with page_address := s.page_address + P, scan_index := 0 } mp where
  task_eq := inv.task_eq
  sig_eq := inv.sig_eq
  filter_eq := inv.filter_eq
  page_size_eq := inv.page_size_eq
  index_eq := rfl
  address_lt := by
    have := (accepted_bounds st inv.region_ok).2.2.1
    show s.page_address + P < 18446744073709551616
    omega
  progress_lt := inv.progress_lt
  carry := by
    intro _
    have hb := accepted_bounds st inv.region_ok
    refine ⟨?_, ?_, ⟨s.region_address, s.region_size, inv.region_ok, hin.symm, hb.2.2.2⟩, ?_⟩
    · show s.page_buffer = memory_slice memory (s.page_address + P - P) P
      rw [inv.buffer]
      congr 1
      omega
    · show P ≤ s.page_address + P
      omega
    · intro j hj hmask
      have h := inv.prefix_ok j hj hmask
      rw [hi] at h
      show sig.signature[j]? = some (memory (s.page_address + P - mp + j))
      rw [h]
      congr 2
      omega

theorem step_sound {env : mach_env} {task P : Nat} {memory : Nat → Nat}
    {sig : memscan_signature} {flt : memscan_filter} {s : memscan_scanner} {mp : Nat}
    (st : stable_target env task P memory) (hw : well_formed sig) (hL : sig.length ≤ P)
    (inv : scan_inv env task P memory sig flt s mp) (region_fuel : Nat) (calls : List os_call) :
    step_ok env task P memory sig flt (scan_step env region_fuel s mp calls) := by
  have h1 := inv.index_le
  have h2 := inv.page_hi
  by_cases hi : s.scan_index < P
  · rw [step_mid st inv hi]
    exact compare_ok st hw hL inv hi calls
  · have hi' : s.scan_index = P := by omega
    by_cases hin : s.page_address + P < s.region_address + s.region_size
    · rw [step_page st inv hi' hin]
      exact page_load_ok st hw hL inv hi' hin calls
    · have hin' : s.page_address + P = s.region_address + s.region_size := by omega
      rw [step_region st inv hi' hin']
      exact region_step_ok st hw hL (entry_of_inv st inv hi' hin') region_fuel calls

theorem loop_sound {env : mach_env} {task P : Nat} {memory : Nat → Nat}
    {sig : memscan_signature} {flt : memscan_filter}
    (st : stable_target env task P memory) (hw : well_formed sig) (hL : sig.length ≤ P)
    (region_fuel : Nat) :
    ∀ (fuel : Nat) (s : memscan_scanner) (mp : Nat) (calls : List os_call) (r : next_result),
      scan_inv env task P memory sig flt s mp →
      scan_loop env region_fuel fuel s mp calls = outcome.done r → r.ret = true →
      match_ok env task P memory sig flt r := by
  intro fuel
  induction fuel with
  | zero => intro s mp calls r _ h; simp [scan_loop] at h
  | succ fuel ih =>
    intro s mp calls r inv h hret
    have hs := step_sound st hw hL inv region_fuel calls
    unfold scan_loop at h
    cases hstep : scan_step env region_fuel s mp calls with
    | again s' mp' calls' =>
      rw [hstep] at h hs
      exact ih s' mp' calls' r hs h hret
    | returned r' =>
      rw [hstep] at h hs
      simp only [outcome.done.injEq] at h
      subst h
      exact hs hret
    | fault => rw [hstep] at h; simp at h
    | timeout => rw [hstep] at h; simp at h

/-! ## Completeness in a target with one accepted region -/

theorem next_region_start (s : memscan_scanner) (h : s.filter.start_address = 0) :
    (if s.region_address = 0 then { s with region_address := s.filter.start_address } else s)
      = s := by
  split_ifs with h0
  · cases s
    simp_all
  · rfl

theorem next_region_exhausted (env : mach_env) (fuel : Nat) (s : memscan_scanner)
    (h : s.filter.start_address = 0)
    (hq : (env.vm_region_recurse_64 s.target.task ((s.region_address + s.region_size) % U64)
      s.region_size s.region_depth).kr = KERN_INVALID_ADDRESS) :
    ∃ r, memscan_scanner_next_region env (fuel + 1) s = some r ∧ r.ret = false ∧
      r.error_write = none := by
  unfold memscan_scanner_next_region
  rw [next_region_start s h]
  unfold next_region_loop
  simp only [hq, if_true]
  exact ⟨_, rfl, rfl, rfl⟩

theorem next_region_accepted (env : mach_env) (fuel : Nat) (s : memscan_scanner)
    (h : s.filter.start_address = 0)
    (hq : accepts (env.vm_region_recurse_64 s.target.task
      ((s.region_address + s.region_size) % U64) s.region_size s.region_depth)) :
    memscan_scanner_next_region env (fuel + 1) s = some
      { ret := true,
        scanner := { s with
          region_address := (env.vm_region_recurse_64 s.target.task
            ((s.region_address + s.region_size) % U64) s.region_size s.region_depth).address
          region_size := (env.vm_region_recurse_64 s.target.task
            ((s.region_address + s.region_size) % U64) s.region_size s.region_depth).size
          region_depth := (env.vm_region_recurse_64 s.target.task
            ((s.region_address + s.region_size) % U64) s.region_size s.region_depth).depth },
        error_write := none,
        calls := [os_call.region_query s.target.task
          ((s.region_address + s.region_size) % U64) s.region_size s.region_depth] } := by
  unfold memscan_scanner_next_region
  rw [next_region_start s h]
  unfold next_region_loop
  obtain ⟨h1, h2, h3⟩ := hq
  have h4 : ¬ ((env.vm_region_recurse_64 s.target.task
      ((s.region_address + s.region_size) % U64) s.region_size s.region_depth).kr =
      KERN_INVALID_ADDRESS) := by
    rw [h1]; decide
  have h5 : ¬ ((0 : Int) = KERN_INVALID_ADDRESS) := by decide
  simp only [h4, if_false, h1, ne_eq, not_true_eq_false, h2, Bool.false_eq_true, h3, if_true,
    List.nil_append, h5]

theorem step_normal {env : mach_env} {task P : Nat} {memory : Nat → Nat}
    {sig : memscan_signature} {s : memscan_scanner} {mp : Nat} {base size : Nat}
    (sr : single_region env task P memory base size) (hL : sig.length ≤ P)
    (inv : scan_inv env task P memory sig { start_address := 0, end_address := 0 } s mp)
    (ri : region_inv env task base size s) (region_fuel : Nat) (calls : List os_call) :
    (∃ s2 calls2, scan_step env (region_fuel + 1) s mp calls = scan_compare s2 mp calls2 ∧
      scan_inv env task P memory sig { start_address := 0, end_address := 0 } s2 mp ∧
      region_inv env task base size s2 ∧ s2.scan_index < P ∧
      (s2.page_address : Int) + s2.scan_index = s.page_address + s.scan_index) ∨
    ((s.page_address : Int) + s.scan_index = (base + size : Nat) ∧
      ∃ r, scan_step env (region_fuel + 1) s mp calls = step_result.returned r ∧
        r.ret = false ∧ r.match_write = none ∧ r.error_write = none) := by
  have st := sr.stable
  have h1 := inv.index_le
  have h2 := inv.page_hi
  have h3 := inv.page_lo
  have e1 := ri.region_address_eq
  have e2 := ri.region_size_eq
  by_cases hi : s.scan_index < P
  · left
    exact ⟨s, calls, step_mid st inv hi _ calls, inv, ri, hi, rfl⟩
  · have hi' : s.scan_index = P := by omega
    by_cases hin : s.page_address + P < s.region_address + s.region_size
    · left
      rw [step_page st inv hi' hin]
      have hf : ¬ (s.filter.end_address ≠ 0 ∧ s.page_address + P > s.filter.end_address) := by
        rw [inv.filter_eq]
        simp
      have hal := inv.rest_al
      have hge := Nat.le_of_dvd (by omega) hal
      have hr : (env.vm_read_overwrite task (s.page_address + P) P).1 = 0 :=
        sr.reads _ (by omega) (by omega)
      have hd := st.reads _ hr
      have inv2 := inv_page_advance hL inv hi' hin hf _ hd
      refine ⟨_, calls ++ [os_call.page_read s.target.task (s.page_address + P) s.page_size],
        ?_, inv2, ⟨e1, e2, ri.region_depth_eq⟩, ?_, ?_⟩
      · unfold scan_load scan_read
        have hf' : ¬ (s.filter.end_address ≠ 0 ∧ s.page_address + P > s.filter.end_address) := hf
        simp only [if_true]
        rw [if_neg hf']
        have e : env.vm_read_overwrite s.target.task (s.page_address + P) s.page_size =
            env.vm_read_overwrite task (s.page_address + P) P := by
          rw [inv.task_eq, inv.page_size_eq]
        simp only [e]
        rw [if_neg (by simpa using hr)]
      · show (0 : Int) < P
        have := st.page_pos
        omega
      · show (((s.page_address + P : Nat)) : Int) + 0 = s.page_address + s.scan_index
        omega
    · right
      have hin' : s.page_address + P = s.region_address + s.region_size := by omega
      refine ⟨by omega, ?_⟩
      rw [step_region st inv hi' hin']
      have hlast := sr.last
      have hq : (env.vm_region_recurse_64 s.target.task
          ((s.region_address + s.region_size) % U64) s.region_size s.region_depth).kr =
          KERN_INVALID_ADDRESS := by
        have hb := (accepted_bounds st inv.region_ok).2.2.1
        have : (s.region_address + s.region_size) % U64 = base + size := by
          unfold U64; omega
        rw [this, inv.task_eq, e2, ri.region_depth_eq]
        exact hlast
      have hz : s.filter.start_address = 0 := by rw [inv.filter_eq]
      obtain ⟨r, hr1, hr2, hr3⟩ := next_region_exhausted env region_fuel
        { s with page_address := s.page_address + P, scan_index := 0 } hz hq
      unfold scan_region
      rw [hr1]
      simp only [hr2, if_true]
      exact ⟨_, rfl, rfl, rfl, hr3⟩

theorem after_compare {env : mach_env} {task P : Nat} {memory : Nat → Nat}
    {sig : memscan_signature} {base size f : Nat}
    (sr : single_region env task P memory base size) (hw : well_formed sig)
    (hL : sig.length ≤ P) (region_fuel fuel : Nat)
    (ih : ∀ (s : memscan_scanner) (mp : Nat) (calls : List os_call),
      scan_inv env task P memory sig { start_address := 0, end_address := 0 } s mp →
      region_inv env task base size s → f ≤ attempt_start s mp →
      (∀ a', f ≤ a' → a' < attempt_start s mp → ¬ occurs_at memory sig a') →
      scan_measure (base + size) sig s mp ≤ fuel →
      ∃ r, scan_loop env region_fuel fuel s mp calls = outcome.done r ∧
        call_post env task P memory sig base size f r)
    (s : memscan_scanner) (mp : Nat) (calls : List os_call)
    (inv : scan_inv env task P memory sig { start_address := 0, end_address := 0 } s mp)
    (ri : region_inv env task base size s) (hi : s.scan_index < P)
    (hf : f ≤ attempt_start s mp)
    (hno : ∀ a', f ≤ a' → a' < attempt_start s mp → ¬ occurs_at memory sig a')
    (hm : scan_measure (base + size) sig s mp ≤ fuel + 1) :
    ∃ r, (match scan_compare s mp calls with
      | step_result.again s' mp' calls' => scan_loop env region_fuel fuel s' mp' calls'
      | step_result.returned r => outcome.done r
      | step_result.fault => outcome.fault
      | step_result.timeout => outcome.timeout) = outcome.done r ∧
      call_post env task P memory sig base size f r := by
  have st := sr.stable
  have hpos : 0 < sig.length := by have := inv.progress_lt; omega
  have h0 := start_nonneg inv
  have h1 := inv.page_hi
  have h2 := inv.progress_lt
  have e1 := ri.region_address_eq
  have e2 := ri.region_size_eq
  have hA : attempt_start s mp < base + size := by
    unfold attempt_start
    omega
  by_cases hmis : sig.mask[mp]? = some true ∧
      sig.signature[mp]? ≠ some (memory (Int.toNat (s.page_address + s.scan_index)))
  · rw [compare_mismatch st.page_small hw inv hi calls hmis]
    have hs : attempt_start { s with scan_index := s.scan_index - mp + 1 } 0 =
        attempt_start s mp + 1 := by
      show Int.toNat ((s.page_address : Int) + (s.scan_index - mp + 1) - (0 : Nat)) =
        Int.toNat (s.page_address + s.scan_index - mp) + 1
      omega
    apply ih _ _ _ (inv_mismatch hpos inv hi) ⟨e1, e2, ri.region_depth_eq⟩
    · rw [hs]; omega
    · intro a' ha1 ha2 hocc
      rw [hs] at ha2
      by_cases hlt : a' < attempt_start s mp
      · exact hno a' ha1 hlt hocc
      · have : a' = attempt_start s mp := by omega
        subst this
        have := hocc mp h2 hmis.1
        apply hmis.2
        rw [this]
        congr 2
        unfold attempt_start
        omega
    · unfold scan_measure at hm ⊢
      rw [hs]
      have e : base + size - attempt_start s mp = (base + size - (attempt_start s mp + 1)) + 1 := by
        omega
      rw [e, Nat.add_mul, Nat.one_mul] at hm
      omega
  · by_cases hlt : mp + 1 = sig.length
    · have hok := compare_ok st hw hL inv hi calls
      rw [compare_found st hw hL inv hi calls hmis hlt] at hok ⊢
      refine ⟨_, rfl, Or.inl ⟨rfl, hok rfl, ⟨e1, e2, ri.region_depth_eq⟩, _, rfl, hf, hno⟩⟩
    · rw [compare_progress st.page_small hw hL inv hi calls hmis hlt]
      have hs : attempt_start { s with scan_index := s.scan_index + 1 } (mp + 1) =
          attempt_start s mp := by
        show Int.toNat ((s.page_address : Int) + (s.scan_index + 1) - ((mp + 1 : Nat) : Int)) =
          Int.toNat (s.page_address + s.scan_index - mp)
        omega
      apply ih _ _ _ (inv_progress inv hi hmis (by omega)) ⟨e1, e2, ri.region_depth_eq⟩
      · rw [hs]; exact hf
      · rw [hs]; exact hno
      · unfold scan_measure at hm ⊢
        rw [hs]
        omega

theorem loop_complete {env : mach_env} {task P : Nat} {memory : Nat → Nat}
    {sig : memscan_signature} {base size f : Nat}
    (sr : single_region env task P memory base size) (hw : well_formed sig)
    (hL : sig.length ≤ P) (region_fuel : Nat) :
    ∀ (fuel : Nat) (s : memscan_scanner) (mp : Nat) (calls : List os_call),
      scan_inv env task P memory sig { start_address := 0, end_address := 0 } s mp →
      region_inv env task base size s → f ≤ attempt_start s mp →
      (∀ a', f ≤ a' → a' < attempt_start s mp → ¬ occurs_at memory sig a') →
      scan_measure (base + size) sig s mp ≤ fuel →
      ∃ r, scan_loop env (region_fuel + 1) fuel s mp calls = outcome.done r ∧
        call_post env task P memory sig base size f r := by
  intro fuel
  induction fuel with
  | zero =>
    intro s mp calls inv _ _ _ hm
    have := inv.progress_lt
    unfold scan_measure at hm
    omega
  | succ fuel ih =>
    intro s mp calls inv ri hf hno hm
    unfold scan_loop
    rcases step_normal sr hL inv ri region_fuel calls with
      ⟨s2, calls2, hstep, inv2, ri2, hi2, hpos⟩ | ⟨hend, r, hstep, hr1, hr2, hr3⟩
    · rw [hstep]
      have hs : attempt_start s2 mp = attempt_start s mp := by
        unfold attempt_start
        rw [hpos]
      apply after_compare sr hw hL (region_fuel + 1) fuel ih s2 mp calls2 inv2 ri2 hi2
      · rw [hs]; exact hf
      · rw [hs]; exact hno
      · unfold scan_measure at hm ⊢
        rw [hs]
        exact hm
    · rw [hstep]
      refine ⟨r, rfl, Or.inr ⟨hr1, hr2, hr3, ?_⟩⟩
      intro a' ha1 ha2 hocc
      have h2 := inv.progress_lt
      by_cases hlt : a' < attempt_start s mp
      · exact hno a' ha1 hlt hocc
      · unfold attempt_start at hlt
        omega

/-! ## Whole calls -/

theorem next_created (env : mach_env) (fuel : Nat) (target : memscan_target)
    (sig : memscan_signature) (flt : memscan_filter) (h : env.host_page_size.1 = 0) :
    memscan_scanner_next env fuel (memscan_scanner_create target sig flt) =
      scan_loop env fuel fuel (first_scanner env target sig flt) 0
        [os_call.page_size_query] := by
  unfold memscan_scanner_next
  have e : (memscan_scanner_create target sig flt).page_size = 0 := rfl
  rw [if_pos e, if_neg (by simpa using h)]
  rfl

theorem first_step {env : mach_env} {task P : Nat} {memory : Nat → Nat}
    (st : stable_target env task P memory) (target : memscan_target)
    (sig : memscan_signature) (flt : memscan_filter) (region_fuel mp : Nat)
    (calls : List os_call) :
    scan_step env region_fuel (first_scanner env target sig flt) mp calls =
      scan_region env region_fuel (first_scanner env target sig flt) mp calls := by
  have h1 := st.page_pos
  have h2 : env.host_page_size.2 = P := by rw [st.page_size]
  have e1 : at_page_end (first_scanner env target sig flt) = false := by
    unfold at_page_end
    rw [decide_eq_false_iff_not]
    show ¬ ((0 : Int) % 18446744073709551616 = (env.host_page_size.2 : Int))
    rw [h2]
    omega
  have e0 : page_end_step (first_scanner env target sig flt) =
      first_scanner env target sig flt := by
    unfold page_end_step
    rw [e1]
    rfl
  unfold scan_step
  rw [e0, if_pos]
  refine ⟨le_refl _, ?_⟩
  show (0 + 0) % U64 ≤ wrap64 ((0 : Nat) + 0)
  decide

theorem first_entry {env : mach_env} {task P : Nat} {memory : Nat → Nat}
    (st : stable_target env task P memory) (target : memscan_target)
    (sig : memscan_signature) (flt : memscan_filter) (ht : target.task = task)
    (hpos : 0 < sig.length) :
    entry_inv env task P memory sig flt (first_scanner env target sig flt) 0 where
  task_eq := ht
  sig_eq := rfl
  filter_eq := rfl
  page_size_eq := by
    show env.host_page_size.2 = P
    rw [st.page_size]
  index_eq := rfl
  address_lt := by
    show 0 < 18446744073709551616
    omega
  progress_lt := hpos
  carry := by
    intro h
    omega

theorem first_sound {env : mach_env} {task P : Nat} {memory : Nat → Nat}
    {sig : memscan_signature} {flt : memscan_filter}
    (st : stable_target env task P memory) (hw : well_formed sig) (hL : sig.length ≤ P)
    (hpos : 0 < sig.length) (target : memscan_target) (ht : target.task = task)
    (region_fuel fuel : Nat) (calls : List os_call) (r : next_result)
    (h : scan_loop env region_fuel fuel (first_scanner env target sig flt) 0 calls =
      outcome.done r) (hret : r.ret = true) :
    match_ok env task P memory sig flt r := by
  cases fuel with
  | zero => simp [scan_loop] at h
  | succ fuel =>
    unfold scan_loop at h
    rw [first_step st] at h
    have hs := region_step_ok st hw hL (first_entry st target sig flt ht hpos) region_fuel calls
    cases hstep : scan_region env region_fuel (first_scanner env target sig flt) 0 calls with
    | again s' mp' calls' =>
      rw [hstep] at h hs
      exact loop_sound st hw hL region_fuel fuel s' mp' calls' r hs h hret
    | returned r' =>
      rw [hstep] at h hs
      simp only [outcome.done.injEq] at h
      subst h
      exact hs hret
    | fault => rw [hstep] at h; simp at h
    | timeout => rw [hstep] at h; simp at h

theorem next_sound {env : mach_env} {task P : Nat} {memory : Nat → Nat}
    {sig : memscan_signature} {flt : memscan_filter}
    (st : stable_target env task P memory) (hw : well_formed sig) (hL : sig.length ≤ P)
    (hpos : 0 < sig.length) (target : memscan_target) (ht : target.task = task)
    (s : memscan_scanner)
    (hs : s = memscan_scanner_create target sig flt ∨ scan_inv env task P memory sig flt s 0)
    (fuel : Nat) (r : next_result)
    (h : memscan_scanner_next env fuel s = outcome.done r) (hret : r.ret = true) :
    match_ok env task P memory sig flt r := by
  rcases hs with rfl | inv
  · rw [next_created env fuel target sig flt (by rw [st.page_size])] at h
    exact first_sound st hw hL hpos target ht fuel fuel _ r h hret
  · unfold memscan_scanner_next at h
    have hp : ¬ s.page_size = 0 := by
      have := st.page_pos
      rw [inv.page_size_eq]
      omega
    rw [if_neg hp] at h
    exact loop_sound st hw hL fuel fuel s 0 [] r inv h hret

theorem reachable_inv {env : mach_env} {task P : Nat} {memory : Nat → Nat}
    {sig : memscan_signature} {flt : memscan_filter}
    (st : stable_target env task P memory) (hw : well_formed sig) (hL : sig.length ≤ P)
    (hpos : 0 < sig.length) (target : memscan_target) (ht : target.task = task)
    (s : memscan_scanner) (hr : reachable env target sig flt s) :
    s = memscan_scanner_create target sig flt ∨ scan_inv env task P memory sig flt s 0 := by
  induction hr with
  | created => exact Or.inl rfl
  | next s fuel r _ hnext hret ih =>
    exact Or.inr (next_sound st hw hL hpos target ht s ih fuel r hnext hret).1

theorem region_entry_exact {env : mach_env} {task P : Nat} {memory : Nat → Nat}
    {sig : memscan_signature} {flt : memscan_filter} {s : memscan_scanner} {mp : Nat}
    (st : stable_target env task P memory) (hL : sig.length ≤ P)
    (ent : entry_inv env task P memory sig flt s mp)
    (region_fuel : Nat) (calls : List os_call) (reply : vm_region_reply)
    (hreply : reply = env.vm_region_recurse_64 task ((s.region_address + s.region_size) % U64)
      s.region_size s.region_depth)
    (hacc : accepts reply) (hstart : flt.start_address = 0)
    (hend : ¬ (flt.end_address ≠ 0 ∧ reply.address > flt.end_address))
    (hread : (env.vm_read_overwrite task reply.address P).1 = 0) :
    ∃ s2 calls2 mp2, scan_region env (region_fuel + 1) s mp calls = scan_compare s2 mp2 calls2 ∧
      scan_inv env task P memory sig flt s2 mp2 ∧ s2.scan_index = 0 ∧
      s2.page_address = reply.address ∧ s2.region_address = reply.address ∧
      s2.region_size = reply.size ∧ s2.region_depth = reply.depth ∧
      mp2 = (if s.page_address ≠ reply.address then 0 else mp) := by
  have htask := ent.task_eq
  have hq : accepts (env.vm_region_recurse_64 s.target.task
      ((s.region_address + s.region_size) % U64) s.region_size s.region_depth) := by
    rw [htask, ← hreply]; exact hacc
  have hnr := next_region_accepted env region_fuel s (by rw [ent.filter_eq]; exact hstart) hq
  rw [htask, ← hreply] at hnr
  have hacc' : accepted env task reply.address reply.size :=
    ⟨_, _, _, hreply ▸ hacc, by rw [← hreply], by rw [← hreply]⟩
  have hd := st.reads _ hread
  have hw : wrap64 ((s.page_address : Int) + s.scan_index) = s.page_address := by
    have := ent.address_lt
    rw [ent.index_eq, wrap64_eq _ (by omega) (by omega)]
    omega
  have inv2 := inv_region_entry st hL ent
    { s with region_address := reply.address, region_size := reply.size,
             region_depth := reply.depth } rfl hacc'
    (by
      show ¬ (s.filter.end_address ≠ 0 ∧ reply.address > s.filter.end_address)
      rw [ent.filter_eq]; exact hend)
    _ hd
  refine ⟨_, calls ++ [os_call.region_query task ((s.region_address + s.region_size) % U64)
      s.region_size s.region_depth] ++ [os_call.page_read task reply.address P], _, ?_, inv2, rfl, rfl, rfl,
      rfl, rfl, ?_⟩
  · unfold scan_region
    rw [hnr]
    simp only [Bool.true_eq_false, if_false]
    unfold scan_load scan_read
    simp only [if_true]
    have hf : ¬ (s.filter.end_address ≠ 0 ∧ reply.address > s.filter.end_address) := by
      rw [ent.filter_eq]; exact hend
    rw [if_neg hf]
    simp only [htask, ent.page_size_eq]
    rw [if_neg (by simpa using hread)]
  · show (if wrap64 ((s.page_address : Int) + s.scan_index) ≠ reply.address then 0 else mp) = _
    rw [hw]

theorem first_complete {env : mach_env} {task P : Nat} {memory : Nat → Nat}
    {sig : memscan_signature} {base size : Nat}
    (sr : single_region env task P memory base size) (hw : well_formed sig)
    (hL : sig.length ≤ P) (hpos : 0 < sig.length) (target : memscan_target)
    (ht : target.task = task) (fuel : Nat)
    (hfuel : (size + P) * (sig.length + 1) + sig.length + 1 ≤ fuel) :
    ∃ r, memscan_scanner_next env fuel
        (memscan_scanner_create target sig { start_address := 0, end_address := 0 }) =
          outcome.done r ∧
      call_post env task P memory sig base size base r := by
  have st := sr.stable
  rw [next_created env fuel target sig _ (by rw [st.page_size])]
  obtain ⟨fuel, rfl⟩ : ∃ k, fuel = k + 1 := ⟨fuel - 1, by omega⟩
  unfold scan_loop
  rw [first_step st]
  have ent := first_entry st target sig { start_address := 0, end_address := 0 } ht hpos
  have hb := accepted_bounds st ⟨_, _, _, sr.first_accepts, rfl, rfl⟩
  rw [sr.first_address, sr.first_size] at hb
  obtain ⟨s2, calls2, mp2, hstep, inv2, hi2, hpa, hra, hrs, hrd, hmp⟩ :=
    region_entry_exact st hL ent fuel [os_call.page_size_query]
      (env.vm_region_recurse_64 task 0 0 0) rfl sr.first_accepts rfl (by simp)
      (by rw [sr.first_address]; exact sr.reads base (le_refl _) (by omega))
  have hmp0 : mp2 = 0 := by rw [hmp]; simp
  subst hmp0
  rw [hstep]
  rw [sr.first_address] at hpa hra
  rw [sr.first_size] at hrs
  have hs : attempt_start s2 0 = base := by
    unfold attempt_start
    rw [hpa, hi2]
    omega
  apply after_compare sr hw hL (fuel + 1) fuel
    (loop_complete sr hw hL fuel fuel) s2 0 calls2 inv2 ⟨hra, hrs, hrd⟩
  · rw [hi2]; have := st.page_pos; omega
  · rw [hs]
  · intro a' h1 h2
    omega
  · unfold scan_measure
    rw [hs]
    have e : base + size - base = size := by omega
    rw [e]
    have : size * (sig.length + 1) ≤ (size + P) * (sig.length + 1) :=
      Nat.mul_le_mul_right _ (by omega)
    omega

theorem later_complete {env : mach_env} {task P : Nat} {memory : Nat → Nat}
    {sig : memscan_signature} {base size : Nat}
    (sr : single_region env task P memory base size) (hw : well_formed sig)
    (hL : sig.length ≤ P) (s : memscan_scanner)
    (inv : scan_inv env task P memory sig { start_address := 0, end_address := 0 } s 0)
    (ri : region_inv env task base size s) (fuel : Nat)
    (hfuel : (size + P) * (sig.length + 1) + sig.length + 1 ≤ fuel) :
    ∃ r, memscan_scanner_next env fuel s = outcome.done r ∧
      call_post env task P memory sig base size (attempt_start s 0) r := by
  have st := sr.stable
  unfold memscan_scanner_next
  have hp : ¬ s.page_size = 0 := by
    have := st.page_pos
    rw [inv.page_size_eq]
    omega
  rw [if_neg hp]
  obtain ⟨fuel, rfl⟩ : ∃ k, fuel = k + 1 := ⟨fuel - 1, by omega⟩
  apply loop_complete sr hw hL fuel (fuel + 1) s 0 [] inv ri (le_refl _)
  · intro a' h1 h2
    omega
  · unfold scan_measure
    have h1 := inv.start_gt
    have h2 := inv.page_hi
    have h3 := inv.page_lo
    have h4 := start_nonneg inv
    have e1 := ri.region_address_eq
    have e2 := ri.region_size_eq
    have : base + size - attempt_start s 0 ≤ size + P := by
      unfold attempt_start
      omega
    have := Nat.mul_le_mul_right (sig.length + 1) this
    omega

/-! ## Successive calls -/

theorem first_occurrence_none (memory : Nat → Nat) (sig : memscan_signature) :
    ∀ (n lo : Nat), (∀ a', lo ≤ a' → a' < lo + n → ¬ occurs_at memory sig a') →
      first_occurrence memory sig n lo = none := by
  intro n
  induction n with
  | zero => intro lo _; rfl
  | succ n ih =>
    intro lo h
    unfold first_occurrence
    rw [if_neg (h lo (le_refl _) (by omega))]
    exact ih (lo + 1) (fun a' h1 h2 => h a' (by omega) (by omega))

theorem first_occurrence_some (memory : Nat → Nat) (sig : memscan_signature) :
    ∀ (n lo a : Nat), lo ≤ a → a < lo + n → occurs_at memory sig a →
      (∀ a', lo ≤ a' → a' < a → ¬ occurs_at memory sig a') →
      first_occurrence memory sig n lo = some a := by
  intro n
  induction n with
  | zero => intro lo a h1 h2; omega
  | succ n ih =>
    intro lo a h1 h2 hocc hleast
    unfold first_occurrence
    by_cases h : lo = a
    · subst h
      rw [if_pos hocc]
    · rw [if_neg (hleast lo (le_refl _) (by omega))]
      exact ih (lo + 1) a (by omega) (by omega) hocc
        (fun a' h3 h4 => hleast a' (by omega) h4)

theorem scan_until_false_greedy {env : mach_env} {task P : Nat} {memory : Nat → Nat}
    {sig : memscan_signature} {base size : Nat}
    (sr : single_region env task P memory base size) (hw : well_formed sig)
    (hpos : 0 < sig.length) (hL : sig.length ≤ P) (target : memscan_target)
    (ht : target.task = task) (fuel : Nat)
    (hfuel : (size + P) * (sig.length + 1) + sig.length + 1 ≤ fuel) :
    ∀ (n : Nat) (s : memscan_scanner) (f : Nat),
      ((s = memscan_scanner_create target sig { start_address := 0, end_address := 0 } ∧
          f = base) ∨
        (scan_inv env task P memory sig { start_address := 0, end_address := 0 } s 0 ∧
          region_inv env task base size s ∧ f = attempt_start s 0)) →
      base + size - f < n →
      ∃ last, scan_until_false env fuel n s =
          outcome.done (greedy_occurrences memory sig (base + size) n f, last) ∧
        last.ret = false ∧ last.match_write = none ∧ last.error_write = none := by
  intro n
  induction n with
  | zero => intro s f _ hn; omega
  | succ n ih =>
    intro s f hs hn
    have hcall : ∃ r, memscan_scanner_next env fuel s = outcome.done r ∧
        call_post env task P memory sig base size f r := by
      rcases hs with ⟨rfl, rfl⟩ | ⟨inv, ri, rfl⟩
      · exact first_complete sr hw hL hpos target ht fuel hfuel
      · exact later_complete sr hw hL s inv ri fuel hfuel
    obtain ⟨r, hnext, hpost⟩ := hcall
    unfold scan_until_false
    rw [hnext]
    rcases hpost with ⟨hret, ⟨inv', a, hm, hocc, hend, _⟩, ri', a2, hm2, hfa, hleast⟩ |
      ⟨hret, hm, he, hno⟩
    · have ha : a2 = a := by
        rw [hm] at hm2
        simp only [Option.some.injEq, memscan_match.mk.injEq] at hm2
        exact hm2.symm
      subst ha
      have h1 := inv'.index_le
      have h2 := inv'.page_hi
      have e1 := ri'.region_address_eq
      have e2 := ri'.region_size_eq
      have hin : a2 + sig.length ≤ base + size := by omega
      have hs' : attempt_start r.scanner 0 = a2 + sig.length := by
        unfold attempt_start
        omega
      obtain ⟨last, hl, hl1, hl2, hl3⟩ := ih r.scanner (a2 + sig.length)
        (Or.inr ⟨inv', ri', hs'.symm⟩) (by omega)
      refine ⟨last, ?_, hl1, hl2, hl3⟩
      simp only [hret, Bool.true_eq_false, if_false]
      have hg : greedy_occurrences memory sig (base + size) (n + 1) f =
          a2 :: greedy_occurrences memory sig (base + size) n (a2 + sig.length) := by
        rw [greedy_occurrences]
        unfold first_inside
        rw [first_occurrence_some memory sig _ f a2 hfa (by omega) hocc hleast]
      rw [hg, hl, hm]
      rfl
    · simp only [hret, if_true]
      refine ⟨r, ?_, hret, hm, he⟩
      rw [greedy_occurrences]
      unfold first_inside
      rw [first_occurrence_none memory sig _ _ (fun a' h1 h2 => hno a' h1 (by omega))]


/-! ## Completeness in a target with a chain of accepted regions -/

theorem first_inside_none_of (memory : Nat → Nat) (sig : memscan_signature) (f hi A : Nat)
    (hno : ∀ a', f ≤ a' → a' < A → ¬ occurs_at memory sig a') (hA : hi < A + sig.length) :
    first_inside memory sig f hi = none := by
  unfold first_inside
  exact first_occurrence_none memory sig _ _ (fun a' h1 h2 => hno a' h1 (by omega))

theorem next_occurrence_found (memory : Nat → Nat) (sig : memscan_signature)
    (rest : List (Nat × Nat)) (f hi a : Nat) (hfa : f ≤ a) (hin : a + sig.length ≤ hi)
    (hocc : occurs_at memory sig a)
    (hno : ∀ a', f ≤ a' → a' < a → ¬ occurs_at memory sig a') :
    next_occurrence memory sig rest f hi = some (a, hi, rest) := by
  have h : first_inside memory sig f hi = some a := by
    unfold first_inside
    exact first_occurrence_some memory sig _ f a hfa (by omega) hocc hno
  cases rest <;> simp [next_occurrence, h]

theorem next_occurrence_none (memory : Nat → Nat) (sig : memscan_signature) (f hi : Nat)
    (h : first_inside memory sig f hi = none) :
    next_occurrence memory sig [] f hi = none := by
  simp [next_occurrence, h]

theorem next_occurrence_cons (memory : Nat → Nat) (sig : memscan_signature)
    (r : Nat × Nat) (rest : List (Nat × Nat)) (f hi : Nat)
    (h : first_inside memory sig f hi = none) :
    next_occurrence memory sig (r :: rest) f hi =
      next_occurrence memory sig rest (if r.1 = hi then f else r.1) (r.1 + r.2) := by
  rw [next_occurrence]
  simp [h]

theorem total_size_cons (r : Nat × Nat) (rest : List (Nat × Nat)) :
    total_size (r :: rest) = r.2 + total_size rest := by
  simp [total_size]

theorem chain_entry {env : mach_env} {task P : Nat} {memory : Nat → Nat}
    {sig : memscan_signature} {T : Nat} {s : memscan_scanner} {mp : Nat}
    {rest : List (Nat × Nat)} {f : Nat}
    (st : stable_target env task P memory) (hL : sig.length ≤ P)
    (ent : entry_inv env task P memory sig { start_address := 0, end_address := 0 } s mp)
    (hcur : s.page_address = s.region_address + s.region_size)
    (chain : enumerates env task (s.region_address, s.region_size) rest)
    (reads : readable env task P rest) (budget : total_size rest ≤ T)
    (hmp : mp ≤ s.page_address) (hf : f ≤ s.page_address - mp)
    (hno : ∀ a', f ≤ a' → a' < s.page_address - mp → ¬ occurs_at memory sig a')
    (region_fuel : Nat) (calls : List os_call) :
    (∃ s2 mp2 calls2 rest2 f2,
      scan_region env (region_fuel + 1) s mp calls = scan_compare s2 mp2 calls2 ∧
      chain_inv env task P memory sig T rest2 f2 s2 mp2 ∧ s2.scan_index < P ∧
      chain_measure sig s2 mp2 rest2 ≤
        (mp + total_size rest) * (sig.length + 1) + (sig.length - mp) ∧
      next_occurrence memory sig rest f s.page_address =
        next_occurrence memory sig rest2 f2 (s2.region_address + s2.region_size)) ∨
    (∃ r, scan_region env (region_fuel + 1) s mp calls = step_result.returned r ∧
      r.ret = false ∧ r.match_write = none ∧ r.error_write = none ∧
      next_occurrence memory sig rest f s.page_address = none) := by
  have hlt := ent.address_lt
  have hmpL := ent.progress_lt
  have hU : (s.region_address + s.region_size) % U64 = s.region_address + s.region_size := by
    unfold U64; omega
  have hnone : first_inside memory sig f s.page_address = none :=
    first_inside_none_of memory sig f s.page_address (s.page_address - mp) hno (by omega)
  have hz : s.filter.start_address = 0 := by rw [ent.filter_eq]
  cases rest with
  | nil =>
    right
    have hq : (env.vm_region_recurse_64 s.target.task
        ((s.region_address + s.region_size) % U64) s.region_size s.region_depth).kr =
        KERN_INVALID_ADDRESS := by
      rw [ent.task_eq]
      exact chain s.region_depth
    obtain ⟨r, hr1, hr2, hr3⟩ := next_region_exhausted env region_fuel s hz hq
    unfold scan_region
    rw [hr1]
    simp only [hr2, if_true]
    exact ⟨_, rfl, rfl, rfl, hr3, next_occurrence_none memory sig f _ hnone⟩
  | cons r rest' =>
    left
    obtain ⟨hlink, hchain⟩ := chain
    obtain ⟨hacc, haddr, hsize⟩ := hlink s.region_depth
    have hb := accepted_bounds st ⟨_, _, _, hacc, rfl, rfl⟩
    rw [haddr, hsize] at hb
    have hread : (env.vm_read_overwrite task
        (env.vm_region_recurse_64 task ((s.region_address + s.region_size) % U64)
          s.region_size s.region_depth).address P).1 = 0 := by
      rw [haddr]
      exact reads r (List.mem_cons_self _ _) r.1 (le_refl _) (by omega)
    obtain ⟨s2, calls2, mp2, hstep, inv2, hi2, hpa, hra, hrs, _, hmp2⟩ :=
      region_entry_exact st hL ent region_fuel calls _ rfl hacc rfl (by simp) hread
    rw [haddr] at hpa hra hmp2
    rw [hsize] at hrs
    have hP0 := st.page_pos
    obtain ⟨f2, hf2⟩ : ∃ f2, f2 = if r.1 = s.page_address then f else r.1 := ⟨_, rfl⟩
    have hcase : (r.1 = s.page_address ∧ mp2 = mp ∧ f2 = f) ∨
        (r.1 ≠ s.page_address ∧ mp2 = 0 ∧ f2 = r.1) := by
      by_cases hc : r.1 = s.page_address
      · left
        refine ⟨hc, ?_, by rw [hf2, if_pos hc]⟩
        rw [hmp2, if_neg (by simp [hc])]
      · right
        refine ⟨hc, ?_, by rw [hf2, if_neg hc]⟩
        rw [hmp2, if_pos (fun h => hc h.symm)]
    have hge := start_nonneg inv2
    rw [hpa, hi2] at hge
    have hA : attempt_start s2 mp2 = r.1 - mp2 := by
      unfold attempt_start
      rw [hpa, hi2]
      omega
    refine ⟨s2, mp2, calls2, rest', f2, hstep, ?_, by rw [hi2]; omega, ?_, ?_⟩
    · refine
        { inv := inv2, chain := ?_, reads_here := ?_, reads_rest := ?_, budget := ?_,
          frontier_le := ?_, no_earlier := ?_ }
      · rw [hra, hrs]; exact hchain
      · intro a h1 h2
        rw [hra] at h1 h2
        rw [hrs] at h2
        exact reads r (List.mem_cons_self _ _) a h1 h2
      · intro r' hr'
        exact reads r' (List.mem_cons_of_mem _ hr')
      · rw [hrs]
        rw [total_size_cons] at budget
        exact budget
      · rw [hA]
        rcases hcase with ⟨c1, c2, c3⟩ | ⟨c1, c2, c3⟩
        · rw [c1, c2, c3]; exact hf
        · omega
      · intro a' h1 h2
        rw [hA] at h2
        rcases hcase with ⟨c1, c2, c3⟩ | ⟨c1, c2, c3⟩
        · rw [c1, c2] at h2
          rw [c3] at h1
          exact hno a' h1 h2
        · omega
    · unfold chain_measure
      rw [hA, hra, hrs, total_size_cons]
      rcases hcase with ⟨c1, c2, c3⟩ | ⟨c1, c2, c3⟩
      · rw [c2]
        rw [c2] at hge
        have e : r.1 + r.2 - (r.1 - mp) + total_size rest' = mp + (r.2 + total_size rest') := by
          omega
        rw [e]
      · rw [c2]
        have e : r.1 + r.2 - (r.1 - 0) + total_size rest' = r.2 + total_size rest' := by omega
        rw [e, Nat.add_mul mp]
        have : mp ≤ mp * (sig.length + 1) := Nat.le_mul_of_pos_right mp (by omega)
        omega
    · rw [next_occurrence_cons memory sig r rest' f _ hnone, hra, hrs, hf2]

theorem chain_normal {env : mach_env} {task P : Nat} {memory : Nat → Nat}
    {sig : memscan_signature} {T : Nat} {s : memscan_scanner} {mp : Nat}
    {rest : List (Nat × Nat)} {f : Nat}
    (st : stable_target env task P memory) (hL : sig.length ≤ P)
    (ci : chain_inv env task P memory sig T rest f s mp)
    (region_fuel : Nat) (calls : List os_call) :
    (∃ s2 mp2 calls2 rest2 f2,
      scan_step env (region_fuel + 1) s mp calls = scan_compare s2 mp2 calls2 ∧
      chain_inv env task P memory sig T rest2 f2 s2 mp2 ∧ s2.scan_index < P ∧
      chain_measure sig s2 mp2 rest2 ≤ chain_measure sig s mp rest ∧
      next_occurrence memory sig rest f (s.region_address + s.region_size) =
        next_occurrence memory sig rest2 f2 (s2.region_address + s2.region_size)) ∨
    (∃ r, scan_step env (region_fuel + 1) s mp calls = step_result.returned r ∧
      r.ret = false ∧ r.match_write = none ∧ r.error_write = none ∧
      next_occurrence memory sig rest f (s.region_address + s.region_size) = none) := by
  have inv := ci.inv
  have h1 := inv.index_le
  have h2 := inv.page_hi
  have h3 := inv.page_lo
  by_cases hi : s.scan_index < P
  · left
    exact ⟨s, mp, calls, rest, f, step_mid st inv hi _ calls, ci, hi, le_refl _, rfl⟩
  · have hi' : s.scan_index = P := by omega
    by_cases hin : s.page_address + P < s.region_address + s.region_size
    · left
      rw [step_page st inv hi' hin]
      have hf : ¬ (s.filter.end_address ≠ 0 ∧ s.page_address + P > s.filter.end_address) := by
        rw [inv.filter_eq]
        simp
      have hal := inv.rest_al
      have hge := Nat.le_of_dvd (by omega) hal
      have hr : (env.vm_read_overwrite task (s.page_address + P) P).1 = 0 :=
        ci.reads_here _ (by omega) (by omega)
      have hd := st.reads _ hr
      have inv2 := inv_page_advance hL inv hi' hin hf _ hd
      have hA : attempt_start
          { s with page_address := s.page_address + P, scan_index := 0,
                   previous_page_buffer := s.page_buffer,
                   page_buffer := (env.vm_read_overwrite task (s.page_address + P) P).2 } mp =
          attempt_start s mp := by
        show Int.toNat (((s.page_address + P : Nat) : Int) + 0 - mp) =
          Int.toNat (s.page_address + s.scan_index - mp)
        rw [hi']
        congr 1
      refine ⟨_, mp, calls ++ [os_call.page_read s.target.task (s.page_address + P) s.page_size],
        rest, f, ?_,
        { inv := inv2, chain := ci.chain, reads_here := ci.reads_here,
          reads_rest := ci.reads_rest, budget := ci.budget,
          frontier_le := by rw [hA]; exact ci.frontier_le,
          no_earlier := by rw [hA]; exact ci.no_earlier }, ?_, ?_, rfl⟩
      · unfold scan_load scan_read
        simp only [if_true]
        rw [if_neg hf]
        have e : env.vm_read_overwrite s.target.task (s.page_address + P) s.page_size =
            env.vm_read_overwrite task (s.page_address + P) P := by
          rw [inv.task_eq, inv.page_size_eq]
        simp only [e]
        rw [if_neg (by simpa using hr)]
      · show (0 : Int) < P
        have := st.page_pos
        omega
      · unfold chain_measure
        rw [hA]
    · have hin' : s.page_address + P = s.region_address + s.region_size := by omega
      rw [step_region st inv hi' hin']
      have ent := entry_of_inv st inv hi' hin'
      have hnn := start_nonneg inv
      have hAs : attempt_start s mp = s.page_address + P - mp := by
        unfold attempt_start
        omega
      have hfr := ci.frontier_le
      have hno := ci.no_earlier
      rw [hAs] at hfr hno
      have hbud : total_size rest ≤ T := by
        have := ci.budget
        omega
      rcases chain_entry st hL ent hin' ci.chain ci.reads_rest
          hbud (by show mp ≤ s.page_address + P; omega) hfr hno region_fuel calls with
        ⟨s2, mp2, calls2, rest2, f2, g1, g2, g3, g4, g5⟩ | ⟨r, g1, g2, g3, g4, g5⟩
      · left
        refine ⟨s2, mp2, calls2, rest2, f2, g1, g2, g3, ?_, ?_⟩
        · unfold chain_measure
          rw [hAs]
          have e : s.region_address + s.region_size - (s.page_address + P - mp) +
              total_size rest = mp + total_size rest := by omega
          rw [e]
          exact g4
        · rw [← hin']
          exact g5
      · right
        refine ⟨r, g1, g2, g3, g4, ?_⟩
        rw [← hin']
        exact g5

theorem chain_after_compare {env : mach_env} {task P : Nat} {memory : Nat → Nat}
    {sig : memscan_signature} {T : Nat}
    (st : stable_target env task P memory) (hw : well_formed sig)
    (hL : sig.length ≤ P) (region_fuel fuel : Nat)
    (ih : ∀ (s : memscan_scanner) (mp : Nat) (calls : List os_call) (rest : List (Nat × Nat))
      (f : Nat), chain_inv env task P memory sig T rest f s mp →
      chain_measure sig s mp rest ≤ fuel →
      ∃ r, scan_loop env region_fuel fuel s mp calls = outcome.done r ∧
        chain_post env task P memory sig T
          (next_occurrence memory sig rest f (s.region_address + s.region_size)) r)
    (s : memscan_scanner) (mp : Nat) (calls : List os_call) (rest : List (Nat × Nat)) (f : Nat)
    (ci : chain_inv env task P memory sig T rest f s mp) (hi : s.scan_index < P)
    (hm : chain_measure sig s mp rest ≤ fuel + 1) :
    ∃ r, (match scan_compare s mp calls with
      | step_result.again s' mp' calls' => scan_loop env region_fuel fuel s' mp' calls'
      | step_result.returned r => outcome.done r
      | step_result.fault => outcome.fault
      | step_result.timeout => outcome.timeout) = outcome.done r ∧
      chain_post env task P memory sig T
        (next_occurrence memory sig rest f (s.region_address + s.region_size)) r := by
  have inv := ci.inv
  have hpos : 0 < sig.length := by have := inv.progress_lt; omega
  have h0 := start_nonneg inv
  have h1 := inv.page_hi
  have h2 := inv.progress_lt
  have hf := ci.frontier_le
  have hno := ci.no_earlier
  have hA : attempt_start s mp < s.region_address + s.region_size := by
    unfold attempt_start
    omega
  by_cases hmis : sig.mask[mp]? = some true ∧
      sig.signature[mp]? ≠ some (memory (Int.toNat (s.page_address + s.scan_index)))
  · rw [compare_mismatch st.page_small hw inv hi calls hmis]
    have hs : attempt_start { s with scan_index := s.scan_index - mp + 1 } 0 =
        attempt_start s mp + 1 := by
      show Int.toNat ((s.page_address : Int) + (s.scan_index - mp + 1) - (0 : Nat)) =
        Int.toNat (s.page_address + s.scan_index - mp) + 1
      omega
    apply ih _ _ _ rest f
    · refine
        { inv := inv_mismatch hpos inv hi, chain := ci.chain, reads_here := ci.reads_here,
          reads_rest := ci.reads_rest, budget := ci.budget, frontier_le := ?_,
          no_earlier := ?_ }
      · rw [hs]; omega
      · intro a' ha1 ha2 hocc
        rw [hs] at ha2
        by_cases hlt : a' < attempt_start s mp
        · exact hno a' ha1 hlt hocc
        · have : a' = attempt_start s mp := by omega
          subst this
          have := hocc mp h2 hmis.1
          apply hmis.2
          rw [this]
          congr 2
          unfold attempt_start
          omega
    · unfold chain_measure at hm ⊢
      rw [hs]
      have e : s.region_address + s.region_size - attempt_start s mp + total_size rest =
          (s.region_address + s.region_size - (attempt_start s mp + 1) + total_size rest) + 1 := by
        omega
      rw [e, Nat.add_mul, Nat.one_mul] at hm
      show (s.region_address + s.region_size - (attempt_start s mp + 1) + total_size rest) *
        (sig.length + 1) + (sig.length - 0) ≤ fuel
      omega
  · by_cases hlt : mp + 1 = sig.length
    · have hok := compare_ok st hw hL inv hi calls
      rw [compare_found st hw hL inv hi calls hmis hlt] at hok ⊢
      obtain ⟨inv', a, hma, hocc, hend, _⟩ := hok rfl
      have ha : a = attempt_start s mp := by
        simp only [Option.some.injEq, memscan_match.mk.injEq] at hma
        rw [← hma]
        rfl
      have hin : a + sig.length ≤ s.region_address + s.region_size := by
        rw [ha]
        unfold attempt_start
        omega
      rw [next_occurrence_found memory sig rest f _ a (by rw [ha]; exact hf) hin hocc
        (by rw [ha]; exact hno)]
      have hs' : attempt_start { s with scan_index := s.scan_index + 1 } 0 =
          a + sig.length := by
        rw [ha]
        show Int.toNat ((s.page_address : Int) + (s.scan_index + 1) - (0 : Nat)) =
          Int.toNat (s.page_address + s.scan_index - mp) + sig.length
        omega
      refine ⟨_, rfl, rfl, by rw [ha]; rfl, ?_, rfl, hs'⟩
      exact
        { inv := inv', chain := ci.chain, reads_here := ci.reads_here,
          reads_rest := ci.reads_rest, budget := ci.budget,
          frontier_le := by rw [hs'],
          no_earlier := by
            intro a' h1 h2
            rw [hs'] at h2
            omega }
    · rw [compare_progress st.page_small hw hL inv hi calls hmis hlt]
      have hs : attempt_start { s with scan_index := s.scan_index + 1 } (mp + 1) =
          attempt_start s mp := by
        show Int.toNat ((s.page_address : Int) + (s.scan_index + 1) - ((mp + 1 : Nat) : Int)) =
          Int.toNat (s.page_address + s.scan_index - mp)
        omega
      apply ih _ _ _ rest f
      · exact
          { inv := inv_progress inv hi hmis (by omega), chain := ci.chain,
            reads_here := ci.reads_here, reads_rest := ci.reads_rest, budget := ci.budget,
            frontier_le := by rw [hs]; exact hf,
            no_earlier := by rw [hs]; exact hno }
      · unfold chain_measure at hm ⊢
        rw [hs]
        show (s.region_address + s.region_size - attempt_start s mp + total_size rest) *
          (sig.length + 1) + (sig.length - (mp + 1)) ≤ fuel
        omega

theorem chain_loop {env : mach_env} {task P : Nat} {memory : Nat → Nat}
    {sig : memscan_signature} {T : Nat}
    (st : stable_target env task P memory) (hw : well_formed sig)
    (hL : sig.length ≤ P) (region_fuel : Nat) :
    ∀ (fuel : Nat) (s : memscan_scanner) (mp : Nat) (calls : List os_call)
      (rest : List (Nat × Nat)) (f : Nat),
      chain_inv env task P memory sig T rest f s mp →
      chain_measure sig s mp rest ≤ fuel →
      ∃ r, scan_loop env (region_fuel + 1) fuel s mp calls = outcome.done r ∧
        chain_post env task P memory sig T
          (next_occurrence memory sig rest f (s.region_address + s.region_size)) r := by
  intro fuel
  induction fuel with
  | zero =>
    intro s mp calls rest f ci hm
    have := ci.inv.progress_lt
    unfold chain_measure at hm
    omega
  | succ fuel ih =>
    intro s mp calls rest f ci hm
    unfold scan_loop
    rcases chain_normal st hL ci region_fuel calls with
      ⟨s2, mp2, calls2, rest2, f2, hstep, ci2, hi2, hle, hspec⟩ |
      ⟨r, hstep, hr1, hr2, hr3, hspec⟩
    · rw [hstep, hspec]
      exact chain_after_compare st hw hL (region_fuel + 1) fuel ih s2 mp2 calls2 rest2 f2 ci2
        hi2 (by omega)
    · rw [hstep, hspec]
      exact ⟨r, rfl, hr1, hr2, hr3⟩

theorem first_occurrence_bounds (memory : Nat → Nat) (sig : memscan_signature) :
    ∀ (n lo a : Nat), first_occurrence memory sig n lo = some a → lo ≤ a ∧ a < lo + n := by
  intro n
  induction n with
  | zero => intro lo a h; simp [first_occurrence] at h
  | succ n ih =>
    intro lo a h
    unfold first_occurrence at h
    split_ifs at h with hc
    · simp only [Option.some.injEq] at h
      omega
    · have := ih (lo + 1) a h
      omega

theorem next_occurrence_progress (memory : Nat → Nat) (sig : memscan_signature)
    (hpos : 0 < sig.length) :
    ∀ (rest : List (Nat × Nat)) (f hi a hi' : Nat) (rest' : List (Nat × Nat)), f ≤ hi →
      next_occurrence memory sig rest f hi = some (a, hi', rest') →
      a + sig.length ≤ hi' ∧
      hi' + total_size rest' + f < hi + total_size rest + (a + sig.length) := by
  intro rest
  induction rest with
  | nil =>
    intro f hi a hi' rest' hf h
    rw [next_occurrence] at h
    cases hfi : first_inside memory sig f hi with
    | none => rw [hfi] at h; simp at h
    | some a0 =>
      rw [hfi] at h
      simp only [Option.some.injEq, Prod.mk.injEq] at h
      obtain ⟨rfl, rfl, rfl⟩ := h
      unfold first_inside at hfi
      have := first_occurrence_bounds memory sig _ _ _ hfi
      omega
  | cons r rest ih =>
    intro f hi a hi' rest' hf h
    cases hfi : first_inside memory sig f hi with
    | none =>
      rw [next_occurrence_cons memory sig r rest f hi hfi] at h
      have := ih (if r.1 = hi then f else r.1) (r.1 + r.2) a hi' rest'
        (by split_ifs <;> omega) h
      rw [total_size_cons]
      split_ifs at this with hc <;> omega
    | some a0 =>
      rw [next_occurrence] at h
      rw [hfi] at h
      simp only [Option.some.injEq, Prod.mk.injEq] at h
      obtain ⟨rfl, rfl, rfl⟩ := h
      unfold first_inside at hfi
      have := first_occurrence_bounds memory sig _ _ _ hfi
      omega

theorem first_chain {env : mach_env} {task P : Nat} {memory : Nat → Nat}
    {sig : memscan_signature} {regions : List (Nat × Nat)}
    (rc : region_chain env task P memory regions) (hw : well_formed sig)
    (hL : sig.length ≤ P) (hpos : 0 < sig.length) (target : memscan_target)
    (ht : target.task = task) (fuel : Nat)
    (hfuel : (total_size regions + P) * (sig.length + 1) + sig.length + 1 ≤ fuel) :
    ∃ r, memscan_scanner_next env fuel
        (memscan_scanner_create target sig { start_address := 0, end_address := 0 }) =
          outcome.done r ∧
      chain_post env task P memory sig (total_size regions)
        (next_occurrence memory sig regions 0 0) r := by
  have st := rc.stable
  rw [next_created env fuel target sig _ (by rw [st.page_size])]
  obtain ⟨fuel, rfl⟩ : ∃ k, fuel = k + 1 := ⟨fuel - 1, by omega⟩
  unfold scan_loop
  rw [first_step st]
  have ent := first_entry st target sig { start_address := 0, end_address := 0 } ht hpos
  have hle : total_size regions * (sig.length + 1) ≤
      (total_size regions + P) * (sig.length + 1) := Nat.mul_le_mul_right _ (by omega)
  rcases chain_entry st hL ent rfl rc.chain rc.reads (le_refl _) (Nat.zero_le _)
      (Nat.zero_le _) (fun a' _ h2 => absurd h2 (Nat.not_lt_zero _)) fuel
      [os_call.page_size_query] with
    ⟨s2, mp2, calls2, rest2, f2, g1, g2, g3, g4, g5⟩ | ⟨r, g1, g2, g3, g4, g5⟩
  · rw [g1]
    have g5' : next_occurrence memory sig regions 0 0 =
        next_occurrence memory sig rest2 f2 (s2.region_address + s2.region_size) := g5
    rw [g5']
    exact chain_after_compare st hw hL (fuel + 1) fuel (chain_loop st hw hL fuel fuel)
      s2 mp2 calls2 rest2 f2 g2 g3 (by
        have e : (0 + total_size regions) = total_size regions := by omega
        rw [e] at g4
        omega)
  · rw [g1]
    have g5' : next_occurrence memory sig regions 0 0 = none := g5
    rw [g5']
    exact ⟨r, rfl, g2, g3, g4⟩

theorem later_chain {env : mach_env} {task P : Nat} {memory : Nat → Nat}
    {sig : memscan_signature} {T : Nat} {rest : List (Nat × Nat)}
    (st : stable_target env task P memory) (hw : well_formed sig)
    (hL : sig.length ≤ P) (s : memscan_scanner)
    (ci : chain_inv env task P memory sig T rest (attempt_start s 0) s 0) (fuel : Nat)
    (hfuel : (T + P) * (sig.length + 1) + sig.length + 1 ≤ fuel) :
    ∃ r, memscan_scanner_next env fuel s = outcome.done r ∧
      chain_post env task P memory sig T
        (next_occurrence memory sig rest (attempt_start s 0)
          (s.region_address + s.region_size)) r := by
  have inv := ci.inv
  unfold memscan_scanner_next
  have hp : ¬ s.page_size = 0 := by
    have := st.page_pos
    rw [inv.page_size_eq]
    omega
  rw [if_neg hp]
  obtain ⟨fuel, rfl⟩ : ∃ k, fuel = k + 1 := ⟨fuel - 1, by omega⟩
  apply chain_loop st hw hL fuel (fuel + 1) s 0 [] rest _ ci
  unfold chain_measure
  have h1 := inv.start_gt
  have h2 := inv.page_hi
  have h3 := inv.page_lo
  have h4 := start_nonneg inv
  have h5 := ci.budget
  have : s.region_address + s.region_size - attempt_start s 0 + total_size rest ≤ T + P := by
    unfold attempt_start
    omega
  have := Nat.mul_le_mul_right (sig.length + 1) this
  omega

theorem scan_until_false_chain {env : mach_env} {task P : Nat} {memory : Nat → Nat}
    {sig : memscan_signature} {regions : List (Nat × Nat)}
    (rc : region_chain env task P memory regions) (hw : well_formed sig)
    (hpos : 0 < sig.length) (hL : sig.length ≤ P) (target : memscan_target)
    (ht : target.task = task) (fuel : Nat)
    (hfuel : (total_size regions + P) * (sig.length + 1) + sig.length + 1 ≤ fuel) :
    ∀ (n : Nat) (s : memscan_scanner) (rest : List (Nat × Nat)) (f hi : Nat),
      ((s = memscan_scanner_create target sig { start_address := 0, end_address := 0 } ∧
          rest = regions ∧ f = 0 ∧ hi = 0) ∨
        (chain_inv env task P memory sig (total_size regions) rest f s 0 ∧
          f = attempt_start s 0 ∧ hi = s.region_address + s.region_size)) →
      f ≤ hi → hi - f + total_size rest < n →
      ∃ last, scan_until_false env fuel n s =
          outcome.done (all_occurrences memory sig n rest f hi, last) ∧
        last.ret = false ∧ last.match_write = none ∧ last.error_write = none := by
  intro n
  induction n with
  | zero => intro s rest f hi _ _ hn; omega
  | succ n ih =>
    intro s rest f hi hs hfh hn
    have hcall : ∃ r, memscan_scanner_next env fuel s = outcome.done r ∧
        chain_post env task P memory sig (total_size regions)
          (next_occurrence memory sig rest f hi) r := by
      rcases hs with ⟨rfl, rfl, rfl, rfl⟩ | ⟨ci, rfl, rfl⟩
      · exact first_chain rc hw hL hpos target ht fuel hfuel
      · exact later_chain rc.stable hw hL s ci fuel hfuel
    obtain ⟨r, hnext, hpost⟩ := hcall
    unfold scan_until_false
    rw [hnext, all_occurrences]
    cases hspec : next_occurrence memory sig rest f hi with
    | none =>
      rw [hspec] at hpost
      obtain ⟨hret, hm, he⟩ := hpost
      simp only [hret, if_true]
      exact ⟨r, rfl, hret, hm, he⟩
    | some v =>
      obtain ⟨a, hi', rest'⟩ := v
      rw [hspec] at hpost
      obtain ⟨hret, hm, ci', hend, hs'⟩ := hpost
      obtain ⟨p1, p2⟩ := next_occurrence_progress memory sig hpos rest f hi a hi' rest' hfh hspec
      obtain ⟨last, hl, hl1, hl2, hl3⟩ := ih r.scanner rest' (a + sig.length) hi'
        (Or.inr ⟨ci', hs'.symm, hend.symm⟩) p1 (by omega)
      refine ⟨last, ?_, hl1, hl2, hl3⟩
      simp only [hret, Bool.true_eq_false, if_false]
      rw [hl, hm]
      rfl

/-! ## Synthetic targets -/

theorem layout_reply_one (P : Nat) (r : vm_region) (memory : Nat → Nat)
    (task a sz d : Nat) :
    (layout_env P [r] memory).vm_region_recurse_64 task a sz d =
      if a < r.address + r.size then
        { kr := 0, address := r.address, size := r.size, depth := d,
          is_submap := r.is_submap, protection := r.protection }
      else
        { kr := KERN_INVALID_ADDRESS, address := a, size := sz, depth := d,
          is_submap := false, protection := 0 } := by
  unfold layout_env
  by_cases h : a < r.address + r.size <;> simp [List.find?, h]

theorem layout_read_one (P : Nat) (r : vm_region) (memory : Nat → Nat) (task a n : Nat) :
    (layout_env P [r] memory).vm_read_overwrite task a n =
      if r.address ≤ a ∧ a + n ≤ r.address + r.size then (0, memory_slice memory a n)
      else (KERN_INVALID_ADDRESS, []) := by
  unfold layout_env
  by_cases h : r.address ≤ a ∧ a + n ≤ r.address + r.size <;> simp [h]

theorem layout_single_region (P base size task : Nat) (memory : Nat → Nat)
    (hP0 : 0 < P) (hP : P < 2147483648) (hs : 0 < size) (hd : P ∣ size)
    (hb : base + size < 18446744073709551616) :
    single_region
      (layout_env P [{ address := base, size := size, protection := 3, is_submap := false }]
        memory) task P memory base size where
  stable :=
    { page_size := rfl
      page_pos := hP0
      page_small := hP
      regions := by
        intro a sz d hacc
        rw [layout_reply_one] at hacc ⊢
        by_cases h : a < base + size
        · simp only [h, if_true]
          exact ⟨hs, hd, hb⟩
        · simp only [h, if_false] at hacc
          have h1 : KERN_INVALID_ADDRESS = 0 := hacc.1
          exact absurd h1 (by decide)
      reads := by
        intro a h
        rw [layout_read_one] at h ⊢
        split_ifs at h ⊢ with hc
        · rfl
        · exact absurd h (by decide) }
  first_accepts := by
    rw [layout_reply_one]
    have : (0 : Nat) < base + size := by omega
    simp only [this, if_true]
    refine ⟨rfl, rfl, ?_⟩
    show 3 &&& VM_PROT_DEFAULT = VM_PROT_DEFAULT
    decide
  first_address := by
    rw [layout_reply_one]
    have : (0 : Nat) < base + size := by omega
    simp only [this, if_true]
  first_size := by
    rw [layout_reply_one]
    have : (0 : Nat) < base + size := by omega
    simp only [this, if_true]
  last := by
    rw [layout_reply_one]
    simp
  reads := by
    intro a h1 h2
    rw [layout_read_one]
    simp [h1, h2]

/-! ## The signature parser -/

theorem hex_bounds (c : Char) (d : Nat) (h : hex_digit_value c = some d) :
    d < 16 ∧ ((48 ≤ c.toNat ∧ c.toNat ≤ 57) ∨ (97 ≤ c.toNat ∧ c.toNat ≤ 102) ∨
      (65 ≤ c.toNat ∧ c.toNat ≤ 70)) := by
  unfold hex_digit_value at h
  split_ifs at h with h1 h2 h3 <;> simp only [Option.some.injEq] at h <;> omega

theorem strtol16_pair (c1 c2 : Char) (d1 d2 : Nat) (h1 : hex_digit_value c1 = some d1)
    (h2 : hex_digit_value c2 = some d2) :
    strtol16 [c1, c2] = ((16 * d1 + d2 : Nat) : Int) := by
  obtain ⟨b1, r1⟩ := hex_bounds c1 d1 h1
  obtain ⟨b2, r2⟩ := hex_bounds c2 d2 h2
  have hsp : isspace c1 = false := by
    unfold isspace
    simp only [Bool.or_eq_false_iff, decide_eq_false_iff_not, Bool.and_eq_false_iff]
    omega
  have hd : List.dropWhile isspace [c1, c2] = [c1, c2] := by
    simp [List.dropWhile, hsp]
  have hs : strtol_signed [c1, c2] = ((16 * d1 + d2 : Nat) : Int) := by
    have n1 : ¬ c1.toNat = 45 := by omega
    have n2 : ¬ c1.toNat = 43 := by omega
    simp only [strtol_signed, n1, n2, if_false, strtol_unsigned, strtol_digits, h1, h2]
    congr 1
    omega
  unfold strtol16
  simp only [hd, hs]
  rw [if_neg (by omega), if_neg (by omega)]

theorem wrap8_small (n : Nat) (h : n < 256) : wrap8 (n : Int) = n := by
  unfold wrap8
  omega

theorem hex_not_question (c : Char) (d : Nat) (h : hex_digit_value c = some d) : c ≠ '?' := by
  intro hc
  subst hc
  have : hex_digit_value '?' = none := by decide
  rw [this] at h
  exact absurd h (by simp)

theorem parse_byte_hex (s : List Char) (i d1 d2 : Nat)
    (h1 : hex_digit_value (char_at s (i * 2)) = some d1)
    (h2 : hex_digit_value (char_at s (i * 2 + 1)) = some d2) :
    parse_byte s i = 16 * d1 + d2 ∧ parse_mask s i = true := by
  have q1 := hex_not_question _ _ h1
  have q2 := hex_not_question _ _ h2
  obtain ⟨b1, r1⟩ := hex_bounds _ d1 h1
  obtain ⟨b2, r2⟩ := hex_bounds _ d2 h2
  have hq : ¬ (char_at s (i * 2) = '?' ∨ char_at s (i * 2 + 1) = '?') := by
    rintro (h | h)
    · exact q1 h
    · exact q2 h
  constructor
  · unfold parse_byte
    rw [if_neg hq]
    have hp : parse_string s i = [char_at s (i * 2), char_at s (i * 2 + 1)] := by
      unfold parse_string
      have n1 : (char_at s (i * 2)).toNat ≠ 0 := by omega
      have n2 : (char_at s (i * 2 + 1)).toNat ≠ 0 := by omega
      simp [List.takeWhile, n1, n2]
    rw [hp, strtol16_pair _ _ d1 d2 h1 h2, wrap8_small _ (by omega)]
  · unfold parse_mask
    rw [if_neg hq]

theorem parse_lengths (s : List Char) :
    (memscan_signature_parse s).length = strlen s / 2 ∧
    (memscan_signature_parse s).signature.length = strlen s / 2 ∧
    (memscan_signature_parse s).mask.length = strlen s / 2 := by
  unfold memscan_signature_parse
  simp

theorem parse_get (s : List Char) (i : Nat) (h : i < strlen s / 2) :
    (memscan_signature_parse s).signature[i]? = some (parse_byte s i) ∧
    (memscan_signature_parse s).mask[i]? = some (parse_mask s i) := by
  unfold memscan_signature_parse
  simp [List.getElem?_map, List.getElem?_range, h]

theorem hex_digit_value_hex_digit (upper : Bool) (d : Nat) (h : d < 16) :
    hex_digit_value (hex_digit upper d) = some d := by
  interval_cases d <;> cases upper <;> decide

theorem render_entry_nonzero (upper : Bool) (e : Nat × Bool) (hb : e.1 < 256) :
    (render_entry upper e).1.toNat ≠ 0 ∧ (render_entry upper e).2.toNat ≠ 0 := by
  unfold render_entry
  by_cases h : e.2 = true
  · rw [if_pos h]
    have h1 := (hex_bounds _ _ (hex_digit_value_hex_digit upper (e.1 / 16) (by omega))).2
    have h2 := (hex_bounds _ _ (hex_digit_value_hex_digit upper (e.1 % 16) (by omega))).2
    constructor
    · show (hex_digit upper (e.1 / 16)).toNat ≠ 0
      omega
    · show (hex_digit upper (e.1 % 16)).toNat ≠ 0
      omega
  · rw [if_neg h]
    decide

theorem strlen_render (upper : Bool) (es : List (Nat × Bool))
    (hb : ∀ e, e ∈ es → e.1 < 256) :
    strlen (render upper es) = 2 * es.length := by
  unfold strlen
  induction es with
  | nil => rfl
  | cons e es ih =>
    have h := render_entry_nonzero upper e (hb e (List.mem_cons_self _ _))
    have ih' := ih (fun e' he' => hb e' (List.mem_cons_of_mem _ he'))
    simp only [render, List.takeWhile, h.1, h.2, ne_eq, not_false_eq_true, decide_True,
      List.length_cons, ih']
    omega

theorem char_at_render (upper : Bool) :
    ∀ (es : List (Nat × Bool)) (i : Nat) (e : Nat × Bool), es[i]? = some e →
      char_at (render upper es) (i * 2) = (render_entry upper e).1 ∧
      char_at (render upper es) (i * 2 + 1) = (render_entry upper e).2 := by
  intro es
  induction es with
  | nil => intro i e h; simp at h
  | cons e0 es ih =>
    intro i e h
    cases i with
    | zero =>
      simp only [List.getElem?_cons_zero, Option.some.injEq] at h
      subst h
      exact ⟨rfl, rfl⟩
    | succ i =>
      simp only [List.getElem?_cons_succ] at h
      obtain ⟨h1, h2⟩ := ih i e h
      have e1 : (i + 1) * 2 = i * 2 + 1 + 1 := by omega
      unfold char_at at h1 h2 ⊢
      rw [e1]
      simp only [render, List.getD_cons_succ]
      exact ⟨h1, h2⟩

theorem parse_render_entry (upper : Bool) (es : List (Nat × Bool))
    (hb : ∀ e, e ∈ es → e.1 < 256) (i : Nat) (e : Nat × Bool) (h : es[i]? = some e) :
    parse_mask (render upper es) i = e.2 ∧
    (e.2 = true → parse_byte (render upper es) i = e.1) := by
  obtain ⟨c1, c2⟩ := char_at_render upper es i e h
  have hlt : e.1 < 256 := hb e (List.getElem?_mem h)
  by_cases hm : e.2 = true
  · have r1 : (render_entry upper e).1 = hex_digit upper (e.1 / 16) := by
      unfold render_entry; rw [if_pos hm]
    have r2 : (render_entry upper e).2 = hex_digit upper (e.1 % 16) := by
      unfold render_entry; rw [if_pos hm]
    have d1 := hex_digit_value_hex_digit upper (e.1 / 16) (by omega)
    have d2 := hex_digit_value_hex_digit upper (e.1 % 16) (by omega)
    rw [← r1, ← c1] at d1
    rw [← r2, ← c2] at d2
    obtain ⟨p1, p2⟩ := parse_byte_hex (render upper es) i _ _ d1 d2
    refine ⟨by rw [p2, hm], fun _ => ?_⟩
    rw [p1]
    omega
  · have hm' : e.2 = false := by simpa using hm
    have r1 : (render_entry upper e).1 = '?' := by
      unfold render_entry; rw [if_neg hm]
    refine ⟨?_, fun h' => absurd h' hm⟩
    unfold parse_mask
    rw [if_pos (Or.inl (by rw [c1, r1])), hm']

theorem parse_wildcard_signature :
    memscan_signature_parse ['A', 'A', '?', '?', 'C', 'C'] =
      { length := 3, signature := [170, 0, 204], mask := [true, false, true] } := by
  decide

theorem occurs_at_wildcard (memory : Nat → Nat) (a : Nat) :
    occurs_at memory { length := 3, signature := [170, 0, 204], mask := [true, false, true] } a
      ↔ memory a = 170 ∧ memory (a + 2) = 204 := by
  unfold occurs_at
  constructor
  · intro h
    have h0 := h 0 (by decide) rfl
    have h2 := h 2 (by decide) rfl
    simp only [List.getElem?_cons_zero, Option.some.injEq, add_zero] at h0
    simp only [List.getElem?_cons_succ, List.getElem?_cons_zero, Option.some.injEq] at h2
    exact ⟨h0.symm, h2.symm⟩
  · rintro ⟨h0, h2⟩ j hj hmask
    have hj' : j < 3 := hj
    interval_cases j
    · simp [h0]
    · simp at hmask
    · simp [h2]

/-! ## More on the enumerator and the synthetic targets -/

theorem layout_accepted_one (P : Nat) (r : vm_region) (memory : Nat → Nat)
    (task b sz : Nat) (h : accepted (layout_env P [r] memory) task b sz) :
    b = r.address ∧ sz = r.size := by
  obtain ⟨a, sz0, d, hacc, rfl, rfl⟩ := h
  rw [layout_reply_one] at hacc ⊢
  by_cases hc : a < r.address + r.size
  · simp only [hc, if_true, and_self]
  · simp only [hc, if_false] at hacc
    have h1 : KERN_INVALID_ADDRESS = 0 := hacc.1
    exact absurd h1 (by decide)

theorem layout_stable (P task : Nat) (regions : List vm_region) (memory : Nat → Nat)
    (hP0 : 0 < P) (hP : P < 2147483648)
    (hr : ∀ r, r ∈ regions → 0 < r.size ∧ P ∣ r.size ∧
      r.address + r.size < 18446744073709551616) :
    stable_target (layout_env P regions memory) task P memory where
  page_size := rfl
  page_pos := hP0
  page_small := hP
  regions := by
    intro a sz d hacc
    have e : (layout_env P regions memory).vm_region_recurse_64 task a sz d =
        match regions.find? (fun r => decide (a < r.address + r.size)) with
        | some r =>
          { kr := 0, address := r.address, size := r.size, depth := d,
            is_submap := r.is_submap, protection := r.protection }
        | none =>
          { kr := KERN_INVALID_ADDRESS, address := a, size := sz, depth := d,
            is_submap := false, protection := 0 } := rfl
    rw [e] at hacc ⊢
    cases hf : regions.find? (fun r => decide (a < r.address + r.size)) with
    | none =>
      rw [hf] at hacc
      have h1 : KERN_INVALID_ADDRESS = 0 := hacc.1
      exact absurd h1 (by decide)
    | some r =>
      exact hr r (List.mem_of_find?_eq_some hf)
  reads := by
    intro a h
    have e : (layout_env P regions memory).vm_read_overwrite task a P =
        if regions.any (fun r => decide (r.address ≤ a ∧ a + P ≤ r.address + r.size))
        then (0, memory_slice memory a P)
        else (KERN_INVALID_ADDRESS, []) := rfl
    rw [e] at h ⊢
    split_ifs at h ⊢ with hc
    · rfl
    · exact absurd h (by decide)

theorem next_region_loop_calls (env : mach_env) :
    ∀ (fuel : Nat) (s : memscan_scanner) (calls : List os_call) (r : region_result),
      next_region_loop env fuel s calls = some r →
      ∃ more, r.calls = calls ++ more ∧
        ∀ c, c ∈ more → ∃ t a sz d, c = os_call.region_query t a sz d := by
  intro fuel
  induction fuel with
  | zero => intro s calls r h; simp [next_region_loop] at h
  | succ fuel ih =>
    intro s calls r h
    unfold next_region_loop at h
    simp only at h
    have one : ∀ c, c ∈ [os_call.region_query s.target.task
        ((s.region_address + s.region_size) % U64) s.region_size s.region_depth] →
        ∃ t a sz d, c = os_call.region_query t a sz d := by
      intro c hc
      simp only [List.mem_singleton] at hc
      exact ⟨_, _, _, _, hc⟩
    split_ifs at h with h1 h2 h3 h4
    · simp only [Option.some.injEq] at h
      subst h
      exact ⟨_, rfl, one⟩
    · simp only [Option.some.injEq] at h
      subst h
      exact ⟨_, rfl, one⟩
    · obtain ⟨more, hm, hall⟩ := ih _ _ _ h
      refine ⟨[os_call.region_query s.target.task
        ((s.region_address + s.region_size) % U64) s.region_size s.region_depth] ++ more,
        by rw [hm, List.append_assoc], ?_⟩
      intro c hc
      rcases List.mem_append.1 hc with hc | hc
      · exact one c hc
      · exact hall c hc
    · simp only [Option.some.injEq] at h
      subst h
      exact ⟨_, rfl, one⟩
    · obtain ⟨more, hm, hall⟩ := ih _ _ _ h
      refine ⟨[os_call.region_query s.target.task
        ((s.region_address + s.region_size) % U64) s.region_size s.region_depth] ++ more,
        by rw [hm, List.append_assoc], ?_⟩
      intro c hc
      rcases List.mem_append.1 hc with hc | hc
      · exact one c hc
      · exact hall c hc

theorem next_region_calls (env : mach_env) (fuel : Nat) (s : memscan_scanner)
    (r : region_result) (h : memscan_scanner_next_region env fuel s = some r) :
    ∀ c, c ∈ r.calls → ∃ t a sz d, c = os_call.region_query t a sz d := by
  unfold memscan_scanner_next_region at h
  obtain ⟨more, hm, hall⟩ := next_region_loop_calls env _ _ _ _ h
  rw [hm, List.nil_append]
  exact hall

theorem accepts_leaf (reply : vm_region_reply) (h1 : reply.kr = 0)
    (h2 : reply.is_submap = false) (h3 : reply.protection = 3) : accepts reply := by
  refine ⟨h1, h2, ?_⟩
  rw [h3]
  decide

theorem enumerates_nil (env : mach_env) (task : Nat) (cur : Nat × Nat)
    (h : ∀ d, (env.vm_region_recurse_64 task ((cur.1 + cur.2) % U64) cur.2 d).kr =
      KERN_INVALID_ADDRESS) :
    enumerates env task cur [] := by
  unfold enumerates
  exact h

theorem enumerates_cons (env : mach_env) (task : Nat) (cur r : Nat × Nat)
    (rest : List (Nat × Nat))
    (h : ∀ d, accepts (env.vm_region_recurse_64 task ((cur.1 + cur.2) % U64) cur.2 d) ∧
      (env.vm_region_recurse_64 task ((cur.1 + cur.2) % U64) cur.2 d).address = r.1 ∧
      (env.vm_region_recurse_64 task ((cur.1 + cur.2) % U64) cur.2 d).size = r.2)
    (hrest : enumerates env task r rest) :
    enumerates env task cur (r :: rest) := by
  unfold enumerates
  exact ⟨h, hrest⟩

theorem occurs_at_three (memory : Nat → Nat) (a b0 b1 b2 : Nat) :
    occurs_at memory (exact_signature [b0, b1, b2]) a ↔
      memory a = b0 ∧ memory (a + 1) = b1 ∧ memory (a + 2) = b2 := by
  unfold occurs_at exact_signature
  constructor
  · intro h
    have h0 := h 0 (show 0 < 3 by omega) rfl
    have h1 := h 1 (show 1 < 3 by omega) rfl
    have h2 := h 2 (show 2 < 3 by omega) rfl
    simp only [List.getElem?_cons_zero, Option.some.injEq, add_zero] at h0
    simp only [List.getElem?_cons_succ, List.getElem?_cons_zero, Option.some.injEq] at h1 h2
    exact ⟨h0.symm, h1.symm, h2.symm⟩
  · rintro ⟨h0, h1, h2⟩ j hj _
    have hj' : j < 3 := hj
    interval_cases j
    · simp [h0]
    · simp [h1]
    · simp [h2]

theorem slice_eight (memory : Nat → Nat) (base b0 b1 b2 b3 b4 b5 b6 b7 : Nat)
    (h : memory_slice memory base 8 = [b0, b1, b2, b3, b4, b5, b6, b7]) :
    memory base = b0 ∧ memory (base + 1) = b1 ∧ memory (base + 2) = b2 ∧
    memory (base + 3) = b3 ∧ memory (base + 4) = b4 ∧ memory (base + 5) = b5 ∧
    memory (base + 6) = b6 ∧ memory (base + 7) = b7 := by
  have g : ∀ k, k < 8 → (memory_slice memory base 8)[k]? = some (memory (base + k)) :=
    fun k hk => memory_slice_get memory base 8 k hk
  rw [h] at g
  have g0 := g 0 (by decide)
  have g1 := g 1 (by decide)
  have g2 := g 2 (by decide)
  have g3 := g 3 (by decide)
  have g4 := g 4 (by decide)
  have g5 := g 5 (by decide)
  have g6 := g 6 (by decide)
  have g7 := g 7 (by decide)
  simp only [List.getElem?_cons_succ, List.getElem?_cons_zero, Option.some.injEq,
    add_zero] at g0 g1 g2 g3 g4 g5 g6 g7
  exact ⟨g0.symm, g1.symm, g2.symm, g3.symm, g4.symm, g5.symm, g6.symm, g7.symm⟩

/-! ## The parser on arbitrary text -/

theorem strlen_no_nul (s : List Char) (hs : ∀ c, c ∈ s → c.toNat ≠ 0) : strlen s = s.length := by
  unfold strlen
  rw [List.takeWhile_eq_self_iff.mpr]
  intro c hc
  simpa using hs c hc

theorem strlen_append_one (s : List Char) (hs : ∀ c, c ∈ s → c.toNat ≠ 0) (c : Char) :
    strlen (s ++ [c]) = s.length ∨ strlen (s ++ [c]) = s.length + 1 := by
  unfold strlen
  have h1 : ∀ x, x ∈ s → (decide (x.toNat ≠ 0)) = true := by
    intro x hx
    simpa using hs x hx
  rw [List.takeWhile_append_of_pos h1]
  by_cases hc : c.toNat = 0
  · left
    simp [List.takeWhile, hc]
  · right
    simp [List.takeWhile, hc]

theorem char_at_append (s : List Char) (c : Char) (j : Nat) (h : j < s.length) :
    char_at (s ++ [c]) j = char_at s j := by
  unfold char_at
  simp [List.getD, List.getElem?_append_left h]

theorem parse_pair_append (s : List Char) (c : Char) (i : Nat) (h : i * 2 + 1 < s.length) :
    parse_byte (s ++ [c]) i = parse_byte s i ∧ parse_mask (s ++ [c]) i = parse_mask s i := by
  unfold parse_byte parse_mask parse_string
  rw [char_at_append s c _ h, char_at_append s c (i * 2) (by omega)]
  exact ⟨rfl, rfl⟩

theorem strtol16_no_digits (c1 c2 : Char) (h1 : hex_digit_value c1 = none)
    (h2 : isspace c1 = false) (h3 : c1.toNat ≠ 45) (h4 : c1.toNat ≠ 43) :
    strtol16 [c1, c2] = 0 := by
  have hd : List.dropWhile isspace [c1, c2] = [c1, c2] := by
    simp [List.dropWhile, h2]
  have hs : strtol_signed [c1, c2] = 0 := by
    simp only [strtol_signed, h3, h4, if_false, strtol_unsigned, strtol_digits, h1]
    rfl
  unfold strtol16
  simp only [hd, hs]
  rw [if_neg (by omega), if_neg (by omega)]

theorem char_at_mem (s : List Char) (j : Nat) (h : j < s.length) : char_at s j ∈ s := by
  unfold char_at
  rw [List.getD_eq_getElem _ _ h]
  exact List.getElem_mem h

theorem parse_byte_no_digits (s : List Char) (hs : ∀ c, c ∈ s → c.toNat ≠ 0) (i : Nat)
    (hi : i * 2 + 1 < s.length)
    (q1 : char_at s (i * 2) ≠ '?') (q2 : char_at s (i * 2 + 1) ≠ '?')
    (h1 : hex_digit_value (char_at s (i * 2)) = none)
    (h2 : isspace (char_at s (i * 2)) = false)
    (h3 : (char_at s (i * 2)).toNat ≠ 45) (h4 : (char_at s (i * 2)).toNat ≠ 43) :
    parse_byte s i = 0 ∧ parse_mask s i = true := by
  have hq : ¬ (char_at s (i * 2) = '?' ∨ char_at s (i * 2 + 1) = '?') := by
    rintro (h | h)
    · exact q1 h
    · exact q2 h
  constructor
  · unfold parse_byte
    rw [if_neg hq]
    have hp : parse_string s i = [char_at s (i * 2), char_at s (i * 2 + 1)] := by
      unfold parse_string
      have n1 : (char_at s (i * 2)).toNat ≠ 0 := hs _ (char_at_mem s _ (by omega))
      have n2 : (char_at s (i * 2 + 1)).toNat ≠ 0 := hs _ (char_at_mem s _ hi)
      simp [List.takeWhile, n1, n2]
    rw [hp, strtol16_no_digits _ _ h1 h2 h3 h4]
    rfl
  · unfold parse_mask
    rw [if_neg hq]

theorem parse_append_odd (s : List Char) (hs : ∀ c, c ∈ s → c.toNat ≠ 0) (c : Char)
    (heven : s.length % 2 = 0) :
    memscan_signature_parse (s ++ [c]) = memscan_signature_parse s := by
  have e1 : strlen (s ++ [c]) / 2 = s.length / 2 := by
    rcases strlen_append_one s hs c with h | h
    · rw [h]
    · rw [h]
      omega
  unfold memscan_signature_parse
  simp only [e1, strlen_no_nul s hs]
  have e2 : ∀ i, i ∈ List.range (s.length / 2) →
      parse_byte (s ++ [c]) i = parse_byte s i ∧ parse_mask (s ++ [c]) i = parse_mask s i := by
    intro i hi
    rw [List.mem_range] at hi
    exact parse_pair_append s c i (by omega)
  congr 1
  · exact List.map_congr_left (fun i hi => (e2 i hi).1)
  · exact List.map_congr_left (fun i hi => (e2 i hi).2)

/-! ## The queries of the region enumerator -/

theorem enumeration_cons (env : mach_env) (task : Nat) (q : os_call) (more : List os_call)
    (address size depth : Nat)
    (hq : q = os_call.region_query task ((address + size) % U64) size depth)
    (hk : (env.vm_region_recurse_64 task ((address + size) % U64) size depth).kr = 0)
    (hn : ¬ accepts (env.vm_region_recurse_64 task ((address + size) % U64) size depth))
    (hm : enumeration env task more
      (env.vm_region_recurse_64 task ((address + size) % U64) size depth).address
      (env.vm_region_recurse_64 task ((address + size) % U64) size depth).size
      (depth_after (env.vm_region_recurse_64 task ((address + size) % U64) size depth))) :
    enumeration env task (q :: more) address size depth := by
  cases more with
  | nil => exact absurd hm (by simp [enumeration])
  | cons q' rest => exact ⟨hq, hk, hn, hm⟩

theorem next_region_loop_trace (env : mach_env) :
    ∀ (fuel : Nat) (s : memscan_scanner) (calls : List os_call) (r : region_result),
      next_region_loop env fuel s calls = some r →
      ∃ more, r.calls = calls ++ more ∧
        enumeration env s.target.task more s.region_address s.region_size s.region_depth ∧
        ∃ t a sz d, more.getLast? = some (os_call.region_query t a sz d) ∧
          enumerator_post (env.vm_region_recurse_64 t a sz d) r := by
  intro fuel
  induction fuel with
  | zero => intro s calls r h; simp [next_region_loop] at h
  | succ fuel ih =>
    intro s calls r h
    unfold next_region_loop at h
    simp only at h
    split_ifs at h with h1 h2 h3 h4
    · simp only [Option.some.injEq] at h
      subst h
      refine ⟨[_], rfl, ⟨rfl, Or.inl ?_⟩, _, _, _, _, rfl, rfl, rfl, rfl, ?_, ?_, ?_, ?_⟩
      · rw [h1]; decide
      · constructor
        · intro hf; exact absurd hf (by simp)
        · rintro ⟨hk, _⟩
          rw [h1] at hk
          exact absurd hk (by decide)
      · intro _; rfl
      · intro _; rfl
      · intro _ hne; exact absurd h1 hne
    · simp only [Option.some.injEq] at h
      subst h
      refine ⟨[_], rfl, ⟨rfl, Or.inl h2⟩, _, _, _, _, rfl, rfl, rfl, rfl, ?_, ?_, ?_, ?_⟩
      · constructor
        · intro hf; exact absurd hf (by simp)
        · rintro ⟨hk, _⟩
          exact absurd hk h2
      · intro hk; exact absurd hk h2
      · intro hk; exact absurd hk h1
      · intro _ _; rfl
    · obtain ⟨more, hm, hen, hlast⟩ := ih _ _ _ h
      have hk : (env.vm_region_recurse_64 s.target.task
          ((s.region_address + s.region_size) % U64) s.region_size s.region_depth).kr = 0 := by
        simpa using h2
      refine ⟨_ :: more, by rw [hm, List.append_assoc]; rfl, ?_, ?_⟩
      · refine enumeration_cons env _ _ more _ _ _ rfl hk ?_ ?_
        · rintro ⟨_, hs, _⟩
          rw [h3] at hs
          exact absurd hs (by simp)
        · simpa [depth_after, h3] using hen
      · obtain ⟨t, a, sz, d, hl, hp⟩ := hlast
        refine ⟨t, a, sz, d, ?_, hp⟩
        cases more with
        | nil => simp at hl
        | cons q rest => simpa [List.getLast?_cons_cons] using hl
    · simp only [Option.some.injEq] at h
      subst h
      have hk : (env.vm_region_recurse_64 s.target.task
          ((s.region_address + s.region_size) % U64) s.region_size s.region_depth).kr = 0 := by
        simpa using h2
      have hs : (env.vm_region_recurse_64 s.target.task
          ((s.region_address + s.region_size) % U64) s.region_size s.region_depth).is_submap =
            false := by
        simpa using h3
      refine ⟨[_], rfl, ⟨rfl, Or.inr ⟨hk, hs, h4⟩⟩, _, _, _, _, rfl, rfl, rfl, rfl, ?_, ?_, ?_, ?_⟩
      · constructor
        · intro _; exact ⟨hk, hs, h4⟩
        · intro _; rfl
      · intro _; rfl
      · intro _; rfl
      · intro hne; exact absurd hk hne
    · obtain ⟨more, hm, hen, hlast⟩ := ih _ _ _ h
      have hk : (env.vm_region_recurse_64 s.target.task
          ((s.region_address + s.region_size) % U64) s.region_size s.region_depth).kr = 0 := by
        simpa using h2
      have hs : (env.vm_region_recurse_64 s.target.task
          ((s.region_address + s.region_size) % U64) s.region_size s.region_depth).is_submap =
            false := by
        simpa using h3
      refine ⟨_ :: more, by rw [hm, List.append_assoc]; rfl, ?_, ?_⟩
      · refine enumeration_cons env _ _ more _ _ _ rfl hk ?_ ?_
        · rintro ⟨_, _, hf⟩
          exact h4 hf
        · simpa [depth_after, hs] using hen
      · obtain ⟨t, a, sz, d, hl, hp⟩ := hlast
        refine ⟨t, a, sz, d, ?_, hp⟩
        cases more with
        | nil => simp at hl
        | cons q rest => simpa [List.getLast?_cons_cons] using hl

theorem enumeration_queries (env : mach_env) (task : Nat) :
    ∀ (qs : List os_call) (address size depth : Nat),
      enumeration env task qs address size depth →
      ∀ (i : Nat) (c : os_call), qs[i]? = some c →
        ∃ a sz d, c = os_call.region_query task a sz d ∧
          (i + 1 < qs.length →
            (env.vm_region_recurse_64 task a sz d).kr = 0 ∧
            ¬ accepts (env.vm_region_recurse_64 task a sz d) ∧
            qs[i + 1]? = some (os_call.region_query task
              (((env.vm_region_recurse_64 task a sz d).address +
                (env.vm_region_recurse_64 task a sz d).size) % U64)
              (env.vm_region_recurse_64 task a sz d).size
              (depth_after (env.vm_region_recurse_64 task a sz d)))) ∧
          (i + 1 = qs.length →
            (env.vm_region_recurse_64 task a sz d).kr ≠ 0 ∨
              accepts (env.vm_region_recurse_64 task a sz d)) := by
  intro qs
  induction qs with
  | nil => intro address size depth h; exact absurd h (by simp [enumeration])
  | cons q rest ih =>
    intro address size depth h i c hc
    cases rest with
    | nil =>
      obtain ⟨hq, hlast⟩ := h
      cases i with
      | zero =>
        simp only [List.getElem?_cons_zero, Option.some.injEq] at hc
        subst hc
        refine ⟨_, _, _, hq, ?_, fun _ => hlast⟩
        intro hlt
        simp at hlt
      | succ i => simp at hc
    | cons q' rest' =>
      obtain ⟨hq, hk, hn, hrest⟩ := h
      cases i with
      | zero =>
        simp only [List.getElem?_cons_zero, Option.some.injEq] at hc
        subst hc
        refine ⟨_, _, _, hq, fun _ => ⟨hk, hn, ?_⟩, ?_⟩
        · cases rest' with
          | nil =>
            obtain ⟨hq', _⟩ := hrest
            simp only [List.getElem?_cons_succ, List.getElem?_cons_zero, Option.some.injEq]
            exact hq'
          | cons q'' rest'' =>
            obtain ⟨hq', _⟩ := hrest
            simp only [List.getElem?_cons_succ, List.getElem?_cons_zero, Option.some.injEq]
            exact hq'
        · intro hlen
          simp at hlen
      | succ i =>
        simp only [List.getElem?_cons_succ] at hc
        obtain ⟨a, sz, d, h0, h1, h2⟩ := ih _ _ _ hrest i c hc
        refine ⟨a, sz, d, h0, ?_, ?_⟩
        · intro hlt
          simp only [List.length_cons] at hlt
          have := h1 (by simp only [List.length_cons]; omega)
          simpa [List.getElem?_cons_succ] using this
        · intro hlen
          simp only [List.length_cons] at hlen
          exact h2 (by simp only [List.length_cons]; omega)

/-! ## Failures of kernel calls -/

theorem surfaced_of_no_failure (env : mach_env) (r : next_result)
    (h : no_failure env r.calls) : surfaced env r := by
  intro i c cat k hc hf
  rw [h c (List.getElem?_mem hc)] at hf
  exact absurd hf (by simp)

theorem surfaced_of_last (env : mach_env) (r : next_result) (pre : List os_call) (c : os_call)
    (hcalls : r.calls = pre ++ [c]) (hpre : no_failure env pre) (hret : r.ret = false)
    (hmatch : r.match_write = none)
    (herr : ∀ cat k, failure env c = some (cat, k) →
      r.error_write = some { memscan := cat, mach := k }) : surfaced env r := by
  intro i c' cat k hc hf
  rw [hcalls] at hc ⊢
  by_cases hi : i < pre.length
  · rw [List.getElem?_append_left hi] at hc
    rw [hpre c' (List.getElem?_mem hc)] at hf
    exact absurd hf (by simp)
  · have hlen : i < (pre ++ [c]).length := by
      by_contra hge
      rw [List.getElem?_eq_none (by omega)] at hc
      exact absurd hc (by simp)
    simp only [List.length_append, List.length_singleton] at hlen ⊢
    have hi' : i = pre.length := by omega
    subst hi'
    simp only [List.getElem?_concat_length, Option.some.injEq] at hc
    subst hc
    exact ⟨rfl, hret, herr cat k hf, hmatch⟩

theorem no_failure_append (env : mach_env) (a b : List os_call) (ha : no_failure env a)
    (hb : no_failure env b) : no_failure env (a ++ b) := by
  intro c hc
  rcases List.mem_append.1 hc with h | h
  · exact ha c h
  · exact hb c h

theorem region_failures (env : mach_env) (fuel : Nat) (s : memscan_scanner)
    (r : region_result) (h : memscan_scanner_next_region env fuel s = some r) :
    ∃ pre c, r.calls = pre ++ [c] ∧ no_failure env pre ∧
      ((failure env c = none ∧ (r.ret = false → r.error_write = none)) ∨
        ∃ k, failure env c = some (MEMSCAN_ERROR_VM_REGION_INFO_FAILED, k) ∧ r.ret = false ∧
          r.error_write = some { memscan := MEMSCAN_ERROR_VM_REGION_INFO_FAILED, mach := k }) := by
  unfold memscan_scanner_next_region at h
  obtain ⟨more, hm, hen, t, a, sz, d, hl, hp⟩ := next_region_loop_trace env _ _ _ _ h
  rw [List.nil_append] at hm
  have hne : more ≠ [] := by
    intro hnil
    rw [hnil] at hl
    simp at hl
  have hmore : more = more.dropLast ++ [os_call.region_query t a sz d] := by
    have h1 := List.dropLast_append_getLast hne
    have h2 : more.getLast hne = os_call.region_query t a sz d := by
      have h3 := List.getLast?_eq_getLast more hne
      rw [h3, Option.some.injEq] at hl
      exact hl
    rw [h2] at h1
    exact h1.symm
  refine ⟨more.dropLast, os_call.region_query t a sz d, by rw [hm]; exact hmore, ?_, ?_⟩
  · intro c hc
    obtain ⟨i, hi, hget⟩ := List.mem_iff_getElem.1 hc
    have hi2 : i < more.dropLast.length := hi
    rw [List.length_dropLast] at hi2
    have hc2 : more[i]? = some c := by
      rw [List.getElem?_eq_getElem (by omega)]
      rw [← hget, List.getElem_dropLast]
    obtain ⟨a', sz', d', h0, h1, _⟩ := enumeration_queries env _ _ _ _ _ hen i c hc2
    have hk := (h1 (by omega)).1
    rw [h0]
    unfold failure
    simp [hk]
  · obtain ⟨_, _, _, p4, p5, p6, p7⟩ := hp
    by_cases hfail : (env.vm_region_recurse_64 t a sz d).kr ≠ 0 ∧
        (env.vm_region_recurse_64 t a sz d).kr ≠ KERN_INVALID_ADDRESS
    · right
      refine ⟨(env.vm_region_recurse_64 t a sz d).kr, ?_, ?_, p7 hfail.1 hfail.2⟩
      · simp only [failure]
        rw [if_pos hfail]
      · by_contra hret
        have : r.ret = true := by
          cases hr : r.ret
          · exact absurd hr hret
          · rfl
        exact hfail.1 (p4.1 this).1
    · left
      constructor
      · simp only [failure]
        rw [if_neg hfail]
      · intro _
        by_cases hk : (env.vm_region_recurse_64 t a sz d).kr = 0
        · exact p5 hk
        · have : (env.vm_region_recurse_64 t a sz d).kr = KERN_INVALID_ADDRESS := by
            by_contra hne2
            exact hfail ⟨hk, hne2⟩
          exact p6 this

theorem compare_surfaced (env : mach_env) (s : memscan_scanner) (mp : Nat)
    (calls : List os_call) (h : no_failure env calls) :
    surfaced_step env (scan_compare s mp calls) := by
  unfold scan_compare
  cases page_value s with
  | none => trivial
  | some value =>
    simp only
    cases mismatch s.signature mp value with
    | none => trivial
    | some b =>
      cases b with
      | true => exact h
      | false =>
        simp only
        split_ifs
        · exact surfaced_of_no_failure env _ h
        · exact h

theorem read_surfaced (env : mach_env) (s : memscan_scanner) (mp : Nat)
    (calls : List os_call) (h : no_failure env calls) :
    surfaced_step env (scan_read env s mp calls) := by
  unfold scan_read
  simp only
  split_ifs with hk
  · refine surfaced_of_last env _ calls _ rfl h rfl rfl ?_
    intro cat k hf
    simp only [failure, if_pos hk, Option.some.injEq, Prod.mk.injEq] at hf
    obtain ⟨rfl, rfl⟩ := hf
    rfl
  · refine compare_surfaced env _ mp _ (no_failure_append env _ _ h ?_)
    intro c hc
    simp only [List.mem_singleton] at hc
    subst hc
    simp only [failure, if_neg hk]

theorem load_surfaced (env : mach_env) (s : memscan_scanner) (mp : Nat) (load_page : Bool)
    (calls : List os_call) (h : no_failure env calls) :
    surfaced_step env (scan_load env s mp load_page calls) := by
  unfold scan_load
  split_ifs
  · exact surfaced_of_no_failure env _ h
  · exact read_surfaced env s mp calls h
  · exact compare_surfaced env s mp calls h

theorem region_surfaced (env : mach_env) (region_fuel : Nat) (s : memscan_scanner) (mp : Nat)
    (calls : List os_call) (h : no_failure env calls) :
    surfaced_step env (scan_region env region_fuel s mp calls) := by
  unfold scan_region
  cases hr : memscan_scanner_next_region env region_fuel s with
  | none => trivial
  | some rr =>
    simp only
    obtain ⟨pre, c, hcalls, hpre, hlast⟩ := region_failures env _ _ _ hr
    by_cases hret : rr.ret = false
    · rw [if_pos hret]
      rcases hlast with ⟨hnone, _⟩ | ⟨k, hk, _, herr⟩
      · refine surfaced_of_no_failure env _ (no_failure_append env _ _ h ?_)
        rw [hcalls]
        refine no_failure_append env _ _ hpre ?_
        intro c' hc'
        simp only [List.mem_singleton] at hc'
        subst hc'
        exact hnone
      · refine surfaced_of_last env _ (calls ++ pre) c ?_ (no_failure_append env _ _ h hpre)
          rfl rfl ?_
        · show calls ++ rr.calls = calls ++ pre ++ [c]
          rw [hcalls, List.append_assoc]
        · intro cat k' hf
          rw [hk, Option.some.injEq, Prod.mk.injEq] at hf
          obtain ⟨rfl, rfl⟩ := hf
          exact herr
    · rw [if_neg hret]
      rcases hlast with ⟨hnone, _⟩ | ⟨k, _, hfalse, _⟩
      · refine load_surfaced env _ _ true _ (no_failure_append env _ _ h ?_)
        rw [hcalls]
        refine no_failure_append env _ _ hpre ?_
        intro c' hc'
        simp only [List.mem_singleton] at hc'
        subst hc'
        exact hnone
      · exact absurd hfalse hret

theorem step_surfaced (env : mach_env) (region_fuel : Nat) (s : memscan_scanner) (mp : Nat)
    (calls : List os_call) (h : no_failure env calls) :
    surfaced_step env (scan_step env region_fuel s mp calls) := by
  unfold scan_step
  split_ifs
  · exact region_surfaced env region_fuel _ mp calls h
  · exact load_surfaced env _ mp _ calls h

theorem loop_surfaced (env : mach_env) (region_fuel : Nat) :
    ∀ (fuel : Nat) (s : memscan_scanner) (mp : Nat) (calls : List os_call) (r : next_result),
      no_failure env calls → scan_loop env region_fuel fuel s mp calls = outcome.done r →
      surfaced env r := by
  intro fuel
  induction fuel with
  | zero => intro s mp calls r _ h; simp [scan_loop] at h
  | succ fuel ih =>
    intro s mp calls r hno h
    have hstep := step_surfaced env region_fuel s mp calls hno
    rw [scan_loop] at h
    cases hs : scan_step env region_fuel s mp calls with
    | again s' mp' calls' =>
      rw [hs] at h hstep
      exact ih _ _ _ _ hstep h
    | returned r' =>
      rw [hs] at h hstep
      simp only [outcome.done.injEq] at h
      subst h
      exact hstep
    | fault => rw [hs] at h; simp at h
    | timeout => rw [hs] at h; simp at h

theorem next_surfaced (env : mach_env) (fuel : Nat) (s : memscan_scanner) (r : next_result)
    (h : memscan_scanner_next env fuel s = outcome.done r) : surfaced env r := by
  unfold memscan_scanner_next at h
  split_ifs at h with h0 hk
  · simp only [outcome.done.injEq] at h
    subst h
    refine surfaced_of_last env _ [] os_call.page_size_query rfl ?_ rfl rfl ?_
    · intro c hc
      simp at hc
    · intro cat k hf
      simp only [failure, if_pos hk, Option.some.injEq, Prod.mk.injEq] at hf
      obtain ⟨rfl, rfl⟩ := hf
      rfl
  · refine loop_surfaced env fuel fuel _ 0 _ r ?_ h
    intro c hc
    simp only [List.mem_singleton] at hc
    subst hc
    simp only [failure, if_neg hk]
  · refine loop_surfaced env fuel fuel _ 0 _ r ?_ h
    intro c hc
    simp at hc

/-! ## The byte fetches and the bounds of the indices -/

theorem step_factor (env : mach_env) (region_fuel : Nat) (s : memscan_scanner) (mp : Nat)
    (calls : List os_call) :
    scan_step env region_fuel s mp calls =
      finish_step (step_before_fetch env region_fuel s mp calls) := by
  have hread : ∀ (s : memscan_scanner) (mp : Nat) (calls : List os_call),
      scan_read env s mp calls = finish_step (read_before_fetch env s mp calls) := by
    intro s mp calls
    unfold scan_read read_before_fetch
    simp only
    split_ifs <;> rfl
  have hload : ∀ (s : memscan_scanner) (mp : Nat) (b : Bool) (calls : List os_call),
      scan_load env s mp b calls = finish_step (load_before_fetch env s mp b calls) := by
    intro s mp b calls
    unfold scan_load load_before_fetch
    split_ifs
    · rfl
    · exact hread s mp calls
    · rfl
  unfold scan_step step_before_fetch
  split_ifs
  · unfold scan_region region_before_fetch
    cases memscan_scanner_next_region env region_fuel (page_end_step s) with
    | none => rfl
    | some r =>
      simp only
      split_ifs
      · rfl
      · exact hload _ _ _ _
      · exact hload _ _ _ _
  · exact hload _ _ _ _

theorem loop_fetches_all (env : mach_env) (region_fuel : Nat)
    (I : memscan_scanner → Nat → Prop) (Q : memscan_scanner × Nat → Prop)
    (hfetch : ∀ s mp calls s' mp' calls', I s mp →
      step_before_fetch env region_fuel s mp calls = step_result.again s' mp' calls' →
      Q (s', mp'))
    (hstep : ∀ s mp calls s' mp' calls', I s mp →
      scan_step env region_fuel s mp calls = step_result.again s' mp' calls' → I s' mp') :
    ∀ (fuel : Nat) (s : memscan_scanner) (mp : Nat) (calls : List os_call), I s mp →
      ∀ x, x ∈ loop_fetches env region_fuel fuel s mp calls → Q x := by
  intro fuel
  induction fuel with
  | zero => intro s mp calls _ x hx; simp [loop_fetches] at hx
  | succ fuel ih =>
    intro s mp calls hI x hx
    rw [loop_fetches] at hx
    rcases List.mem_append.1 hx with h | h
    · cases hb : step_before_fetch env region_fuel s mp calls with
      | again s' mp' calls' =>
        rw [hb] at h
        simp only [fetch_state, List.mem_singleton] at h
        subst h
        exact hfetch _ _ _ _ _ _ hI hb
      | returned r => rw [hb] at h; simp [fetch_state] at h
      | fault => rw [hb] at h; simp [fetch_state] at h
      | timeout => rw [hb] at h; simp [fetch_state] at h
    · cases hs : scan_step env region_fuel s mp calls with
      | again s' mp' calls' =>
        rw [hs] at h
        exact ih _ _ _ (hstep _ _ _ _ _ _ hI hs) x h
      | returned r => rw [hs] at h; simp at h
      | fault => rw [hs] at h; simp at h
      | timeout => rw [hs] at h; simp at h

theorem index_weaken {P : Nat} {sig : memscan_signature} {s : memscan_scanner} {mp : Nat}
    (inv : index_inv P sig s mp) : index_inv P sig s 0 where
  sig_eq := inv.sig_eq
  page_size_eq := inv.page_size_eq
  buffer_len := inv.buffer_len
  previous_len := inv.previous_len
  progress_lt := by have := inv.progress_lt; omega
  index_le := inv.index_le
  start_gt := by
    have := inv.start_gt
    show -(P : Int) < s.scan_index - (0 : Nat)
    omega

theorem index_page_end {P : Nat} {sig : memscan_signature} {s : memscan_scanner} {mp : Nat}
    (hP : P < 2147483648) (hL : sig.length ≤ P) (inv : index_inv P sig s mp) :
    index_inv P sig (page_end_step s) mp ∧ (page_end_step s).scan_index < P := by
  have h1 := inv.index_le
  have h2 := inv.start_gt
  have h3 := inv.progress_lt
  have h4 := inv.page_size_eq
  unfold page_end_step at_page_end
  by_cases he : s.scan_index = P
  · have e : decide (s.scan_index % 18446744073709551616 = (s.page_size : Int)) = true := by
      rw [decide_eq_true_iff, h4]
      omega
    rw [e]
    simp only [if_true]
    refine ⟨⟨inv.sig_eq, inv.page_size_eq, inv.buffer_len, inv.previous_len, h3, ?_, ?_⟩, ?_⟩
    · show (0 : Int) ≤ P
      omega
    · show -(P : Int) < 0 - mp
      omega
    · show (0 : Int) < P
      omega
  · have e : decide (s.scan_index % 18446744073709551616 = (s.page_size : Int)) = false := by
      rw [decide_eq_false_iff_not, h4]
      omega
    rw [e]
    simp only [Bool.false_eq_true, if_false]
    exact ⟨inv, by omega⟩

theorem index_read {env : mach_env} {P : Nat} {sig : memscan_signature} {s : memscan_scanner}
    {mp : Nat} (se : sized_env env P) (inv : index_inv P sig s mp) (hi : s.scan_index < P)
    (calls : List os_call) :
    index_fetch_post P sig (read_before_fetch env s mp calls) := by
  unfold read_before_fetch
  simp only
  split_ifs with hk
  · have inv2 : index_inv P sig
        { s with previous_page_buffer := s.page_buffer,
                 page_buffer := s.previous_page_buffer } mp :=
      ⟨inv.sig_eq, inv.page_size_eq, inv.previous_len, inv.buffer_len, inv.progress_lt,
        inv.index_le, inv.start_gt⟩
    exact index_weaken inv2
  · have hlen : (env.vm_read_overwrite s.target.task s.page_address s.page_size).2.length =
        P := by
      rw [inv.page_size_eq]
      refine se.reads _ _ ?_
      rw [← inv.page_size_eq]
      simpa using hk
    have inv2 : index_inv P sig
        { s with previous_page_buffer := s.page_buffer,
                 page_buffer := (env.vm_read_overwrite s.target.task s.page_address
                   s.page_size).2 } mp :=
      ⟨inv.sig_eq, inv.page_size_eq, hlen, inv.buffer_len, inv.progress_lt, inv.index_le,
        inv.start_gt⟩
    exact ⟨inv2, hi⟩

theorem index_load {env : mach_env} {P : Nat} {sig : memscan_signature} {s : memscan_scanner}
    {mp : Nat} (se : sized_env env P) (inv : index_inv P sig s mp) (hi : s.scan_index < P)
    (load_page : Bool) (calls : List os_call) :
    index_fetch_post P sig (load_before_fetch env s mp load_page calls) := by
  unfold load_before_fetch
  split_ifs
  · exact index_weaken inv
  · exact index_read se inv hi calls
  · exact ⟨inv, hi⟩

theorem index_region {env : mach_env} {P : Nat} {sig : memscan_signature}
    {s : memscan_scanner} {mp : Nat} (se : sized_env env P) (hL : sig.length ≤ P)
    (inv : index_inv P sig s mp) (region_fuel : Nat) (calls : List os_call) :
    index_fetch_post P sig (region_before_fetch env region_fuel s mp calls) := by
  unfold region_before_fetch
  cases hnr : memscan_scanner_next_region env region_fuel s with
  | none => trivial
  | some r =>
    obtain ⟨hs, _⟩ := next_region_spec env region_fuel s r hnr
    have e1 : r.scanner.signature = s.signature := by rw [hs]
    have e2 : r.scanner.page_size = s.page_size := by rw [hs]
    have e3 : r.scanner.page_buffer = s.page_buffer := by rw [hs]
    have e4 : r.scanner.previous_page_buffer = s.previous_page_buffer := by rw [hs]
    have e5 : r.scanner.scan_index = s.scan_index := by rw [hs]
    have hpos := se.page_pos
    have hlt := inv.progress_lt
    simp only
    by_cases hret : r.ret = false
    · rw [if_pos hret]
      refine ⟨?_, ?_, ?_, ?_, ?_, ?_, ?_⟩
      · rw [e1]; exact inv.sig_eq
      · rw [e2]; exact inv.page_size_eq
      · rw [e3]; exact inv.buffer_len
      · rw [e4]; exact inv.previous_len
      · omega
      · rw [e5]; exact inv.index_le
      · rw [e5]
        have := inv.start_gt
        show -(P : Int) < s.scan_index - (0 : Nat)
        omega
    · rw [if_neg hret]
      have key : ∀ mp', mp' < sig.length → index_inv P sig
          { r.scanner with page_address := r.scanner.region_address, scan_index := 0 } mp' := by
        intro mp' hmp
        refine ⟨?_, ?_, ?_, ?_, hmp, ?_, ?_⟩
        · show r.scanner.signature = sig
          rw [e1]; exact inv.sig_eq
        · show r.scanner.page_size = P
          rw [e2]; exact inv.page_size_eq
        · show r.scanner.page_buffer.length = P
          rw [e3]; exact inv.buffer_len
        · show r.scanner.previous_page_buffer.length = P
          rw [e4]; exact inv.previous_len
        · show (0 : Int) ≤ P
          omega
        · show -(P : Int) < 0 - mp'
          omega
      refine index_load se (key _ ?_) (by show (0 : Int) < P; omega) true _
      split_ifs
      · omega
      · exact hlt

theorem index_before_fetch {env : mach_env} {P : Nat} {sig : memscan_signature}
    {s : memscan_scanner} {mp : Nat} (se : sized_env env P) (hL : sig.length ≤ P)
    (inv : index_inv P sig s mp) (region_fuel : Nat) (calls : List os_call) :
    index_fetch_post P sig (step_before_fetch env region_fuel s mp calls) := by
  obtain ⟨inv1, hi1⟩ := index_page_end se.page_small hL inv
  unfold step_before_fetch
  split_ifs
  · exact index_region se hL inv1 region_fuel calls
  · exact index_load se inv1 hi1 _ calls

theorem index_page_value {P : Nat} {sig : memscan_signature} {s : memscan_scanner} {mp : Nat}
    (hP : P < 2147483648) (inv : index_inv P sig s mp) (hi : s.scan_index < P) :
    ∃ v, page_value s = some v := by
  have h1 := inv.start_gt
  have h2 := inv.page_size_eq
  have h3 := inv.buffer_len
  have h4 := inv.previous_len
  unfold page_value
  by_cases hneg : s.scan_index < 0
  · rw [if_pos hneg, h2, wrap64_eq _ (by omega) (by omega)]
    exact ⟨_, List.getElem?_eq_getElem (by omega)⟩
  · rw [if_neg hneg]
    exact ⟨_, List.getElem?_eq_getElem (by omega)⟩

theorem index_compare {P : Nat} {sig : memscan_signature} {s : memscan_scanner} {mp : Nat}
    (hP : P < 2147483648) (hw : well_formed sig) (hL : sig.length ≤ P)
    (inv : index_inv P sig s mp) (hi : s.scan_index < P) (calls : List os_call) :
    index_post P sig (scan_compare s mp calls) := by
  obtain ⟨v, hv⟩ := index_page_value hP inv hi
  have h1 := inv.start_gt
  have h2 := inv.progress_lt
  unfold scan_compare
  rw [hv]
  simp only [inv.sig_eq]
  rw [mismatch_eq sig hw _ _ h2]
  by_cases hm : sig.mask[mp]? = some true ∧ sig.signature[mp]? ≠ some v
  · simp only [hm, ne_eq, not_false_eq_true, and_self, decide_True]
    by_cases h0 : mp > 0
    · simp only [h0, if_true]
      rw [wrap32_eq (s.scan_index - mp) (by omega) (by omega), wrap32_eq _ (by omega) (by omega)]
      refine ⟨rfl, inv.page_size_eq, inv.buffer_len, inv.previous_len, by omega, ?_, ?_⟩
      · show s.scan_index - mp + 1 ≤ P
        omega
      · show -(P : Int) < s.scan_index - mp + 1 - (0 : Nat)
        omega
    · have : mp = 0 := by omega
      subst this
      simp only [gt_iff_lt, lt_self_iff_false, if_false]
      rw [wrap32_eq _ (by omega) (by omega)]
      refine ⟨rfl, inv.page_size_eq, inv.buffer_len, inv.previous_len, by omega, ?_, ?_⟩
      · show s.scan_index + 1 ≤ P
        omega
      · show -(P : Int) < s.scan_index + 1 - (0 : Nat)
        omega
  · simp only [hm, decide_False]
    have h3 : (mp + 1) % U64 = mp + 1 := by unfold U64; omega
    rw [h3, wrap32_eq _ (by omega) (by omega)]
    split_ifs with hlt
    · refine ⟨rfl, inv.page_size_eq, inv.buffer_len, inv.previous_len, by omega, ?_, ?_⟩
      · show s.scan_index + 1 ≤ P
        omega
      · show -(P : Int) < s.scan_index + 1 - (0 : Nat)
        omega
    · refine ⟨rfl, inv.page_size_eq, inv.buffer_len, inv.previous_len, by omega, ?_, ?_⟩
      · show s.scan_index + 1 ≤ P
        omega
      · show -(P : Int) < s.scan_index + 1 - ((mp + 1 : Nat) : Int)
        omega

theorem index_step {env : mach_env} {P : Nat} {sig : memscan_signature}
    {s : memscan_scanner} {mp : Nat} (se : sized_env env P) (hw : well_formed sig)
    (hL : sig.length ≤ P) (inv : index_inv P sig s mp) (region_fuel : Nat)
    (calls : List os_call) :
    index_post P sig (scan_step env region_fuel s mp calls) := by
  have hb := index_before_fetch se hL inv region_fuel calls
  rw [step_factor]
  cases hs : step_before_fetch env region_fuel s mp calls with
  | again s' mp' calls' =>
    rw [hs] at hb
    exact index_compare se.page_small hw hL hb.1 hb.2 calls'
  | returned r =>
    rw [hs] at hb
    exact hb
  | fault => rw [hs] at hb; exact hb
  | timeout => trivial

theorem index_loop {env : mach_env} {P : Nat} {sig : memscan_signature}
    (se : sized_env env P) (hw : well_formed sig) (hL : sig.length ≤ P) (region_fuel : Nat) :
    ∀ (fuel : Nat) (s : memscan_scanner) (mp : Nat) (calls : List os_call) (r : next_result),
      index_inv P sig s mp → scan_loop env region_fuel fuel s mp calls = outcome.done r →
      index_inv P sig r.scanner 0 := by
  intro fuel
  induction fuel with
  | zero => intro s mp calls r _ h; simp [scan_loop] at h
  | succ fuel ih =>
    intro s mp calls r inv h
    have hs := index_step se hw hL inv region_fuel calls
    rw [scan_loop] at h
    cases hstep : scan_step env region_fuel s mp calls with
    | again s' mp' calls' =>
      rw [hstep] at h hs
      exact ih s' mp' calls' r hs h
    | returned r' =>
      rw [hstep] at h hs
      simp only [outcome.done.injEq] at h
      subst h
      exact hs
    | fault => rw [hstep] at h; simp at h
    | timeout => rw [hstep] at h; simp at h

theorem index_first {env : mach_env} {P : Nat} (se : sized_env env P)
    (target : memscan_target) (sig : memscan_signature) (flt : memscan_filter)
    (hpos : 0 < sig.length) :
    index_inv P sig
      { memscan_scanner_create target sig flt with
        page_size := env.host_page_size.2
        page_buffer := env.malloc 0 env.host_page_size.2
        previous_page_buffer := env.malloc 1 env.host_page_size.2 } 0 := by
  have h1 := se.page_size
  have h2 := se.page_pos
  refine ⟨rfl, h1, ?_, ?_, hpos, ?_, ?_⟩
  · show (env.malloc 0 env.host_page_size.2).length = P
    rw [h1]; exact se.malloc 0
  · show (env.malloc 1 env.host_page_size.2).length = P
    rw [h1]; exact se.malloc 1
  · show (0 : Int) ≤ P
    omega
  · show -(P : Int) < 0 - (0 : Nat)
    omega

theorem called_index {env : mach_env} {P : Nat} {sig : memscan_signature}
    (se : sized_env env P) (hw : well_formed sig) (hL : sig.length ≤ P)
    (hpos : 0 < sig.length) (target : memscan_target) (flt : memscan_filter)
    (s : memscan_scanner) (hc : called env target sig flt s) :
    s = memscan_scanner_create target sig flt ∨ index_inv P sig s 0 := by
  induction hc with
  | created => exact Or.inl rfl
  | next s fuel r _ hnext ih =>
    rcases ih with h | h
    · subst h
      have h0 : (memscan_scanner_create target sig flt).page_size = 0 := rfl
      unfold memscan_scanner_next at hnext
      rw [if_pos h0] at hnext
      split_ifs at hnext with hk
      · simp only [outcome.done.injEq] at hnext
        subst hnext
        exact Or.inl rfl
      · exact Or.inr (index_loop se hw hL fuel fuel _ 0 _ r
          (index_first se target sig flt hpos) hnext)
    · have hps : s.page_size ≠ 0 := by
        rw [h.page_size_eq]
        have := se.page_pos
        omega
      unfold memscan_scanner_next at hnext
      rw [if_neg hps] at hnext
      exact Or.inr (index_loop se hw hL fuel fuel _ 0 _ r h hnext)

theorem called_fetches {env : mach_env} {P : Nat} {sig : memscan_signature}
    (se : sized_env env P) (hw : well_formed sig) (hL : sig.length ≤ P)
    (hpos : 0 < sig.length) (target : memscan_target) (flt : memscan_filter)
    (s : memscan_scanner) (hc : called env target sig flt s) (fuel : Nat) :
    ∀ x, x ∈ next_fetches env fuel s → index_inv P sig x.1 x.2 ∧ x.1.scan_index < P := by
  have key := loop_fetches_all env fuel (index_inv P sig)
    (fun x => index_inv P sig x.1 x.2 ∧ x.1.scan_index < P)
    (by
      intro s mp calls s' mp' calls' inv hb
      have := index_before_fetch se hL inv fuel calls
      rw [hb] at this
      exact this)
    (by
      intro s mp calls s' mp' calls' inv hs
      have := index_step se hw hL inv fuel calls
      rw [hs] at this
      exact this)
  intro x hx
  unfold next_fetches at hx
  rcases called_index se hw hL hpos target flt s hc with h | h
  · subst h
    have h0 : (memscan_scanner_create target sig flt).page_size = 0 := rfl
    rw [if_pos h0] at hx
    split_ifs at hx with hk
    · simp at hx
    · exact key fuel _ 0 _ (index_first se target sig flt hpos) x hx
  · have hps : s.page_size ≠ 0 := by
      rw [h.page_size_eq]
      have := se.page_pos
      omega
    rw [if_neg hps] at hx
    exact key fuel _ 0 _ h x hx

theorem entry_before_fetch {env : mach_env} {task P : Nat} {memory : Nat → Nat}
    {sig : memscan_signature} {flt : memscan_filter} {s : memscan_scanner} {mp : Nat}
    (st : stable_target env task P memory) (hL : sig.length ≤ P)
    (ent : entry_inv env task P memory sig flt s mp) (region_fuel : Nat) (calls : List os_call) :
    entry_fetch_post env task P memory sig flt region_fuel s mp
      (region_before_fetch env region_fuel s mp calls) := by
  unfold region_before_fetch
  cases hnr : memscan_scanner_next_region env region_fuel s with
  | none => exact hnr
  | some r =>
    obtain ⟨hs, hacc⟩ := next_region_spec env region_fuel s r hnr
    simp only
    by_cases hret : r.ret = false
    · rw [if_pos hret]
      exact ⟨rfl, rfl⟩
    · rw [if_neg hret]
      have hret' : r.ret = true := by simpa using hret
      have hacc' := (hacc hret').1
      rw [ent.task_eq] at hacc'
      have htask : r.scanner.target.task = task := by rw [hs]; exact ent.task_eq
      have hps : r.scanner.page_size = P := by rw [hs]; exact ent.page_size_eq
      have hpa : r.scanner.page_address = s.page_address := by rw [hs]
      have hsi : r.scanner.scan_index = s.scan_index := by rw [hs]
      have key := fun hf data hd => inv_region_entry st hL ent r.scanner hs hacc' hf data hd
      have hmp : ((r.scanner.region_address = s.page_address ∧
          (if wrap64 (r.scanner.page_address + r.scanner.scan_index) ≠
            r.scanner.region_address then 0 else mp) = mp) ∨
          (if wrap64 (r.scanner.page_address + r.scanner.scan_index) ≠
            r.scanner.region_address then 0 else mp) = 0) := by
        have h1 := ent.index_eq
        have h2 := ent.address_lt
        have e : wrap64 (r.scanner.page_address + r.scanner.scan_index) = s.page_address := by
          rw [hpa, hsi, h1, wrap64_eq _ (by omega) (by omega)]
          omega
        rw [e]
        by_cases hc : s.page_address = r.scanner.region_address
        · left
          exact ⟨hc.symm, by rw [if_neg (by simpa using hc)]⟩
        · right
          rw [if_pos hc]
      generalize (if wrap64 (r.scanner.page_address + r.scanner.scan_index) ≠
        r.scanner.region_address then 0 else mp) = mp' at key hmp ⊢
      unfold load_before_fetch read_before_fetch
      simp only [if_true]
      split_ifs with hf hr
      · exact ⟨rfl, rfl⟩
      · exact ⟨rfl, rfl⟩
      · have hr' : (env.vm_read_overwrite task r.scanner.region_address P).1 = 0 := by
          simp_all
        have hd := st.reads _ hr'
        have e : env.vm_read_overwrite r.scanner.target.task r.scanner.region_address
            r.scanner.page_size = env.vm_read_overwrite task r.scanner.region_address P := by
          rw [htask, hps]
        have inv2 := key hf _ hd
        simp only [e]
        exact ⟨inv2, rfl, rfl, hmp, r, hnr, hret', rfl⟩

theorem page_end_shape {env : mach_env} {task P : Nat} {memory : Nat → Nat}
    {sig : memscan_signature} {flt : memscan_filter} {s : memscan_scanner} {mp : Nat}
    (st : stable_target env task P memory)
    (inv : scan_inv env task P memory sig flt s mp) :
    (s.scan_index < P → page_end_step s = s ∧ at_page_end s = false ∧ ¬ region_ended s) ∧
    (s.scan_index = P →
      page_end_step s = { s with page_address := s.page_address + P, scan_index := 0 } ∧
      at_page_end s = true ∧
      (region_ended { s with page_address := s.page_address + P, scan_index := 0 } ↔
        s.page_address + P = s.region_address + s.region_size)) := by
  have hP := st.page_small
  have h1 := inv.start_gt
  have h2 := inv.page_size_eq
  have h3 := inv.page_hi
  have h4 := (accepted_bounds st inv.region_ok).2.2.1
  constructor
  · intro hi
    have e1 : at_page_end s = false := by
      unfold at_page_end
      rw [decide_eq_false_iff_not, h2]
      omega
    have e0 : page_end_step s = s := by
      unfold page_end_step
      rw [e1]
      rfl
    refine ⟨e0, e1, ?_⟩
    rintro ⟨h5, h6⟩
    rw [wrap64_eq _ (by omega) (by omega)] at h6
    unfold U64 at h6
    omega
  · intro hi
    have e1 : at_page_end s = true := by
      unfold at_page_end
      rw [decide_eq_true_iff, h2]
      omega
    have e3 : (s.page_address + s.page_size) % U64 = s.page_address + P := by
      unfold U64; omega
    have e0 : page_end_step s =
        { s with page_address := s.page_address + P, scan_index := 0 } := by
      unfold page_end_step
      rw [e1, e3]
      rfl
    refine ⟨e0, e1, ?_⟩
    constructor
    · rintro ⟨_, h6⟩
      have h7 : (s.region_address + s.region_size) % U64 ≤
          wrap64 (((s.page_address + P : Nat) : Int) + 0) := h6
      rw [wrap64_eq _ (by omega) (by omega)] at h7
      unfold U64 at h7
      omega
    · intro hin
      refine ⟨le_refl _, ?_⟩
      show (s.region_address + s.region_size) % U64 ≤
          wrap64 (((s.page_address + P : Nat) : Int) + 0)
      rw [wrap64_eq _ (by omega) (by omega)]
      unfold U64
      omega

theorem before_fetch_inv {env : mach_env} {task P : Nat} {memory : Nat → Nat}
    {sig : memscan_signature} {flt : memscan_filter} {s : memscan_scanner} {mp : Nat}
    (st : stable_target env task P memory) (hL : sig.length ≤ P)
    (inv : scan_inv env task P memory sig flt s mp) (region_fuel : Nat) (calls : List os_call) :
    fetch_post env task P memory sig flt region_fuel s mp
      (step_before_fetch env region_fuel s mp calls) := by
  obtain ⟨shape1, shape2⟩ := page_end_shape st inv
  have h1 := inv.index_le
  have h2 := inv.page_hi
  have hpos := st.page_pos
  by_cases hi : s.scan_index < P
  · obtain ⟨e0, e1, e2⟩ := shape1 hi
    unfold step_before_fetch
    rw [e0, e1, if_neg e2]
    exact ⟨inv, hi, Or.inl ⟨rfl, rfl⟩⟩
  · have hi' : s.scan_index = P := by omega
    obtain ⟨e0, e1, e2⟩ := shape2 hi'
    unfold step_before_fetch
    rw [e0, e1]
    by_cases hin : s.page_address + P < s.region_address + s.region_size
    · rw [if_neg (by rw [e2]; omega)]
      unfold load_before_fetch read_before_fetch
      simp only [if_true]
      split_ifs with hf hr
      · exact ⟨rfl, rfl⟩
      · exact ⟨rfl, rfl⟩
      · have hr' : (env.vm_read_overwrite task (s.page_address + P) P).1 = 0 := by
          have := inv.task_eq
          have := inv.page_size_eq
          simp_all
        have hd := st.reads _ hr'
        have e : env.vm_read_overwrite s.target.task (s.page_address + P) s.page_size =
            env.vm_read_overwrite task (s.page_address + P) P := by
          rw [inv.task_eq, inv.page_size_eq]
        have inv2 := inv_page_advance hL inv hi' hin hf _ hd
        simp only [e]
        refine ⟨inv2, ?_, Or.inl ⟨?_, rfl⟩⟩
        · show (0 : Int) < P
          omega
        · show (((s.page_address + P : Nat)) : Int) + 0 = s.page_address + s.scan_index
          omega
    · have hin' : s.page_address + P = s.region_address + s.region_size := by omega
      rw [if_pos (e2.2 hin')]
      have ent := entry_of_inv st inv hi' hin'
      have hb := entry_before_fetch st hL ent region_fuel calls
      cases hr : region_before_fetch env region_fuel
          { s with page_address := s.page_address + P, scan_index := 0 } mp calls with
      | again s' mp' calls' =>
        rw [hr] at hb
        obtain ⟨inv2, hz, hpa, hmp, rr, hrr, hret, hra⟩ := hb
        refine ⟨inv2, by rw [hz]; omega, ?_⟩
        rcases hmp with ⟨hsame, hmp⟩ | hmp
        · left
          refine ⟨?_, hmp⟩
          rw [hz, hsame]
          show (((s.page_address + P : Nat)) : Int) + 0 = s.page_address + s.scan_index
          omega
        · right
          exact ⟨hmp, hz, hpa, rr, by rw [e0]; exact hrr, hret, hra⟩
      | returned r =>
        rw [hr] at hb
        exact hb
      | fault => rw [hr] at hb; exact hb
      | timeout =>
        rw [hr] at hb
        show memscan_scanner_next_region env region_fuel (page_end_step s) = none
        rw [e0]
        exact hb

theorem first_before_fetch {env : mach_env} {task P : Nat} {memory : Nat → Nat}
    (st : stable_target env task P memory) (target : memscan_target)
    (sig : memscan_signature) (flt : memscan_filter) (region_fuel mp : Nat)
    (calls : List os_call) :
    step_before_fetch env region_fuel (first_scanner env target sig flt) mp calls =
      region_before_fetch env region_fuel (first_scanner env target sig flt) mp calls := by
  have h1 := st.page_pos
  have h2 : env.host_page_size.2 = P := by rw [st.page_size]
  have e1 : at_page_end (first_scanner env target sig flt) = false := by
    unfold at_page_end
    rw [decide_eq_false_iff_not]
    show ¬ ((0 : Int) % 18446744073709551616 = (env.host_page_size.2 : Int))
    rw [h2]
    omega
  have e0 : page_end_step (first_scanner env target sig flt) =
      first_scanner env target sig flt := by
    unfold page_end_step
    rw [e1]
    rfl
  unfold step_before_fetch
  rw [e0, if_pos]
  refine ⟨le_refl _, ?_⟩
  show (0 + 0) % U64 ≤ wrap64 ((0 : Nat) + 0)
  decide

theorem reachable_fetches {env : mach_env} {task P : Nat} {memory : Nat → Nat}
    {sig : memscan_signature} {flt : memscan_filter}
    (st : stable_target env task P memory) (hw : well_formed sig) (hL : sig.length ≤ P)
    (hpos : 0 < sig.length) (target : memscan_target) (ht : target.task = task)
    (s : memscan_scanner) (hr : reachable env target sig flt s) (fuel : Nat) :
    ∀ x, x ∈ next_fetches env fuel s →
      scan_inv env task P memory sig flt x.1 x.2 ∧ x.1.scan_index < P := by
  have hpp := st.page_pos
  have key := loop_fetches_all env fuel
    (fun s mp => scan_inv env task P memory sig flt s mp ∨
      (s = first_scanner env target sig flt ∧ mp = 0))
    (fun x => scan_inv env task P memory sig flt x.1 x.2 ∧ x.1.scan_index < P)
    (by
      intro s mp calls s' mp' calls' hI hb
      rcases hI with inv | ⟨rfl, rfl⟩
      · have := before_fetch_inv st hL inv fuel calls
        rw [hb] at this
        exact ⟨this.1, this.2.1⟩
      · rw [first_before_fetch st] at hb
        have := entry_before_fetch st hL (first_entry st target sig flt ht hpos) fuel calls
        rw [hb] at this
        refine ⟨this.1, ?_⟩
        rw [this.2.1]
        omega)
    (by
      intro s mp calls s' mp' calls' hI hs
      rcases hI with inv | ⟨rfl, rfl⟩
      · have := step_sound st hw hL inv fuel calls
        rw [hs] at this
        exact Or.inl this
      · rw [first_step st] at hs
        have := region_step_ok st hw hL (first_entry st target sig flt ht hpos) fuel calls
        rw [hs] at this
        exact Or.inl this)
  intro x hx
  unfold next_fetches at hx
  rcases reachable_inv st hw hL hpos target ht s hr with h | h
  · subst h
    have h0 : (memscan_scanner_create target sig flt).page_size = 0 := rfl
    rw [if_pos h0, if_neg (by rw [st.page_size]; simp)] at hx
    exact key fuel _ 0 _ (Or.inr ⟨rfl, rfl⟩) x hx
  · have hps : s.page_size ≠ 0 := by
      rw [h.page_size_eq]
      omega
    rw [if_neg hps] at hx
    exact key fuel _ 0 _ (Or.inl h) x hx

/-! ## Targets with buffers of the page size -/

theorem layout_sized (P : Nat) (regions : List vm_region) (memory : Nat → Nat)
    (hP0 : 0 < P) (hP : P < 2147483648) :
    sized_env (layout_env P regions memory) P where
  page_size := rfl
  page_pos := hP0
  page_small := hP
  reads := by
    intro t a h
    have e2 : (layout_env P regions memory).vm_read_overwrite t a P =
        if regions.any (fun r => decide (r.address ≤ a ∧ a + P ≤ r.address + r.size))
        then (0, memory_slice memory a P)
        else (KERN_INVALID_ADDRESS, []) := rfl
    rw [e2] at h ⊢
    split_ifs at h ⊢ with hin
    · exact memory_slice_length _ _ _
    · exact absurd h (by decide)
  malloc := by
    intro k
    show (List.replicate P 0).length = P
    simp

/-! ## Progress of the scan in an ordered address space -/

theorem reported_of_accepted {env : mach_env} {task b sz : Nat} (h : accepted env task b sz) :
    reported env task b sz := by
  obtain ⟨a, sz0, d, hacc, h1, h2⟩ := h
  exact ⟨a, sz0, d, hacc.1, h1, h2⟩

theorem enumerator_advances {env : mach_env} {task top : Nat}
    (os : ordered_space env task top) :
    ∀ (fuel : Nat) (s : memscan_scanner) (calls : List os_call) (r : region_result) (E : Nat),
      s.target.task = task → reported env task s.region_address s.region_size →
      E ≤ s.region_address + s.region_size →
      next_region_loop env fuel s calls = some r → r.ret = true →
      E ≤ r.scanner.region_address := by
  intro fuel
  induction fuel with
  | zero => intro s calls r E _ _ _ h; simp [next_region_loop] at h
  | succ fuel ih =>
    intro s calls r E ht hrep hE h hret
    obtain ⟨a0, sz0, d0, hk0, ha0, hs0⟩ := hrep
    have hb := os.replies a0 sz0 d0 hk0
    have htop := os.top_lt
    rw [ha0, hs0] at hb
    have hc : (s.region_address + s.region_size) % U64 = s.region_address + s.region_size := by
      unfold U64; omega
    have hord : ∀ sz2 d2,
        (env.vm_region_recurse_64 task (s.region_address + s.region_size) sz2 d2).kr = 0 →
        s.region_address + s.region_size ≤
          (env.vm_region_recurse_64 task (s.region_address + s.region_size) sz2 d2).address := by
      intro sz2 d2 hk2
      have := os.order a0 sz0 d0 sz2 d2 hk0
      rw [ha0, hs0] at this
      exact this hk2
    unfold next_region_loop at h
    simp only [hc, ht] at h
    split_ifs at h with h1 h2 h3 h4
    · simp only [Option.some.injEq] at h
      subst h
      exact absurd hret (by simp)
    · simp only [Option.some.injEq] at h
      subst h
      exact absurd hret (by simp)
    · have hk : (env.vm_region_recurse_64 task (s.region_address + s.region_size)
          s.region_size s.region_depth).kr = 0 := by simpa using h2
      have hb2 := os.replies _ _ _ hk
      have ho := hord _ _ hk
      refine ih _ _ r E ?_ ?_ ?_ h hret
      · exact ht
      · exact ⟨_, _, _, hk, rfl, rfl⟩
      show E ≤ (env.vm_region_recurse_64 task (s.region_address + s.region_size)
          s.region_size s.region_depth).address +
        (env.vm_region_recurse_64 task (s.region_address + s.region_size)
          s.region_size s.region_depth).size
      omega
    · simp only [Option.some.injEq] at h
      subst h
      have hk : (env.vm_region_recurse_64 task (s.region_address + s.region_size)
          s.region_size s.region_depth).kr = 0 := by simpa using h2
      have ho := hord _ _ hk
      show E ≤ (env.vm_region_recurse_64 task (s.region_address + s.region_size)
          s.region_size s.region_depth).address
      omega
    · have hk : (env.vm_region_recurse_64 task (s.region_address + s.region_size)
          s.region_size s.region_depth).kr = 0 := by simpa using h2
      have hb2 := os.replies _ _ _ hk
      have ho := hord _ _ hk
      refine ih _ _ r E ?_ ?_ ?_ h hret
      · exact ht
      · exact ⟨_, _, _, hk, rfl, rfl⟩
      show E ≤ (env.vm_region_recurse_64 task (s.region_address + s.region_size)
          s.region_size s.region_depth).address +
        (env.vm_region_recurse_64 task (s.region_address + s.region_size)
          s.region_size s.region_depth).size
      omega

theorem next_region_advances {env : mach_env} {task top : Nat}
    (os : ordered_space env task top) (fuel : Nat) (s : memscan_scanner) (r : region_result)
    (ht : s.target.task = task) (hrep : reported env task s.region_address s.region_size)
    (h : memscan_scanner_next_region env fuel s = some r) (hret : r.ret = true) :
    s.region_address + s.region_size ≤ r.scanner.region_address := by
  obtain ⟨a0, sz0, d0, hk0, ha0, hs0⟩ := hrep
  have hb := os.replies a0 sz0 d0 hk0
  rw [ha0] at hb
  unfold memscan_scanner_next_region at h
  rw [if_neg (by omega)] at h
  exact enumerator_advances os fuel s [] r _ ht ⟨a0, sz0, d0, hk0, ha0, hs0⟩ (le_refl _) h hret

theorem enumerator_returns {env : mach_env} {task top : Nat}
    (os : ordered_space env task top) :
    ∀ (fuel : Nat) (s : memscan_scanner) (calls : List os_call),
      s.target.task = task → top ≤ fuel + (s.region_address + s.region_size) % U64 →
      ∃ r, next_region_loop env (fuel + 1) s calls = some r := by
  intro fuel
  induction fuel with
  | zero =>
    intro s calls ht hf
    unfold next_region_loop
    simp only [ht]
    split_ifs with h1 h2 h3 h4
    · exact ⟨_, rfl⟩
    · exact ⟨_, rfl⟩
    · have hk : (env.vm_region_recurse_64 task ((s.region_address + s.region_size) % U64)
          s.region_size s.region_depth).kr = 0 := by simpa using h2
      have := os.replies _ _ _ hk
      omega
    · exact ⟨_, rfl⟩
    · have hk : (env.vm_region_recurse_64 task ((s.region_address + s.region_size) % U64)
          s.region_size s.region_depth).kr = 0 := by simpa using h2
      have := os.replies _ _ _ hk
      omega
  | succ fuel ih =>
    intro s calls ht hf
    have htop := os.top_lt
    rw [next_region_loop]
    simp only [ht]
    split_ifs with h1 h2 h3 h4
    · exact ⟨_, rfl⟩
    · exact ⟨_, rfl⟩
    · have hk : (env.vm_region_recurse_64 task ((s.region_address + s.region_size) % U64)
          s.region_size s.region_depth).kr = 0 := by simpa using h2
      have hb := os.replies _ _ _ hk
      refine ih _ _ ht ?_
      show top ≤ fuel + ((env.vm_region_recurse_64 task
          ((s.region_address + s.region_size) % U64) s.region_size s.region_depth).address +
        (env.vm_region_recurse_64 task
          ((s.region_address + s.region_size) % U64) s.region_size s.region_depth).size) % U64
      unfold U64 at hb hf ⊢
      omega
    · exact ⟨_, rfl⟩
    · have hk : (env.vm_region_recurse_64 task ((s.region_address + s.region_size) % U64)
          s.region_size s.region_depth).kr = 0 := by simpa using h2
      have hb := os.replies _ _ _ hk
      refine ih _ _ ht ?_
      show top ≤ fuel + ((env.vm_region_recurse_64 task
          ((s.region_address + s.region_size) % U64) s.region_size s.region_depth).address +
        (env.vm_region_recurse_64 task
          ((s.region_address + s.region_size) % U64) s.region_size s.region_depth).size) % U64
      unfold U64 at hb hf ⊢
      omega

theorem next_region_returns {env : mach_env} {task top : Nat}
    (os : ordered_space env task top) (fuel : Nat) (s : memscan_scanner)
    (ht : s.target.task = task) (hf : top + 1 ≤ fuel) :
    ∃ r, memscan_scanner_next_region env fuel s = some r := by
  obtain ⟨f, rfl⟩ : ∃ f, fuel = f + 1 := ⟨fuel - 1, by omega⟩
  unfold memscan_scanner_next_region
  refine enumerator_returns os f _ [] ?_ (by omega)
  split_ifs
  · exact ht
  · exact ht

theorem page_end_region (s : memscan_scanner) :
    (page_end_step s).region_address = s.region_address ∧
    (page_end_step s).region_size = s.region_size ∧
    (page_end_step s).target = s.target := by
  unfold page_end_step
  split_ifs
  · exact ⟨rfl, rfl, rfl⟩
  · exact ⟨rfl, rfl, rfl⟩

theorem region_end_le_top {env : mach_env} {task top : Nat}
    (os : ordered_space env task top) {b sz : Nat} (h : accepted env task b sz) :
    b + sz ≤ top ∧ 0 < sz := by
  obtain ⟨a, sz0, d, hacc, rfl, rfl⟩ := h
  have := os.replies a sz0 d hacc.1
  exact ⟨this.2.2.2, this.2.1⟩

theorem measure_le_of_later (top L start start' mp mp' : Nat) (h1 : start + 1 ≤ start')
    (h2 : start' ≤ top) (h3 : mp < L) :
    (top - start') * (L + 1) + (L - mp') < (top - start) * (L + 1) + (L - mp) := by
  have e : top - start = (top - start') + (start' - start) := by omega
  have h4 : (top - start' + 1) * (L + 1) ≤ (top - start) * (L + 1) :=
    Nat.mul_le_mul_right _ (by omega)
  rw [Nat.add_mul] at h4
  omega

theorem before_fetch_progress {env : mach_env} {task P : Nat} {memory : Nat → Nat}
    {sig : memscan_signature} {flt : memscan_filter} {top : Nat} {s : memscan_scanner}
    {mp : Nat} (st : stable_target env task P memory) (os : ordered_space env task top)
    (hL : sig.length ≤ P) (inv : scan_inv env task P memory sig flt s mp)
    (region_fuel : Nat) (calls : List os_call) :
    advance_post env task P memory sig flt top region_fuel s mp
      (step_before_fetch env region_fuel s mp calls) := by
  have hb := before_fetch_inv st hL inv region_fuel calls
  obtain ⟨pe1, pe2, pe3⟩ := page_end_region s
  cases hs : step_before_fetch env region_fuel s mp calls with
  | again s' mp' calls' =>
    rw [hs] at hb
    obtain ⟨inv2, hi2, hcase⟩ := hb
    refine ⟨inv2, hi2, ?_⟩
    have h0 := start_nonneg inv
    have h0' := start_nonneg inv2
    rcases hcase with ⟨hpos, hmp⟩ | ⟨hmp, hz, hpa, rr, hrr, hret, hra⟩
    · subst hmp
      have e : attempt_start s' mp' = attempt_start s mp' := by
        unfold attempt_start
        rw [hpos]
      unfold progress_measure
      rw [e]
      exact ⟨le_refl _, le_refl _⟩
    · subst hmp
      have hadv := next_region_advances os region_fuel (page_end_step s) rr
        (by rw [pe3]; exact inv.task_eq)
        (by rw [pe1, pe2]; exact reported_of_accepted inv.region_ok) hrr hret
      rw [pe1, pe2, ← hra] at hadv
      have h1 := inv.page_hi
      have h2 := inv.index_le
      have h3 := inv.progress_lt
      have htop := (region_end_le_top os inv2.region_ok)
      have hs1 : attempt_start s' 0 = s'.region_address := by
        unfold attempt_start
        rw [hz, hpa]
        omega
      have hle : attempt_start s mp + mp ≤ attempt_start s' 0 := by
        rw [hs1]
        unfold attempt_start
        omega
      refine ⟨by omega, ?_⟩
      unfold progress_measure
      by_cases heq : attempt_start s' 0 = attempt_start s mp
      · have : mp = 0 := by omega
        subst this
        rw [heq]
      · exact le_of_lt (measure_le_of_later top sig.length _ _ mp 0 (by omega)
          (by rw [hs1]; omega) h3)
  | returned r =>
    rw [hs] at hb
    exact hb
  | fault => rw [hs] at hb; exact hb
  | timeout =>
    rw [hs] at hb
    show region_fuel ≤ top
    by_contra hlt
    obtain ⟨r, hr⟩ := next_region_returns os region_fuel (page_end_step s)
      (by rw [pe3]; exact inv.task_eq) (by omega)
    have hb' : memscan_scanner_next_region env region_fuel (page_end_step s) = none := hb
    rw [hr] at hb'
    exact absurd hb' (by simp)

theorem compare_progress_post {env : mach_env} {task P : Nat} {memory : Nat → Nat}
    {sig : memscan_signature} {flt : memscan_filter} {top : Nat} {s : memscan_scanner}
    {mp : Nat} (st : stable_target env task P memory) (os : ordered_space env task top)
    (hw : well_formed sig) (hL : sig.length ≤ P)
    (inv : scan_inv env task P memory sig flt s mp) (hi : s.scan_index < P)
    (region_fuel : Nat) (calls : List os_call) :
    progress_post env task P memory sig flt top region_fuel s mp
      (scan_compare s mp calls) := by
  have hpos : 0 < sig.length := by have := inv.progress_lt; omega
  have h0 := start_nonneg inv
  have h1 := inv.page_hi
  have h2 := inv.progress_lt
  have htop := (region_end_le_top os inv.region_ok).1
  have hA : attempt_start s mp < top := by
    unfold attempt_start
    omega
  by_cases hmis : sig.mask[mp]? = some true ∧
      sig.signature[mp]? ≠ some (memory (Int.toNat (s.page_address + s.scan_index)))
  · rw [compare_mismatch st.page_small hw inv hi calls hmis]
    have hs : attempt_start { s with scan_index := s.scan_index - mp + 1 } 0 =
        attempt_start s mp + 1 := by
      show Int.toNat ((s.page_address : Int) + (s.scan_index - mp + 1) - (0 : Nat)) =
        Int.toNat (s.page_address + s.scan_index - mp) + 1
      omega
    refine ⟨inv_mismatch hpos inv hi, by rw [hs]; omega, ?_⟩
    unfold progress_measure
    rw [hs]
    exact measure_le_of_later top sig.length _ _ mp 0 (le_refl _) (by omega) h2
  · by_cases hlt : mp + 1 = sig.length
    · rw [compare_found st hw hL inv hi calls hmis hlt]
      exact Or.inl ⟨rfl, rfl, _, rfl, le_refl _⟩
    · rw [compare_progress st.page_small hw hL inv hi calls hmis hlt]
      have hs : attempt_start { s with scan_index := s.scan_index + 1 } (mp + 1) =
          attempt_start s mp := by
        show Int.toNat ((s.page_address : Int) + (s.scan_index + 1) - ((mp + 1 : Nat) : Int)) =
          Int.toNat (s.page_address + s.scan_index - mp)
        congr 1
        push_cast
        omega
      refine ⟨inv_progress inv hi hmis (by omega), by rw [hs], ?_⟩
      unfold progress_measure
      rw [hs]
      omega

theorem step_progress {env : mach_env} {task P : Nat} {memory : Nat → Nat}
    {sig : memscan_signature} {flt : memscan_filter} {top : Nat} {s : memscan_scanner}
    {mp : Nat} (st : stable_target env task P memory) (os : ordered_space env task top)
    (hw : well_formed sig) (hL : sig.length ≤ P)
    (inv : scan_inv env task P memory sig flt s mp)
    (region_fuel : Nat) (calls : List os_call) :
    progress_post env task P memory sig flt top region_fuel s mp
      (scan_step env region_fuel s mp calls) := by
  have hb := before_fetch_progress st os hL inv region_fuel calls
  rw [step_factor]
  cases hs : step_before_fetch env region_fuel s mp calls with
  | again s' mp' calls' =>
    rw [hs] at hb
    obtain ⟨inv2, hi2, hstart, hm⟩ := hb
    have hc := compare_progress_post st os hw hL inv2 hi2 region_fuel calls'
    show progress_post env task P memory sig flt top region_fuel s mp
      (scan_compare s' mp' calls')
    cases hcmp : scan_compare s' mp' calls' with
    | again s2 mp2 calls2 =>
      rw [hcmp] at hc
      exact ⟨hc.1, le_trans hstart hc.2.1, lt_of_lt_of_le hc.2.2 hm⟩
    | returned r =>
      rw [hcmp] at hc
      rcases hc with ⟨h1, h2, a, h3, h4⟩ | h
      · exact Or.inl ⟨h1, h2, a, h3, le_trans hstart h4⟩
      · exact Or.inr h
    | fault => rw [hcmp] at hc; exact hc
    | timeout => rw [hcmp] at hc; exact hc
  | returned r =>
    rw [hs] at hb
    exact Or.inr hb
  | fault => rw [hs] at hb; exact hb
  | timeout =>
    rw [hs] at hb
    exact hb

theorem loop_monotone {env : mach_env} {task P : Nat} {memory : Nat → Nat}
    {sig : memscan_signature} {flt : memscan_filter} {top : Nat}
    (st : stable_target env task P memory) (os : ordered_space env task top)
    (hw : well_formed sig) (hL : sig.length ≤ P) (region_fuel : Nat) :
    ∀ (fuel : Nat) (s : memscan_scanner) (mp : Nat) (calls : List os_call) (r : next_result),
      scan_inv env task P memory sig flt s mp →
      scan_loop env region_fuel fuel s mp calls = outcome.done r → r.ret = true →
      ∃ a, r.match_write = some { address := a } ∧ attempt_start s mp ≤ a := by
  intro fuel
  induction fuel with
  | zero => intro s mp calls r _ h; simp [scan_loop] at h
  | succ fuel ih =>
    intro s mp calls r inv h hret
    have hs := step_progress st os hw hL inv region_fuel calls
    rw [scan_loop] at h
    cases hstep : scan_step env region_fuel s mp calls with
    | again s' mp' calls' =>
      rw [hstep] at h hs
      obtain ⟨a, h1, h2⟩ := ih s' mp' calls' r hs.1 h hret
      exact ⟨a, h1, le_trans hs.2.1 h2⟩
    | returned r' =>
      rw [hstep] at h hs
      simp only [outcome.done.injEq] at h
      subst h
      rcases hs with ⟨_, _, a, h3, h4⟩ | ⟨h1, _⟩
      · exact ⟨a, h3, h4⟩
      · rw [hret] at h1
        exact absurd h1 (by simp)
    | fault => rw [hstep] at h; simp at h
    | timeout => rw [hstep] at h; simp at h

theorem layout_ordered (P task top : Nat) (regions : List vm_region) (memory : Nat → Nat)
    (htop : top < 18446744073709551616)
    (hr : ∀ r, r ∈ regions → 0 < r.address ∧ 0 < r.size ∧ r.address + r.size ≤ top)
    (hsorted : ∀ r1, r1 ∈ regions → ∀ r2, r2 ∈ regions →
      r1.address + r1.size < r2.address + r2.size → r1.address + r1.size ≤ r2.address) :
    ordered_space (layout_env P regions memory) task top := by
  have e : ∀ a sz d, (layout_env P regions memory).vm_region_recurse_64 task a sz d =
      match regions.find? (fun r => decide (a < r.address + r.size)) with
      | some r =>
        { kr := 0, address := r.address, size := r.size, depth := d,
          is_submap := r.is_submap, protection := r.protection }
      | none =>
        { kr := KERN_INVALID_ADDRESS, address := a, size := sz, depth := d,
          is_submap := false, protection := 0 } := fun _ _ _ => rfl
  have key : ∀ a sz d, ((layout_env P regions memory).vm_region_recurse_64 task a sz d).kr = 0 →
      ∃ r, r ∈ regions ∧ a < r.address + r.size ∧
        ((layout_env P regions memory).vm_region_recurse_64 task a sz d).address = r.address ∧
        ((layout_env P regions memory).vm_region_recurse_64 task a sz d).size = r.size := by
    intro a sz d hk
    rw [e] at hk ⊢
    cases hf : regions.find? (fun r => decide (a < r.address + r.size)) with
    | none =>
      rw [hf] at hk
      exact absurd (show KERN_INVALID_ADDRESS = 0 from hk) (by decide)
    | some r =>
      refine ⟨r, List.mem_of_find?_eq_some hf, ?_, rfl, rfl⟩
      have := List.find?_some hf
      simpa using this
  refine ⟨htop, ?_, ?_⟩
  · intro a sz d hk
    obtain ⟨r, hmem, hlt, h1, h2⟩ := key a sz d hk
    rw [h1, h2]
    have := hr r hmem
    exact ⟨this.1, this.2.1, hlt, this.2.2⟩
  · intro a sz d sz2 d2 hk hk2
    obtain ⟨r1, hmem1, _, h1, h2⟩ := key a sz d hk
    rw [h1, h2] at hk2 ⊢
    obtain ⟨r2, hmem2, hlt2, h3, _⟩ := key _ sz2 d2 hk2
    rw [h3]
    exact hsorted r1 hmem1 r2 hmem2 hlt2

/-! ## The claims -/

/-- C1 (counterexample): with the signature `AA AA` and a region whose bytes are `AA AA AA`, the
first call reports offset 0 and the second call returns false: the occurrence at offset 1, which
overlaps the reported one, is not reported. -/
theorem overlapping_occurrence_not_reported :
    ∃ r1 r2,
      memscan_scanner_next (layout_env 3 [leaf_region 3000 3] (memory_of 3000 [170, 170, 170]))
        30 (memscan_scanner_create demo_target (exact_signature [170, 170]) unbounded) =
          outcome.done r1 ∧
      r1.ret = true ∧ r1.match_write = some { address := 3000 } ∧
      memscan_scanner_next (layout_env 3 [leaf_region 3000 3] (memory_of 3000 [170, 170, 170]))
        30 r1.scanner = outcome.done r2 ∧
      r2.ret = false ∧ r2.match_write = none ∧
      occurs_at (memory_of 3000 [170, 170, 170]) (exact_signature [170, 170]) 3001 :=
  ⟨_, _, rfl, rfl, rfl, rfl, rfl, rfl, by decide⟩

/-- C1 (amended): occurrences that overlap a reported one are skipped, all others are
reported. For a signature of 1 to page-size bytes and a stable target whose accepted regions
are enumerated as `regions` (whole pages, readable), calling `memscan_scanner_next` on a fresh
scanner with the unbounded filter until it returns false reports exactly `all_occurrences`:
in every run of contiguous accepted regions, the occurrences wholly inside the run taken
greedily from the left, each one the lowest that starts at or after the end of the one
reported before. The last call returns false without a match and without an error. -/
theorem successive_calls_skip_overlaps {env : mach_env} {target : memscan_target} {P : Nat}
    {memory : Nat → Nat} {sig : memscan_signature} {regions : List (Nat × Nat)}
    (rc : region_chain env target.task P memory regions) (hw : well_formed sig)
    (hpos : 1 ≤ sig.length) (hL : sig.length ≤ P) (fuel calls : Nat)
    (hfuel : (total_size regions + P) * (sig.length + 1) + sig.length + 1 ≤ fuel)
    (hcalls : total_size regions < calls) :
    ∃ last, scan_until_false env fuel calls
        (memscan_scanner_create target sig { start_address := 0, end_address := 0 }) =
          outcome.done (all_occurrences memory sig calls regions 0 0, last) ∧
      last.ret = false ∧ last.match_write = none ∧ last.error_write = none :=
  scan_until_false_chain rc hw hpos hL target rfl fuel hfuel calls _ regions 0 0
    (Or.inl ⟨rfl, rfl, rfl, rfl⟩) (le_refl _) (by omega)

/-- C1 (witness): the signature `AA AA`. Against the one region `AA AA AA` the calls report
offset 0 only. Against the regions at 4096, 4100 (contiguous) and 4108 (after a gap) holding
`AA AA AA AA`, `AA 00 00 AA` and `AA 00 00 00` they report 4096 and 4098: not 4097 and 4099,
which overlap the reported ones, and not 4103 and 4107, which do not lie inside a run. -/
theorem successive_calls_skip_overlaps_witness :
    (all_occurrences (memory_of 3000 [170, 170, 170]) (exact_signature [170, 170]) 4
        [(3000, 3)] 0 0 = [3000] ∧
      ∃ last, scan_until_false
          (layout_env 3 [leaf_region 3000 3] (memory_of 3000 [170, 170, 170])) 30 4
          (memscan_scanner_create demo_target (exact_signature [170, 170])
            { start_address := 0, end_address := 0 }) =
            outcome.done (all_occurrences (memory_of 3000 [170, 170, 170])
              (exact_signature [170, 170]) 4 [(3000, 3)] 0 0, last) ∧
        last.ret = false ∧ last.match_write = none ∧ last.error_write = none) ∧
    (all_occurrences
        (memory_of 4096 [170, 170, 170, 170, 170, 0, 0, 170, 170, 0, 0, 170, 170, 0, 0, 0])
        (exact_signature [170, 170]) 13 [(4096, 4), (4100, 4), (4108, 4)] 0 0 = [4096, 4098] ∧
      ∃ last, scan_until_false
          (layout_env 4 [leaf_region 4096 4, leaf_region 4100 4, leaf_region 4108 4]
            (memory_of 4096 [170, 170, 170, 170, 170, 0, 0, 170, 170, 0, 0, 170, 170, 0, 0, 0]))
          60 13
          (memscan_scanner_create demo_target (exact_signature [170, 170])
            { start_address := 0, end_address := 0 }) =
            outcome.done (all_occurrences
              (memory_of 4096 [170, 170, 170, 170, 170, 0, 0, 170, 170, 0, 0, 170, 170, 0, 0, 0])
              (exact_signature [170, 170]) 13 [(4096, 4), (4100, 4), (4108, 4)] 0 0, last) ∧
        last.ret = false ∧ last.match_write = none ∧ last.error_write = none) := by
  refine ⟨⟨by decide, ?_⟩, ⟨by decide, ?_⟩⟩
  · refine successive_calls_skip_overlaps
      { stable := layout_stable 3 demo_target.task [leaf_region 3000 3]
          (memory_of 3000 [170, 170, 170]) (by decide) (by decide) (by
            intro r hr
            simp only [List.mem_singleton] at hr
            subst hr
            decide)
        chain := enumerates_cons _ _ (0, 0) (3000, 3) []
          (fun _ => ⟨accepts_leaf _ rfl rfl rfl, rfl, rfl⟩)
          (enumerates_nil _ _ (3000, 3) (fun _ => rfl))
        reads := by
          intro r hr a h1 h2
          simp only [List.mem_singleton] at hr
          subst hr
          have : a = 3000 := by
            have e1 : (3000 : Nat) ≤ a := h1
            have e2 : a + 3 ≤ 3000 + 3 := h2
            omega
          subst this
          rfl }
      ⟨rfl, rfl⟩ (by decide) (by decide) 30 4 (by decide) (by decide)
  · refine successive_calls_skip_overlaps
      { stable := layout_stable 4 demo_target.task
          [leaf_region 4096 4, leaf_region 4100 4, leaf_region 4108 4]
          (memory_of 4096 [170, 170, 170, 170, 170, 0, 0, 170, 170, 0, 0, 170, 170, 0, 0, 0])
          (by decide) (by decide) (by
            intro r hr
            simp only [List.mem_cons, List.mem_singleton, List.not_mem_nil, or_false] at hr
            rcases hr with rfl | rfl | rfl <;> decide)
        chain := enumerates_cons _ _ (0, 0) (4096, 4) _
          (fun _ => ⟨accepts_leaf _ rfl rfl rfl, rfl, rfl⟩)
          (enumerates_cons _ _ (4096, 4) (4100, 4) _
            (fun _ => ⟨accepts_leaf _ rfl rfl rfl, rfl, rfl⟩)
            (enumerates_cons _ _ (4100, 4) (4108, 4) []
              (fun _ => ⟨accepts_leaf _ rfl rfl rfl, rfl, rfl⟩)
              (enumerates_nil _ _ (4108, 4) (fun _ => rfl))))
        reads := by
          intro r hr a h1 h2
          simp only [List.mem_cons, List.mem_singleton, List.not_mem_nil, or_false] at hr
          rcases hr with rfl | rfl | rfl
          · have : a = 4096 := by
              have e1 : (4096 : Nat) ≤ a := h1
              have e2 : a + 4 ≤ 4096 + 4 := h2
              omega
            subst this
            rfl
          · have : a = 4100 := by
              have e1 : (4100 : Nat) ≤ a := h1
              have e2 : a + 4 ≤ 4100 + 4 := h2
              omega
            subst this
            rfl
          · have : a = 4108 := by
              have e1 : (4108 : Nat) ≤ a := h1
              have e2 : a + 4 ≤ 4108 + 4 := h2
              omega
            subst this
            rfl }
      ⟨rfl, rfl⟩ (by decide) (by decide) 60 13 (by decide) (by decide)

/-- C2 (counterexample): with the signature `AA BB CC`, page size 4 and one accepted region
whose pages hold `11 AA BB 22` and `CC 33 44 55`, scanning until `memscan_scanner_next` returns
false reports no match at all (the byte after `AA BB` is `22`), not one match at base + 1. -/
theorem boundary_scenario_reports_nothing :
    ∃ last, scan_until_false
        (layout_env 4 [leaf_region 4096 8]
          (memory_of 4096 [17, 170, 187, 34, 204, 51, 68, 85])) 60 9
        (memscan_scanner_create demo_target (exact_signature [170, 187, 204]) unbounded) =
          outcome.done ([], last) ∧
      last.ret = false ∧
      ¬ occurs_at (memory_of 4096 [17, 170, 187, 34, 204, 51, 68, 85])
          (exact_signature [170, 187, 204]) (4096 + 1) :=
  ⟨_, rfl, rfl, by decide⟩

/-- C2 (amended): the boundary scenario. With the signature `AA BB CC`, page size 4 and one
accepted region of two pages at `base`, scanning until `memscan_scanner_next` returns false
reports no match when the pages hold `11 AA BB 22` and `CC 33 44 55` (the byte after `AA BB`
is `22`, so the signature does not occur), and exactly one match, at the address of the `AA`
byte (`base + 2`), when they hold `11 22 AA BB` and `CC 33 44 55`, where the occurrence
straddles the page boundary. Either scan ends without an error. -/
theorem boundary_scenario {env : mach_env} {target : memscan_target} {memory : Nat → Nat}
    {base : Nat} (sr : single_region env target.task 4 memory base 8) (fuel calls : Nat)
    (hfuel : 52 ≤ fuel) (hcalls : 8 < calls) :
    (memory_slice memory base 8 = [17, 170, 187, 34, 204, 51, 68, 85] →
      ∃ last, scan_until_false env fuel calls
          (memscan_scanner_create target (exact_signature [170, 187, 204])
            { start_address := 0, end_address := 0 }) = outcome.done ([], last) ∧
        last.ret = false ∧ last.error_write = none) ∧
    (memory_slice memory base 8 = [17, 34, 170, 187, 204, 51, 68, 85] →
      ∃ last, scan_until_false env fuel calls
          (memscan_scanner_create target (exact_signature [170, 187, 204])
            { start_address := 0, end_address := 0 }) = outcome.done ([base + 2], last) ∧
        last.ret = false ∧ last.error_write = none) := by
  obtain ⟨last, hscan, hl1, _, hl3⟩ := scan_until_false_greedy sr
    (show well_formed (exact_signature [170, 187, 204]) from ⟨rfl, rfl⟩) (by decide) (by decide)
    target rfl fuel (by
      show (8 + 4) * (3 + 1) + 3 + 1 ≤ fuel
      omega) calls _ base (Or.inl ⟨rfl, rfl⟩) (by omega)
  obtain ⟨c, rfl⟩ : ∃ c, calls = c + 1 := ⟨calls - 1, by omega⟩
  have e6 : base + 8 + 1 - (base + (exact_signature [170, 187, 204]).length) = 6 := by
    show base + 8 + 1 - (base + 3) = 6
    omega
  constructor
  · intro hmem
    obtain ⟨m0, m1, m2, m3, m4, m5, m6, m7⟩ := slice_eight memory base _ _ _ _ _ _ _ _ hmem
    refine ⟨last, ?_, hl1, hl3⟩
    rw [hscan, greedy_occurrences]
    unfold first_inside
    rw [e6, first_occurrence_none]
    intro a' h1 h2
    obtain ⟨k, rfl⟩ : ∃ k, a' = base + k := ⟨a' - base, by omega⟩
    have hk : k < 6 := by omega
    rw [occurs_at_three]
    interval_cases k <;> simp only [Nat.add_assoc, Nat.reduceAdd, add_zero] <;> omega
  · intro hmem
    obtain ⟨m0, m1, m2, m3, m4, m5, m6, m7⟩ := slice_eight memory base _ _ _ _ _ _ _ _ hmem
    refine ⟨last, ?_, hl1, hl3⟩
    have hocc : occurs_at memory (exact_signature [170, 187, 204]) (base + 2) := by
      rw [occurs_at_three]
      simp only [Nat.add_assoc, Nat.reduceAdd]
      exact ⟨m2, m3, m4⟩
    have hfirst : first_inside memory (exact_signature [170, 187, 204]) base (base + 8) =
        some (base + 2) := by
      unfold first_inside
      rw [e6]
      apply first_occurrence_some _ _ _ _ _ (by omega) (by omega) hocc
      intro a' h1 h2
      obtain ⟨k, rfl⟩ : ∃ k, a' = base + k := ⟨a' - base, by omega⟩
      have hk : k < 2 := by omega
      rw [occurs_at_three]
      interval_cases k <;> simp only [Nat.add_assoc, Nat.reduceAdd, add_zero] <;> omega
    have hsecond : greedy_occurrences memory (exact_signature [170, 187, 204]) (base + 8) c
        (base + 2 + (exact_signature [170, 187, 204]).length) = [] := by
      cases c with
      | zero => rfl
      | succ c =>
        rw [greedy_occurrences]
        unfold first_inside
        have e1 : base + 8 + 1 - (base + 2 + (exact_signature [170, 187, 204]).length +
            (exact_signature [170, 187, 204]).length) = 1 := by
          show base + 8 + 1 - (base + 2 + 3 + 3) = 1
          omega
        rw [e1, first_occurrence_none]
        intro a' h1 h2
        have ha : a' = base + 5 := by
          have : base + 2 + 3 ≤ a' := h1
          have : a' < base + 2 + 3 + 1 := h2
          omega
        subst ha
        rw [occurs_at_three]
        omega
    rw [hscan, greedy_occurrences, hfirst]
    simp only [hsecond]

/-- C2 (witness): the two memories at base 4096. -/
theorem boundary_scenario_witness :
    (∃ last, scan_until_false
        (layout_env 4 [leaf_region 4096 8]
          (memory_of 4096 [17, 170, 187, 34, 204, 51, 68, 85])) 60 9
        (memscan_scanner_create demo_target (exact_signature [170, 187, 204])
          { start_address := 0, end_address := 0 }) = outcome.done ([], last) ∧
      last.ret = false ∧ last.error_write = none) ∧
    (∃ last, scan_until_false
        (layout_env 4 [leaf_region 4096 8]
          (memory_of 4096 [17, 34, 170, 187, 204, 51, 68, 85])) 60 9
        (memscan_scanner_create demo_target (exact_signature [170, 187, 204])
          { start_address := 0, end_address := 0 }) = outcome.done ([4096 + 2], last) ∧
      last.ret = false ∧ last.error_write = none) :=
  ⟨(boundary_scenario
      (layout_single_region 4 4096 8 demo_target.task
        (memory_of 4096 [17, 170, 187, 34, 204, 51, 68, 85])
        (by decide) (by decide) (by decide) (by decide) (by decide))
      60 9 (by decide) (by decide)).1 (by decide),
    (boundary_scenario
      (layout_single_region 4 4096 8 demo_target.task
        (memory_of 4096 [17, 34, 170, 187, 204, 51, 68, 85])
        (by decide) (by decide) (by decide) (by decide) (by decide))
      60 9 (by decide) (by decide)).2 (by decide)⟩

/-- C3 (counterexample): a target with the one region `[4096, 4100)` holding `AA 00 00 00`,
page size 4, the signature `AA`. The first call reports 4096, the second returns false without
an error (the regions are exhausted), and the third returns true with the address 4100, which
lies in no accepted region and holds 00: the scanner compared a stale page buffer. -/
theorem stale_match_after_end :
    ∃ r1 r2 r3,
      memscan_scanner_next (layout_env 4 [leaf_region 4096 4] (memory_of 4096 [170, 0, 0, 0]))
        10 (memscan_scanner_create demo_target (exact_signature [170]) unbounded) =
          outcome.done r1 ∧
      r1.ret = true ∧ r1.match_write = some { address := 4096 } ∧
      memscan_scanner_next (layout_env 4 [leaf_region 4096 4] (memory_of 4096 [170, 0, 0, 0]))
        10 r1.scanner = outcome.done r2 ∧
      r2.ret = false ∧ r2.error_write = none ∧
      memscan_scanner_next (layout_env 4 [leaf_region 4096 4] (memory_of 4096 [170, 0, 0, 0]))
        10 r2.scanner = outcome.done r3 ∧
      r3.ret = true ∧ r3.match_write = some { address := 4100 } ∧
      ¬ occurs_at (memory_of 4096 [170, 0, 0, 0]) (exact_signature [170]) 4100 ∧
      (∀ b sz, accepted (layout_env 4 [leaf_region 4096 4] (memory_of 4096 [170, 0, 0, 0]))
        demo_target.task b sz → ¬ (b ≤ 4100 ∧ 4100 < b + sz)) ∧
      stable_target (layout_env 4 [leaf_region 4096 4] (memory_of 4096 [170, 0, 0, 0]))
        demo_target.task 4 (memory_of 4096 [170, 0, 0, 0]) := by
  refine ⟨_, _, _, rfl, rfl, rfl, rfl, rfl, rfl, rfl, rfl, rfl, by decide, ?_, ?_⟩
  · intro b sz h
    obtain ⟨rfl, rfl⟩ := layout_accepted_one _ _ _ _ _ _ h
    decide
  · exact (layout_single_region 4 4096 4 demo_target.task (memory_of 4096 [170, 0, 0, 0])
      (by decide) (by decide) (by decide) (by decide) (by decide)).stable

/-- C3 (amended): when a call of `memscan_scanner_next` returns true on a scanner that was
created and then only used for calls that returned true, the address stored through `match` is
one at which the signature occurs in the target's memory, and the occurrence lies inside one
accepted region or inside two accepted regions of which the second starts where the first
ends. The target is stable, every accepted region is a positive number of pages, and the
signature has between 1 and page-size bytes. -/
theorem reported_match_sound {env : mach_env} {target : memscan_target} {P : Nat}
    {memory : Nat → Nat} {sig : memscan_signature} {flt : memscan_filter}
    (st : stable_target env target.task P memory) (hw : well_formed sig)
    (hpos : 1 ≤ sig.length) (hL : sig.length ≤ P)
    (s : memscan_scanner) (hs : reachable env target sig flt s)
    (fuel : Nat) (r : next_result)
    (h : memscan_scanner_next env fuel s = outcome.done r) (hret : r.ret = true) :
    ∃ a, r.match_write = some { address := a } ∧ occurs_at memory sig a ∧
      ((∃ b sz, accepted env target.task b sz ∧ b ≤ a ∧ a + sig.length ≤ b + sz) ∨
       (∃ b sz sz2, accepted env target.task b sz ∧ accepted env target.task (b + sz) sz2 ∧
          b ≤ a ∧ a + sig.length ≤ b + sz + sz2)) := by
  have hinv := reachable_inv st hw hL hpos target rfl s hs
  obtain ⟨inv, a, hm, hocc, hend, hreg⟩ := next_sound st hw hL hpos target rfl s hinv fuel r h hret
  have h1 := inv.index_le
  have h2 := inv.page_hi
  refine ⟨a, hm, hocc, ?_⟩
  rcases hreg with hreg | ⟨pb, ps, hacc, he, hle⟩
  · exact Or.inl ⟨_, _, inv.region_ok, hreg, by omega⟩
  · refine Or.inr ⟨pb, ps, r.scanner.region_size, hacc, ?_, hle, by omega⟩
    rw [he]
    exact inv.region_ok

/-- C3 (witness): the first call on the page `AA 00 00 00` at 4096 with the signature `AA`. -/
theorem reported_match_sound_witness :
    ∃ r, memscan_scanner_next (layout_env 4 [leaf_region 4096 4] (memory_of 4096 [170, 0, 0, 0]))
        10 (memscan_scanner_create demo_target (exact_signature [170]) unbounded) =
          outcome.done r ∧ r.ret = true ∧
      ∃ a, r.match_write = some { address := a } ∧
        occurs_at (memory_of 4096 [170, 0, 0, 0]) (exact_signature [170]) a ∧
        ((∃ b sz, accepted (layout_env 4 [leaf_region 4096 4] (memory_of 4096 [170, 0, 0, 0]))
            demo_target.task b sz ∧ b ≤ a ∧ a + (exact_signature [170]).length ≤ b + sz) ∨
         (∃ b sz sz2,
            accepted (layout_env 4 [leaf_region 4096 4] (memory_of 4096 [170, 0, 0, 0]))
              demo_target.task b sz ∧
            accepted (layout_env 4 [leaf_region 4096 4] (memory_of 4096 [170, 0, 0, 0]))
              demo_target.task (b + sz) sz2 ∧
            b ≤ a ∧ a + (exact_signature [170]).length ≤ b + sz + sz2)) := by
  have h : ∃ r, memscan_scanner_next
      (layout_env 4 [leaf_region 4096 4] (memory_of 4096 [170, 0, 0, 0]))
      10 (memscan_scanner_create demo_target (exact_signature [170]) unbounded) =
        outcome.done r ∧ r.ret = true := ⟨_, rfl, rfl⟩
  obtain ⟨r, h1, h2⟩ := h
  exact ⟨r, h1, h2, reported_match_sound
    (layout_single_region 4 4096 4 demo_target.task (memory_of 4096 [170, 0, 0, 0])
      (by decide) (by decide) (by decide) (by decide) (by decide)).stable
    ⟨rfl, rfl⟩ (by decide) (by decide) _ reachable.created 10 r h1 h2⟩

/-- C4: on a fresh scanner with the unbounded filter, a target with one accepted region of
whole pages and a signature of 1 to page-size bytes, the first call of `memscan_scanner_next`
returns (given the fuel of the bound), and: if the signature occurs wholly inside the region it
returns true; when it returns true the address is an occurrence inside the region with no
occurrence at a lower address of the region; when it returns false, the signature occurs
nowhere wholly inside the region, and no error is stored. -/
theorem first_call_leftmost {env : mach_env} {target : memscan_target} {P : Nat}
    {memory : Nat → Nat} {sig : memscan_signature} {base size : Nat}
    (sr : single_region env target.task P memory base size) (hw : well_formed sig)
    (hpos : 1 ≤ sig.length) (hL : sig.length ≤ P) (fuel : Nat)
    (hfuel : (size + P) * (sig.length + 1) + sig.length + 1 ≤ fuel) :
    ∃ r, memscan_scanner_next env fuel
        (memscan_scanner_create target sig { start_address := 0, end_address := 0 }) =
          outcome.done r ∧
      ((∃ a, base ≤ a ∧ a + sig.length ≤ base + size ∧ occurs_at memory sig a) →
        r.ret = true) ∧
      (r.ret = true → ∃ a, r.match_write = some { address := a } ∧ base ≤ a ∧
        a + sig.length ≤ base + size ∧ occurs_at memory sig a ∧
        ∀ a', base ≤ a' → a' < a → ¬ occurs_at memory sig a') ∧
      (r.ret = false → r.error_write = none ∧
        ∀ a', base ≤ a' → a' + sig.length ≤ base + size → ¬ occurs_at memory sig a') := by
  obtain ⟨r, hnext, hpost⟩ := first_complete sr hw hL hpos target rfl fuel hfuel
  refine ⟨r, hnext, ?_⟩
  rcases hpost with ⟨hret, ⟨inv, a, hm, hocc, hend, _⟩, ri, a2, hm2, hba, hleast⟩ |
    ⟨hret, _, he, hno⟩
  · have ha : a2 = a := by
      rw [hm] at hm2
      simp only [Option.some.injEq, memscan_match.mk.injEq] at hm2
      exact hm2.symm
    subst ha
    have h1 := inv.index_le
    have h2 := inv.page_hi
    have e1 := ri.region_address_eq
    have e2 := ri.region_size_eq
    refine ⟨fun _ => hret, fun _ => ⟨a2, hm, hba, by omega, hocc, hleast⟩, ?_⟩
    intro hf
    rw [hret] at hf
    exact absurd hf (by decide)
  · refine ⟨?_, ?_, fun _ => ⟨he, hno⟩⟩
    · rintro ⟨a, h1, h2, h3⟩
      exact absurd h3 (hno a h1 h2)
    · intro ht
      rw [hret] at ht
      exact absurd ht (by decide)

/-- C4 (witness): the signature `AA AA BB` in a region of two pages of 4 bytes holding
`11 AA AA AA` and `BB 33 44 55`: the occurrence at 4098 starts inside the failed attempt that
began at 4097 and ends in the second page, and the first call reports it. -/
theorem first_call_leftmost_witness :
    occurs_at (memory_of 4096 [17, 170, 170, 170, 187, 51, 68, 85])
      (exact_signature [170, 170, 187]) 4098 ∧
    ∃ r, memscan_scanner_next
        (layout_env 4 [leaf_region 4096 8]
          (memory_of 4096 [17, 170, 170, 170, 187, 51, 68, 85])) 60
        (memscan_scanner_create demo_target (exact_signature [170, 170, 187])
          { start_address := 0, end_address := 0 }) = outcome.done r ∧
      r.match_write = some { address := 4098 } ∧
      ((∃ a, 4096 ≤ a ∧ a + (exact_signature [170, 170, 187]).length ≤ 4096 + 8 ∧
          occurs_at (memory_of 4096 [17, 170, 170, 170, 187, 51, 68, 85])
            (exact_signature [170, 170, 187]) a) → r.ret = true) ∧
      (r.ret = true → ∃ a, r.match_write = some { address := a } ∧ 4096 ≤ a ∧
        a + (exact_signature [170, 170, 187]).length ≤ 4096 + 8 ∧
        occurs_at (memory_of 4096 [17, 170, 170, 170, 187, 51, 68, 85])
          (exact_signature [170, 170, 187]) a ∧
        ∀ a', 4096 ≤ a' → a' < a →
          ¬ occurs_at (memory_of 4096 [17, 170, 170, 170, 187, 51, 68, 85])
            (exact_signature [170, 170, 187]) a') ∧
      (r.ret = false → r.error_write = none ∧
        ∀ a', 4096 ≤ a' → a' + (exact_signature [170, 170, 187]).length ≤ 4096 + 8 →
          ¬ occurs_at (memory_of 4096 [17, 170, 170, 170, 187, 51, 68, 85])
            (exact_signature [170, 170, 187]) a') := by
  refine ⟨by decide, ?_⟩
  obtain ⟨r, h, rest⟩ := @first_call_leftmost _ demo_target _ _
    (exact_signature [170, 170, 187]) _ _
    (layout_single_region 4 4096 8 demo_target.task
      (memory_of 4096 [17, 170, 170, 170, 187, 51, 68, 85])
      (by decide) (by decide) (by decide) (by decide) (by decide))
    ⟨rfl, rfl⟩ (by decide) (by decide) 60 (by decide)
  refine ⟨r, h, ?_, rest⟩
  have h' : memscan_scanner_next
      (layout_env 4 [leaf_region 4096 8]
        (memory_of 4096 [17, 170, 170, 170, 187, 51, 68, 85])) 60
      (memscan_scanner_create demo_target (exact_signature [170, 170, 187])
        { start_address := 0, end_address := 0 }) = outcome.done r := h
  have e : ∃ r0, memscan_scanner_next
      (layout_env 4 [leaf_region 4096 8]
        (memory_of 4096 [17, 170, 170, 170, 187, 51, 68, 85])) 60
      (memscan_scanner_create demo_target (exact_signature [170, 170, 187])
        { start_address := 0, end_address := 0 }) = outcome.done r0 ∧
      r0.match_write = some { address := 4098 } := ⟨_, rfl, rfl⟩
  obtain ⟨r0, h0, hm0⟩ := e
  rw [h0] at h'
  simp only [outcome.done.injEq] at h'
  rw [← h']
  exact hm0

/-- C5: the signature parsed from `AA??CC` matches `AA x CC` for every byte `x`: on a fresh
scanner with the unbounded filter and a target with one accepted region of whole pages (of at
least 3 bytes), if the region holds `AA` at the address `a` and `CC` at `a + 2`, whatever byte
`x` is at `a + 1`, and no `AA ? CC` at a lower address, the first call of
`memscan_scanner_next` returns true with the address `a`. In general a position whose mask is false is never a mismatch, whatever the byte
of the target. -/
theorem wildcard_matches_any_byte {env : mach_env} {target : memscan_target} {P : Nat}
    {memory : Nat → Nat} {base size : Nat}
    (sr : single_region env target.task P memory base size) (hP : 3 ≤ P) (fuel : Nat)
    (hfuel : (size + P) * 4 + 4 ≤ fuel) (a : Nat)
    (hlo : base ≤ a) (hhi : a + 3 ≤ base + size)
    (h0 : memory a = 170) (h2 : memory (a + 2) = 204)
    (hfirst : ∀ a', base ≤ a' → a' < a → ¬ (memory a' = 170 ∧ memory (a' + 2) = 204)) :
    (∃ r, memscan_scanner_next env fuel
        (memscan_scanner_create target (memscan_signature_parse ['A', 'A', '?', '?', 'C', 'C'])
          { start_address := 0, end_address := 0 }) = outcome.done r ∧
      r.ret = true ∧ r.match_write = some { address := a }) ∧
    (∀ (sig : memscan_signature) (mp value : Nat), sig.mask[mp]? = some false →
      mismatch sig mp value = some false) := by
  constructor
  · rw [parse_wildcard_signature]
    obtain ⟨r, hnext, hpost⟩ := @first_complete env target.task P memory
      { length := 3, signature := [170, 0, 204], mask := [true, false, true] } base size sr
      ⟨rfl, rfl⟩ hP (by decide) target rfl fuel hfuel
    refine ⟨r, hnext, ?_⟩
    have hocc := (occurs_at_wildcard memory a).2 ⟨h0, h2⟩
    rcases hpost with ⟨hret, ⟨_, a1, hm, hocc1, _, _⟩, _, a2, hm2, hba, hleast⟩ |
      ⟨_, _, _, hno⟩
    · have ha : a2 = a1 := by
        rw [hm] at hm2
        simp only [Option.some.injEq, memscan_match.mk.injEq] at hm2
        exact hm2.symm
      subst ha
      refine ⟨hret, ?_⟩
      rw [hm]
      have hle : a2 ≤ a := by
        by_contra hc
        exact hleast a hlo (by omega) hocc
      have hge : a ≤ a2 := by
        by_contra hc
        exact hfirst a2 hba (by omega) ((occurs_at_wildcard memory a2).1 hocc1)
      have : a2 = a := by omega
      rw [this]
    · exact absurd hocc (hno a hlo hhi)
  · intro sig mp value hmask
    unfold mismatch
    rw [hmask]

/-- C5 (witness): `AA 00 CC` and `AA FF CC`, each in a page of 4 bytes after a byte `11`. -/
theorem wildcard_matches_any_byte_witness :
    ((∃ r, memscan_scanner_next
        (layout_env 4 [leaf_region 4096 4] (memory_of 4096 [17, 170, 0, 204])) 40
        (memscan_scanner_create demo_target
          (memscan_signature_parse ['A', 'A', '?', '?', 'C', 'C'])
          { start_address := 0, end_address := 0 }) = outcome.done r ∧
      r.ret = true ∧ r.match_write = some { address := 4097 }) ∧
    (∀ (sig : memscan_signature) (mp value : Nat), sig.mask[mp]? = some false →
      mismatch sig mp value = some false)) ∧
    ((∃ r, memscan_scanner_next
        (layout_env 4 [leaf_region 4096 4] (memory_of 4096 [17, 170, 255, 204])) 40
        (memscan_scanner_create demo_target
          (memscan_signature_parse ['A', 'A', '?', '?', 'C', 'C'])
          { start_address := 0, end_address := 0 }) = outcome.done r ∧
      r.ret = true ∧ r.match_write = some { address := 4097 }) ∧
    (∀ (sig : memscan_signature) (mp value : Nat), sig.mask[mp]? = some false →
      mismatch sig mp value = some false)) :=
  ⟨wildcard_matches_any_byte
      (layout_single_region 4 4096 4 demo_target.task (memory_of 4096 [17, 170, 0, 204])
        (by decide) (by decide) (by decide) (by decide) (by decide))
      (by decide) 40 (by decide) 4097 (by decide) (by decide) (by decide) (by decide) (by
        intro a' h1 h2
        have : a' = 4096 := by omega
        subst this
        decide),
    wildcard_matches_any_byte
      (layout_single_region 4 4096 4 demo_target.task (memory_of 4096 [17, 170, 255, 204])
        (by decide) (by decide) (by decide) (by decide) (by decide))
      (by decide) 40 (by decide) 4097 (by decide) (by decide) (by decide) (by decide) (by
        intro a' h1 h2
        have : a' = 4096 := by omega
        subst this
        decide)⟩

/-- C6: parsing decodes pairs of hexadecimal digits and wildcards, and undoes formatting. For a
text of `2 * n` characters in which every pair is two hexadecimal digits (of either case) or
contains `?`, `memscan_signature_parse` returns a signature of length `n` whose two arrays have
`n` elements; at a pair that contains `?` the mask is false, and at any other pair the mask is
true and the byte is 16 times the value of the first digit plus the value of the second.
Consequently, parsing the rendering of a list of (byte, mask) pairs, with two digits of either
case for an exact byte and `??` for a wildcard, gives the same mask and the same byte at every
exact position. -/
theorem parse_decodes_pairs (s : List Char) (n : Nat) (hlen : strlen s = 2 * n)
    (hwf : ∀ i, i < n →
      (char_at s (i * 2) = '?' ∨ char_at s (i * 2 + 1) = '?') ∨
      ((hex_digit_value (char_at s (i * 2))).isSome ∧
        (hex_digit_value (char_at s (i * 2 + 1))).isSome)) :
    ((memscan_signature_parse s).length = n ∧
      (memscan_signature_parse s).signature.length = n ∧
      (memscan_signature_parse s).mask.length = n) ∧
    (∀ i, i < n →
      ((char_at s (i * 2) = '?' ∨ char_at s (i * 2 + 1) = '?') →
        (memscan_signature_parse s).mask[i]? = some false) ∧
      (¬ (char_at s (i * 2) = '?' ∨ char_at s (i * 2 + 1) = '?') →
        (memscan_signature_parse s).mask[i]? = some true ∧
        ∃ hi lo, hex_digit_value (char_at s (i * 2)) = some hi ∧
          hex_digit_value (char_at s (i * 2 + 1)) = some lo ∧
          (memscan_signature_parse s).signature[i]? = some (16 * hi + lo))) ∧
    (∀ (upper : Bool) (entries : List (Nat × Bool)), (∀ e, e ∈ entries → e.1 < 256) →
      (memscan_signature_parse (render upper entries)).length = entries.length ∧
      (memscan_signature_parse (render upper entries)).mask = entries.map Prod.snd ∧
      ∀ (i b : Nat), entries[i]? = some (b, true) →
        (memscan_signature_parse (render upper entries)).signature[i]? = some b) := by
  have hn : strlen s / 2 = n := by omega
  refine ⟨?_, ?_, ?_⟩
  · have := parse_lengths s
    rw [hn] at this
    exact this
  · intro i hi
    obtain ⟨g1, g2⟩ := parse_get s i (by omega)
    constructor
    · intro hq
      rw [g2]
      unfold parse_mask
      rw [if_pos hq]
    · intro hq
      rcases hwf i hi with hw | ⟨hw1, hw2⟩
      · exact absurd hw hq
      · obtain ⟨d1, hd1⟩ := Option.isSome_iff_exists.1 hw1
        obtain ⟨d2, hd2⟩ := Option.isSome_iff_exists.1 hw2
        obtain ⟨p1, p2⟩ := parse_byte_hex s i d1 d2 hd1 hd2
        exact ⟨by rw [g2, p2], d1, d2, hd1, hd2, by rw [g1, p1]⟩
  · intro upper entries hb
    have hl := strlen_render upper entries hb
    have hn' : strlen (render upper entries) / 2 = entries.length := by omega
    have hlen' := parse_lengths (render upper entries)
    rw [hn'] at hlen'
    refine ⟨hlen'.1, ?_, ?_⟩
    · apply List.ext_getElem?
      intro i
      by_cases hi : i < entries.length
      · have he : entries[i]? = some entries[i] := List.getElem?_eq_getElem hi
        rw [(parse_get (render upper entries) i (by omega)).2,
          (parse_render_entry upper entries hb i _ he).1, List.getElem?_map, he]
        rfl
      · have l1 : (memscan_signature_parse (render upper entries)).mask.length ≤ i := by
          rw [hlen'.2.2]; omega
        have l2 : (entries.map Prod.snd).length ≤ i := by
          rw [List.length_map]; omega
        rw [List.getElem?_eq_none l1, List.getElem?_eq_none l2]
    · intro i b he
      have hi : i < entries.length := by
        by_contra hc
        have l3 : entries.length ≤ i := by omega
        rw [List.getElem?_eq_none l3] at he
        exact absurd he (by simp)
      rw [(parse_get (render upper entries) i (by omega)).1,
        (parse_render_entry upper entries hb i _ he).2 rfl]

/-- C6 (witness): the text `aB??80fF`. -/
theorem parse_decodes_pairs_witness :
    memscan_signature_parse ['a', 'B', '?', '?', '8', '0', 'f', 'F'] =
      { length := 4, signature := [171, 0, 128, 255], mask := [true, false, true, true] } ∧
    render true [(171, true), (0, false), (128, true), (255, true)] =
      ['A', 'B', '?', '?', '8', '0', 'F', 'F'] ∧
    (memscan_signature_parse ['a', 'B', '?', '?', '8', '0', 'f', 'F']).signature[3]? =
      some 255 :=
  ⟨by decide, by decide,
    (((parse_decodes_pairs ['a', 'B', '?', '?', '8', '0', 'f', 'F'] 4 (by decide)
      (by
        intro i hi
        interval_cases i <;> decide)).2.1 3 (by decide)).2 (by decide)).2.elim
      (fun hi h => h.elim (fun lo h' => by
        have e1 : hex_digit_value (char_at ['a', 'B', '?', '?', '8', '0', 'f', 'F'] (3 * 2)) =
            some 15 := by decide
        have e2 : hex_digit_value
            (char_at ['a', 'B', '?', '?', '8', '0', 'f', 'F'] (3 * 2 + 1)) = some 15 := by
          decide
        have a1 : hi = 15 := by
          have := h'.1; rw [e1] at this; simpa using this.symm
        have a2 : lo = 15 := by
          have := h'.2.1; rw [e2] at this; simpa using this.symm
        rw [h'.2.2, a1, a2]))⟩

/-- C7 (counterexample): page size 4, one region `[4096, 4104)` holding `00 00 AA 00` and
`AA 00 00 00`, the signature `AA` and a filter with `end_address = 4097`. The first call
reports 4098, which is greater than `end_address` (the page at 4096 is not). The second call
returns false when the page at 4100 would be loaded, and a third call then reports 4102 from
the stale buffer. -/
theorem match_beyond_end_address :
    ∃ r1 r2 r3,
      memscan_scanner_next
        (layout_env 4 [leaf_region 4096 8] (memory_of 4096 [0, 0, 170, 0, 170, 0, 0, 0])) 10
        (memscan_scanner_create demo_target (exact_signature [170])
          { start_address := 0, end_address := 4097 }) = outcome.done r1 ∧
      r1.ret = true ∧ r1.match_write = some { address := 4098 } ∧ 4097 < 4098 ∧
      memscan_scanner_next
        (layout_env 4 [leaf_region 4096 8] (memory_of 4096 [0, 0, 170, 0, 170, 0, 0, 0])) 10
        r1.scanner = outcome.done r2 ∧
      r2.ret = false ∧ r2.error_write = none ∧
      memscan_scanner_next
        (layout_env 4 [leaf_region 4096 8] (memory_of 4096 [0, 0, 170, 0, 170, 0, 0, 0])) 10
        r2.scanner = outcome.done r3 ∧
      r3.ret = true ∧ r3.match_write = some { address := 4102 } :=
  ⟨_, _, _, rfl, rfl, rfl, by decide, rfl, rfl, rfl, rfl, rfl, rfl⟩

/-- C7 (amended): the filter's end address bounds the pages that are loaded, not the addresses
that are reported: for a scanner that was created with `end_address != 0` and then only used
for calls that returned true, a match that `memscan_scanner_next` returns lies in loaded pages,
whose bases are at most `end_address`, so that address + signature length is at most
`end_address` + page size. -/
theorem match_within_bounded_pages {env : mach_env} {target : memscan_target} {P : Nat}
    {memory : Nat → Nat} {sig : memscan_signature} {flt : memscan_filter}
    (st : stable_target env target.task P memory) (hw : well_formed sig)
    (hpos : 1 ≤ sig.length) (hL : sig.length ≤ P) (hend : flt.end_address ≠ 0)
    (s : memscan_scanner) (hs : reachable env target sig flt s)
    (fuel : Nat) (r : next_result)
    (h : memscan_scanner_next env fuel s = outcome.done r) (hret : r.ret = true) :
    ∃ a, r.match_write = some { address := a } ∧
      r.scanner.page_address ≤ flt.end_address ∧
      a + sig.length ≤ r.scanner.page_address + P ∧
      a + sig.length ≤ flt.end_address + P := by
  have hinv := reachable_inv st hw hL hpos target rfl s hs
  obtain ⟨inv, a, hm, _, hpos', _⟩ := next_sound st hw hL hpos target rfl s hinv fuel r h hret
  have h1 := inv.index_le
  have h2 := inv.filter_ok (by rw [inv.filter_eq]; exact hend)
  rw [inv.filter_eq] at h2
  exact ⟨a, hm, h2, by omega, by omega⟩

/-- C7 (witness): the scenario of the counterexample, first call. -/
theorem match_within_bounded_pages_witness :
    ∃ r, memscan_scanner_next
        (layout_env 4 [leaf_region 4096 8] (memory_of 4096 [0, 0, 170, 0, 170, 0, 0, 0])) 10
        (memscan_scanner_create demo_target (exact_signature [170])
          { start_address := 0, end_address := 4097 }) = outcome.done r ∧ r.ret = true ∧
      ∃ a, r.match_write = some { address := a } ∧
        r.scanner.page_address ≤ 4097 ∧
        a + (exact_signature [170]).length ≤ r.scanner.page_address + 4 ∧
        a + (exact_signature [170]).length ≤ 4097 + 4 := by
  have h : ∃ r, memscan_scanner_next
      (layout_env 4 [leaf_region 4096 8] (memory_of 4096 [0, 0, 170, 0, 170, 0, 0, 0])) 10
      (memscan_scanner_create demo_target (exact_signature [170])
        { start_address := 0, end_address := 4097 }) = outcome.done r ∧ r.ret = true :=
    ⟨_, rfl, rfl⟩
  obtain ⟨r, h1, h2⟩ := h
  exact ⟨r, h1, h2, @match_within_bounded_pages _ demo_target _ _ _
    { start_address := 0, end_address := 4097 }
    (layout_single_region 4 4096 8 demo_target.task
      (memory_of 4096 [0, 0, 170, 0, 170, 0, 0, 0])
      (by decide) (by decide) (by decide) (by decide) (by decide)).stable
    ⟨rfl, rfl⟩ (by decide) (by decide) (by decide) _ reachable.created 10 r h1 h2⟩

/-- C8: whenever `memscan_scanner_next` has to load a page, the filter's `end_address` is not 0
and `page_address` is greater than it, the call returns false at once: the scanner (and with it
the two buffers) is left as it is, nothing is stored through `match` or `error`, and no page
read is issued. This is so for the code of the load (first part), when the page was consumed
(second part) and when a new region was entered (third part, where the only kernel calls added
are the region queries of the enumerator). With `end_address = 0` the check never stops the
scan: the load goes on to rotate the buffers and read the page (fourth part). -/
theorem filter_bound_stop :
    (∀ (env : mach_env) (s : memscan_scanner) (mp : Nat) (calls : List os_call),
      s.filter.end_address ≠ 0 → s.filter.end_address < s.page_address →
      scan_load env s mp true calls = step_result.returned
        { ret := false, scanner := s, match_write := none, error_write := none,
          calls := calls }) ∧
    (∀ (env : mach_env) (region_fuel fuel : Nat) (s : memscan_scanner) (mp : Nat)
      (calls : List os_call),
      at_page_end s = true → ¬ region_ended (page_end_step s) →
      (page_end_step s).filter.end_address ≠ 0 →
      (page_end_step s).filter.end_address < (page_end_step s).page_address →
      scan_loop env region_fuel (fuel + 1) s mp calls = outcome.done
        { ret := false, scanner := page_end_step s, match_write := none, error_write := none,
          calls := calls }) ∧
    (∀ (env : mach_env) (region_fuel fuel : Nat) (s : memscan_scanner) (mp : Nat)
      (calls : List os_call) (rr : region_result),
      region_ended (page_end_step s) →
      memscan_scanner_next_region env region_fuel (page_end_step s) = some rr →
      rr.ret = true → rr.scanner.filter.end_address ≠ 0 →
      rr.scanner.filter.end_address < rr.scanner.region_address →
      scan_loop env region_fuel (fuel + 1) s mp calls = outcome.done
        { ret := false,
          scanner := { rr.scanner with page_address := rr.scanner.region_address,
                                       scan_index := 0 },
          match_write := none, error_write := none, calls := calls ++ rr.calls } ∧
      ∀ c, c ∈ rr.calls → ∃ t a sz d, c = os_call.region_query t a sz d) ∧
    (∀ (env : mach_env) (s : memscan_scanner) (mp : Nat) (calls : List os_call),
      s.filter.end_address = 0 →
      scan_load env s mp true calls = scan_read env s mp calls) := by
  have first : ∀ (env : mach_env) (s : memscan_scanner) (mp : Nat) (calls : List os_call),
      s.filter.end_address ≠ 0 → s.filter.end_address < s.page_address →
      scan_load env s mp true calls = step_result.returned
        { ret := false, scanner := s, match_write := none, error_write := none,
          calls := calls } := by
    intro env s mp calls h1 h2
    unfold scan_load
    simp only [if_true]
    rw [if_pos ⟨h1, h2⟩]
  refine ⟨first, ?_, ?_, ?_⟩
  · intro env region_fuel fuel s mp calls h1 h2 h3 h4
    unfold scan_loop scan_step
    rw [if_neg h2, h1, first env _ mp calls h3 h4]
  · intro env region_fuel fuel s mp calls rr h1 h2 h3 h4 h5
    refine ⟨?_, next_region_calls env region_fuel _ rr h2⟩
    unfold scan_loop scan_step
    rw [if_pos h1]
    unfold scan_region
    rw [h2]
    simp only [h3, Bool.true_eq_false, if_false]
    rw [first env
      { rr.scanner with page_address := rr.scanner.region_address, scan_index := 0 } _ _ h4 h5]
  · intro env s mp calls h
    unfold scan_load
    simp only [if_true]
    rw [if_neg]
    rintro ⟨h1, _⟩
    exact h1 h

/-- C8 (witness): the filter-bound scenario. Page size 4, one region `[4096, 4104)`, a filter
with `end_address = 4097` and the signature `AA`, which occurs at 4098 and 4100. The first call
reports 4098; the second call consumes the page, would load the page at 4100 and returns false
with no kernel call and no stored error, the buffers unchanged. -/
theorem filter_bound_stop_witness :
    ∃ r1, memscan_scanner_next
        (layout_env 4 [leaf_region 4096 8] (memory_of 4096 [0, 0, 170, 0, 170, 0, 0, 0])) 10
        (memscan_scanner_create demo_target (exact_signature [170])
          { start_address := 0, end_address := 4097 }) = outcome.done r1 ∧
      r1.match_write = some { address := 4098 } ∧
      scan_loop
        (layout_env 4 [leaf_region 4096 8] (memory_of 4096 [0, 0, 170, 0, 170, 0, 0, 0])) 10
        (0 + 1) { r1.scanner with scan_index := 4 } 0 [] = outcome.done
          { ret := false, scanner := page_end_step { r1.scanner with scan_index := 4 },
            match_write := none, error_write := none, calls := [] } ∧
      (page_end_step { r1.scanner with scan_index := 4 }).page_buffer = r1.scanner.page_buffer ∧
      memscan_scanner_next
        (layout_env 4 [leaf_region 4096 8] (memory_of 4096 [0, 0, 170, 0, 170, 0, 0, 0])) 10
        r1.scanner = outcome.done
          { ret := false, scanner := page_end_step { r1.scanner with scan_index := 4 },
            match_write := none, error_write := none, calls := [] } :=
  ⟨_, rfl, rfl,
    filter_bound_stop.2.1
      (layout_env 4 [leaf_region 4096 8] (memory_of 4096 [0, 0, 170, 0, 170, 0, 0, 0])) 10 0 _ 0
      [] (by decide) (by decide) (by decide) (by decide),
    rfl, rfl⟩

/-- C9: a partial match is never continued across a gap between regions. When the loop of
`memscan_scanner_next` moves to a newly accepted region, it keeps `match_progress` if the
region starts at the scan position (`page_address + scan_index`) and resets it to 0 otherwise,
before it loads the first page of the region with the scan index 0 (second part). So, for a
scanner that was created and then only used for calls that returned true, a reported match
that starts below the scanner's current region starts in an accepted region that ends exactly
where the current one starts (first part). -/
theorem gap_discards_partial_match {env : mach_env} {target : memscan_target} {P : Nat}
    {memory : Nat → Nat} {sig : memscan_signature} {flt : memscan_filter}
    (st : stable_target env target.task P memory) (hw : well_formed sig)
    (hpos : 1 ≤ sig.length) (hL : sig.length ≤ P)
    (s : memscan_scanner) (hs : reachable env target sig flt s)
    (fuel : Nat) (r : next_result)
    (h : memscan_scanner_next env fuel s = outcome.done r) (hret : r.ret = true) :
    (∃ a, r.match_write = some { address := a } ∧
      (a < r.scanner.region_address →
        ∃ pb ps, accepted env target.task pb ps ∧ pb + ps = r.scanner.region_address ∧
          pb ≤ a)) ∧
    (∀ (env' : mach_env) (region_fuel : Nat) (s' : memscan_scanner) (mp : Nat)
      (calls : List os_call) (rr : region_result),
      memscan_scanner_next_region env' region_fuel s' = some rr → rr.ret = true →
      scan_region env' region_fuel s' mp calls =
        scan_load env'
          { rr.scanner with page_address := rr.scanner.region_address, scan_index := 0 }
          (if wrap64 (s'.page_address + s'.scan_index) = rr.scanner.region_address then mp
            else 0)
          true (calls ++ rr.calls)) := by
  constructor
  · have hinv := reachable_inv st hw hL hpos target rfl s hs
    obtain ⟨_, a, hm, _, _, hreg⟩ := next_sound st hw hL hpos target rfl s hinv fuel r h hret
    refine ⟨a, hm, fun hlt => ?_⟩
    rcases hreg with hreg | hreg
    · omega
    · exact hreg
  · intro env' region_fuel s' mp calls rr h1 h2
    have hs' := (next_region_spec env' region_fuel s' rr h1).1
    have e1 : rr.scanner.page_address = s'.page_address := by rw [hs']
    have e2 : rr.scanner.scan_index = s'.scan_index := by rw [hs']
    unfold scan_region
    rw [h1]
    simp only [h2, Bool.true_eq_false, if_false, e1, e2, ne_eq, ite_not]

/-- C9 (witness): the signature `AA BB CC`, page size 4. With the regions `[4096, 4100)` and
`[4100, 4104)` holding `00 00 AA BB` and `CC 00 00 00` the match at 4098 is reported, and it
starts in the region that ends where the current one starts. With the second region at 4104
instead (a gap of one page) no match is reported. -/
theorem gap_discards_partial_match_witness :
    (∃ r, memscan_scanner_next
        (layout_env 4 [leaf_region 4096 4, leaf_region 4100 4]
          (memory_of 4096 [0, 0, 170, 187, 204, 0, 0, 0])) 10
        (memscan_scanner_create demo_target (exact_signature [170, 187, 204]) unbounded) =
          outcome.done r ∧ r.ret = true ∧ r.scanner.region_address = 4100 ∧
      (∃ a, r.match_write = some { address := a } ∧
        (a < r.scanner.region_address →
          ∃ pb ps, accepted
            (layout_env 4 [leaf_region 4096 4, leaf_region 4100 4]
              (memory_of 4096 [0, 0, 170, 187, 204, 0, 0, 0])) demo_target.task pb ps ∧
            pb + ps = r.scanner.region_address ∧ pb ≤ a))) ∧
    (∃ last, scan_until_false
        (layout_env 4 [leaf_region 4096 4, leaf_region 4104 4]
          (memory_of 4096 [0, 0, 170, 187, 0, 0, 0, 0, 204, 0, 0, 0])) 20 5
        (memscan_scanner_create demo_target (exact_signature [170, 187, 204]) unbounded) =
          outcome.done ([], last) ∧ last.ret = false ∧ last.error_write = none) := by
  refine ⟨?_, ⟨_, rfl, rfl, rfl⟩⟩
  have h : ∃ r, memscan_scanner_next
      (layout_env 4 [leaf_region 4096 4, leaf_region 4100 4]
        (memory_of 4096 [0, 0, 170, 187, 204, 0, 0, 0])) 10
      (memscan_scanner_create demo_target (exact_signature [170, 187, 204]) unbounded) =
        outcome.done r ∧ r.ret = true ∧ r.scanner.region_address = 4100 := ⟨_, rfl, rfl, rfl⟩
  obtain ⟨r, h1, h2, h3⟩ := h
  exact ⟨r, h1, h2, h3, (gap_discards_partial_match
    (layout_stable 4 demo_target.task [leaf_region 4096 4, leaf_region 4100 4]
      (memory_of 4096 [0, 0, 170, 187, 204, 0, 0, 0]) (by decide) (by decide)
      (by
        intro r hr
        simp only [List.mem_cons, List.mem_singleton, List.not_mem_nil, or_false] at hr
        rcases hr with rfl | rfl <;> decide))
    ⟨rfl, rfl⟩ (by decide) (by decide) _ reachable.created 10 r h1 h2).1⟩

/-- C10: clean exhaustion is not an error. When the region query returns the invalid-address
sentinel, the enumerator returns false and stores nothing through `error` (first part); when
the enumerator returns false without a stored error, so does `memscan_scanner_next`, on the
first call and on later calls, and it stores nothing through `match` (second to fourth part);
and a slot that held `MEMSCAN_SUCCESS` before a call that stores nothing holds it after the
call (fifth part). -/
theorem exhaustion_is_not_an_error :
    (∀ (env : mach_env) (fuel : Nat) (s : memscan_scanner) (calls : List os_call),
      (env.vm_region_recurse_64 s.target.task ((s.region_address + s.region_size) % U64)
        s.region_size s.region_depth).kr = KERN_INVALID_ADDRESS →
      ∃ rr, next_region_loop env (fuel + 1) s calls = some rr ∧ rr.ret = false ∧
        rr.error_write = none ∧
        rr.calls = calls ++ [os_call.region_query s.target.task
          ((s.region_address + s.region_size) % U64) s.region_size s.region_depth]) ∧
    (∀ (env : mach_env) (region_fuel fuel : Nat) (s : memscan_scanner) (mp : Nat)
      (calls : List os_call) (rr : region_result),
      region_ended (page_end_step s) →
      memscan_scanner_next_region env region_fuel (page_end_step s) = some rr →
      rr.ret = false → rr.error_write = none →
      scan_loop env region_fuel (fuel + 1) s mp calls = outcome.done
        { ret := false, scanner := rr.scanner, match_write := none, error_write := none,
          calls := calls ++ rr.calls }) ∧
    (∀ (env : mach_env) (fuel : Nat) (s : memscan_scanner) (rr : region_result),
      s.page_size ≠ 0 → region_ended (page_end_step s) →
      memscan_scanner_next_region env (fuel + 1) (page_end_step s) = some rr →
      rr.ret = false → rr.error_write = none →
      memscan_scanner_next env (fuel + 1) s = outcome.done
        { ret := false, scanner := rr.scanner, match_write := none, error_write := none,
          calls := rr.calls }) ∧
    (∀ (env : mach_env) (fuel : Nat) (target : memscan_target) (sig : memscan_signature)
      (flt : memscan_filter),
      env.host_page_size.1 = 0 → 0 < env.host_page_size.2 →
      env.host_page_size.2 < 18446744073709551616 →
      (env.vm_region_recurse_64 target.task (flt.start_address % U64) 0 0).kr =
        KERN_INVALID_ADDRESS →
      ∃ r, memscan_scanner_next env (fuel + 1) (memscan_scanner_create target sig flt) =
          outcome.done r ∧
        r.ret = false ∧ r.match_write = none ∧ r.error_write = none) ∧
    (∀ (r : next_result), r.error_write = none →
      slot_after { memscan := MEMSCAN_SUCCESS, mach := 0 } r.error_write =
        { memscan := MEMSCAN_SUCCESS, mach := 0 }) := by
  have second : ∀ (env : mach_env) (region_fuel fuel : Nat) (s : memscan_scanner) (mp : Nat)
      (calls : List os_call) (rr : region_result),
      region_ended (page_end_step s) →
      memscan_scanner_next_region env region_fuel (page_end_step s) = some rr →
      rr.ret = false → rr.error_write = none →
      scan_loop env region_fuel (fuel + 1) s mp calls = outcome.done
        { ret := false, scanner := rr.scanner, match_write := none, error_write := none,
          calls := calls ++ rr.calls } := by
    intro env region_fuel fuel s mp calls rr h1 h2 h3 h4
    unfold scan_loop scan_step
    rw [if_pos h1]
    unfold scan_region
    rw [h2]
    simp only [h3, if_true, h4]
  refine ⟨?_, second, ?_, ?_, ?_⟩
  · intro env fuel s calls hq
    unfold next_region_loop
    simp only [hq, if_true]
    exact ⟨_, rfl, rfl, rfl, rfl⟩
  · intro env fuel s rr h0 h1 h2 h3 h4
    unfold memscan_scanner_next
    rw [if_neg h0, second env (fuel + 1) fuel s 0 [] rr h1 h2 h3 h4, List.nil_append]
  · intro env fuel target sig flt hk hp hp2 hq
    rw [next_created env (fuel + 1) target sig flt hk]
    have e1 : at_page_end (first_scanner env target sig flt) = false := by
      unfold at_page_end
      rw [decide_eq_false_iff_not]
      show ¬ ((0 : Int) % 18446744073709551616 = (env.host_page_size.2 : Int))
      omega
    have e0 : page_end_step (first_scanner env target sig flt) =
        first_scanner env target sig flt := by
      unfold page_end_step
      rw [e1]
      rfl
    have hreg : region_ended (page_end_step (first_scanner env target sig flt)) := by
      rw [e0]
      refine ⟨le_refl _, ?_⟩
      show (0 + 0) % U64 ≤ wrap64 ((0 : Nat) + 0)
      decide
    have hnr : ∃ rr, memscan_scanner_next_region env (fuel + 1)
        (page_end_step (first_scanner env target sig flt)) = some rr ∧ rr.ret = false ∧
        rr.error_write = none := by
      rw [e0]
      unfold memscan_scanner_next_region
      have e2 : (first_scanner env target sig flt).region_address = 0 := rfl
      rw [if_pos e2]
      unfold next_region_loop
      have hq' : (env.vm_region_recurse_64 target.task ((flt.start_address + 0) % U64) 0 0).kr =
          KERN_INVALID_ADDRESS := by
        rw [Nat.add_zero]; exact hq
      have hq'' : (env.vm_region_recurse_64
          ({ first_scanner env target sig flt with
              region_address := (first_scanner env target sig flt).filter.start_address
            }).target.task
          ((({ first_scanner env target sig flt with
              region_address := (first_scanner env target sig flt).filter.start_address
            }).region_address +
            ({ first_scanner env target sig flt with
              region_address := (first_scanner env target sig flt).filter.start_address
            }).region_size) % U64)
          ({ first_scanner env target sig flt with
              region_address := (first_scanner env target sig flt).filter.start_address
            }).region_size
          ({ first_scanner env target sig flt with
              region_address := (first_scanner env target sig flt).filter.start_address
            }).region_depth).kr = KERN_INVALID_ADDRESS := hq'
      simp only [hq'', if_true]
      exact ⟨_, rfl, rfl, rfl⟩
    obtain ⟨rr, h2, h3, h4⟩ := hnr
    rw [second env (fuel + 1) fuel _ 0 _ rr hreg h2 h3 h4]
    exact ⟨_, rfl, rfl, rfl, rfl⟩
  · intro r h
    rw [h]
    rfl

/-- C10 (witness): a scan of the one region `[4096, 4100)` that holds no `AA`: the call
returns false when the region query at 4100 answers with the sentinel, nothing is stored, and
the only kernel calls are the page size query, two region queries and one page read. -/
theorem exhaustion_is_not_an_error_witness :
    memscan_scanner_next (layout_env 4 [leaf_region 4096 4] (memory_of 4096 [1, 2, 3, 4])) 10
        (memscan_scanner_create demo_target (exact_signature [170]) unbounded) =
      outcome.done
        { ret := false,
          scanner :=
            { target := demo_target, signature := exact_signature [170], filter := unbounded,
              region_address := 4100, region_size := 4, region_depth := 0, page_size := 4,
              page_address := 4100, page_buffer := [1, 2, 3, 4],
              previous_page_buffer := [0, 0, 0, 0], scan_index := 0 },
          match_write := none, error_write := none,
          calls := [os_call.page_size_query, os_call.region_query 7 0 0 0,
            os_call.page_read 7 4096 4, os_call.region_query 7 4100 4 0] } ∧
    (∃ r, memscan_scanner_next (layout_env 4 [] (memory_of 0 [])) (0 + 1)
        (memscan_scanner_create demo_target (exact_signature [170]) unbounded) =
          outcome.done r ∧
      r.ret = false ∧ r.match_write = none ∧ r.error_write = none) :=
  ⟨rfl, exhaustion_is_not_an_error.2.2.2.1 (layout_env 4 [] (memory_of 0 [])) 0 demo_target
    (exact_signature [170]) unbounded rfl (by decide) (by decide) rfl⟩

/-- C11: every failure of a kernel call inside `memscan_scanner_next` is surfaced and aborts
the call. Of a call that returned, with the log of the kernel calls it issued: a page-size
query that ended in a status `k` other than 0, a region query that ended in a status `k` that
is neither 0 nor the invalid-address sentinel, and a page read that ended in a status `k` other
than 0 are each the last entry of the log (no further kernel call was made), and the call
returned false with `(MEMSCAN_ERROR_PAGE_SIZE_FAILED, k)`,
`(MEMSCAN_ERROR_VM_REGION_INFO_FAILED, k)`, `(MEMSCAN_ERROR_VM_READ_MEMORY_FAILED, k)` stored
through `error` and nothing stored through `match`. The four equations show that the code
returns at once at each failure: on the first call when the page-size query fails, in the loop
of the enumerator when the region query fails, in `memscan_scanner_next` when the enumerator
returned false, and when the page read fails. -/
theorem os_failure_surfaced (env : mach_env) :
    (∀ (fuel : Nat) (s : memscan_scanner) (r : next_result),
      memscan_scanner_next env fuel s = outcome.done r →
      (∀ (i : Nat), r.calls[i]? = some os_call.page_size_query → env.host_page_size.1 ≠ 0 →
        i + 1 = r.calls.length ∧ r.ret = false ∧ r.match_write = none ∧
        r.error_write = some { memscan := MEMSCAN_ERROR_PAGE_SIZE_FAILED,
                               mach := env.host_page_size.1 }) ∧
      (∀ (i t a sz d : Nat), r.calls[i]? = some (os_call.region_query t a sz d) →
        (env.vm_region_recurse_64 t a sz d).kr ≠ 0 →
        (env.vm_region_recurse_64 t a sz d).kr ≠ KERN_INVALID_ADDRESS →
        i + 1 = r.calls.length ∧ r.ret = false ∧ r.match_write = none ∧
        r.error_write = some { memscan := MEMSCAN_ERROR_VM_REGION_INFO_FAILED,
                               mach := (env.vm_region_recurse_64 t a sz d).kr }) ∧
      (∀ (i t a sz : Nat), r.calls[i]? = some (os_call.page_read t a sz) →
        (env.vm_read_overwrite t a sz).1 ≠ 0 →
        i + 1 = r.calls.length ∧ r.ret = false ∧ r.match_write = none ∧
        r.error_write = some { memscan := MEMSCAN_ERROR_VM_READ_MEMORY_FAILED,
                               mach := (env.vm_read_overwrite t a sz).1 })) ∧
    (∀ (fuel : Nat) (s : memscan_scanner), s.page_size = 0 → env.host_page_size.1 ≠ 0 →
      memscan_scanner_next env fuel s = outcome.done
        { ret := false, scanner := s, match_write := none,
          error_write := some { memscan := MEMSCAN_ERROR_PAGE_SIZE_FAILED,
                                mach := env.host_page_size.1 },
          calls := [os_call.page_size_query] }) ∧
    (∀ (fuel : Nat) (s : memscan_scanner) (calls : List os_call),
      (cursor_reply env s).kr ≠ 0 → (cursor_reply env s).kr ≠ KERN_INVALID_ADDRESS →
      next_region_loop env (fuel + 1) s calls = some
        { ret := false,
          scanner := { s with
            region_address := (cursor_reply env s).address
            region_size := (cursor_reply env s).size
            region_depth := (cursor_reply env s).depth },
          error_write := some { memscan := MEMSCAN_ERROR_VM_REGION_INFO_FAILED,
                                mach := (cursor_reply env s).kr },
          calls := calls ++ [cursor_query s] }) ∧
    (∀ (region_fuel : Nat) (s : memscan_scanner) (mp : Nat) (calls : List os_call)
      (rr : region_result),
      memscan_scanner_next_region env region_fuel s = some rr → rr.ret = false →
      scan_region env region_fuel s mp calls = step_result.returned
        { ret := false, scanner := rr.scanner, match_write := none,
          error_write := rr.error_write, calls := calls ++ rr.calls }) ∧
    (∀ (s : memscan_scanner) (mp : Nat) (calls : List os_call),
      (env.vm_read_overwrite s.target.task s.page_address s.page_size).1 ≠ 0 →
      scan_read env s mp calls = step_result.returned
        { ret := false,
          scanner := { s with
            previous_page_buffer := s.page_buffer
            page_buffer := s.previous_page_buffer },
          match_write := none,
          error_write := some
            { memscan := MEMSCAN_ERROR_VM_READ_MEMORY_FAILED,
              mach := (env.vm_read_overwrite s.target.task s.page_address s.page_size).1 },
          calls := calls ++
            [os_call.page_read s.target.task s.page_address s.page_size] }) := by
  refine ⟨?_, ?_, ?_, ?_, ?_⟩
  · intro fuel s r h
    have hs := next_surfaced env fuel s r h
    refine ⟨?_, ?_, ?_⟩
    · intro i hc hk
      obtain ⟨h1, h2, h3, h4⟩ := hs i _ MEMSCAN_ERROR_PAGE_SIZE_FAILED env.host_page_size.1 hc
        (by simp only [failure, if_pos hk])
      exact ⟨h1, h2, h4, h3⟩
    · intro i t a sz d hc hk1 hk2
      obtain ⟨h1, h2, h3, h4⟩ := hs i _ MEMSCAN_ERROR_VM_REGION_INFO_FAILED
        (env.vm_region_recurse_64 t a sz d).kr hc
        (by simp only [failure]; rw [if_pos ⟨hk1, hk2⟩])
      exact ⟨h1, h2, h4, h3⟩
    · intro i t a sz hc hk
      obtain ⟨h1, h2, h3, h4⟩ := hs i _ MEMSCAN_ERROR_VM_READ_MEMORY_FAILED
        (env.vm_read_overwrite t a sz).1 hc (by simp only [failure, if_pos hk])
      exact ⟨h1, h2, h4, h3⟩
  · intro fuel s h0 hk
    unfold memscan_scanner_next
    rw [if_pos h0, if_pos hk]
  · intro fuel s calls hk1 hk2
    unfold cursor_reply at hk1 hk2
    rw [next_region_loop]
    simp only [hk2, hk1, if_false, ne_eq, not_false_eq_true, if_true]
    rfl
  · intro region_fuel s mp calls rr h hret
    unfold scan_region
    rw [h]
    simp only [hret, if_true]
  · intro s mp calls hk
    unfold scan_read
    simp only [hk, ne_eq, not_false_eq_true, if_true]

/-- C11 (witness): three scans for the signature `AA` with page size 4. A page-size query that
ends in the status 5; a region query that ends in the status 5; and the read of the second
page of the region `[4096, 4102)`, which ends in the status 1 because the page leaves the
region. Each call returns false with its category and status, the failed call being the last
of its log. -/
theorem os_failure_surfaced_witness :
    (∃ r, memscan_scanner_next (faulty_env 5 0 4 [leaf_region 4096 4] (memory_of 4096 [])) 20
        (memscan_scanner_create demo_target (exact_signature [170]) unbounded) =
          outcome.done r ∧
      r.calls = [os_call.page_size_query] ∧
      (0 + 1 = r.calls.length ∧ r.ret = false ∧ r.match_write = none ∧
        r.error_write = some { memscan := MEMSCAN_ERROR_PAGE_SIZE_FAILED, mach := 5 })) ∧
    (∃ r, memscan_scanner_next (faulty_env 0 5 4 [leaf_region 4096 4] (memory_of 4096 [])) 20
        (memscan_scanner_create demo_target (exact_signature [170]) unbounded) =
          outcome.done r ∧
      r.calls = [os_call.page_size_query, os_call.region_query 7 0 0 0] ∧
      (1 + 1 = r.calls.length ∧ r.ret = false ∧ r.match_write = none ∧
        r.error_write = some { memscan := MEMSCAN_ERROR_VM_REGION_INFO_FAILED, mach := 5 })) ∧
    (∃ r, memscan_scanner_next (layout_env 4 [leaf_region 4096 6] (memory_of 4096 [])) 20
        (memscan_scanner_create demo_target (exact_signature [170]) unbounded) =
          outcome.done r ∧
      r.calls = [os_call.page_size_query, os_call.region_query 7 0 0 0,
        os_call.page_read 7 4096 4, os_call.page_read 7 4100 4] ∧
      (3 + 1 = r.calls.length ∧ r.ret = false ∧ r.match_write = none ∧
        r.error_write = some { memscan := MEMSCAN_ERROR_VM_READ_MEMORY_FAILED, mach := 1 })) :=
  ⟨⟨_, rfl, rfl,
      ((os_failure_surfaced (faulty_env 5 0 4 [leaf_region 4096 4] (memory_of 4096 []))).1 20
        (memscan_scanner_create demo_target (exact_signature [170]) unbounded) _ rfl).1
        0 rfl (by decide)⟩,
    ⟨_, rfl, rfl,
      ((os_failure_surfaced (faulty_env 0 5 4 [leaf_region 4096 4] (memory_of 4096 []))).1 20
        (memscan_scanner_create demo_target (exact_signature [170]) unbounded) _ rfl).2.1
        1 7 0 0 0 rfl (by decide) (by decide)⟩,
    ⟨_, rfl, rfl,
      ((os_failure_surfaced (layout_env 4 [leaf_region 4096 6] (memory_of 4096 []))).1 20
        (memscan_scanner_create demo_target (exact_signature [170]) unbounded) _ rfl).2.2
        3 7 4100 4 rfl (by decide)⟩⟩

/-- C12 (the code at the failing input): a target whose range `[4096, 4104)` is a submap that
holds the accepted leaf regions `[4096, 4100)` and `[4100, 4104)`, scanned from the start
address 4096. The query at 4096 with depth 0 reports the submap; the enumerator then queries
at 4104 (the end of the submap) with depth 1, not at 4096 with depth 1, where the kernel would
have reported the first leaf; it returns false, and `memscan_scanner_next` reports no match,
although the signature `AA` occurs at 4096 inside the first leaf. -/
theorem submap_contents_skipped :
    (∃ r, memscan_scanner_next_region
        (nested_env 4 [submap_region 4096 8] [leaf_region 4096 4, leaf_region 4100 4]
          (memory_of 4096 [170, 0, 0, 0, 0, 0, 0, 0])) 5
        (memscan_scanner_create demo_target (exact_signature [170])
          { start_address := 4096, end_address := 0 }) = some r ∧
      r.ret = false ∧ r.error_write = none ∧
      r.calls = [os_call.region_query 7 4096 0 0, os_call.region_query 7 4104 8 1]) ∧
    ((nested_env 4 [submap_region 4096 8] [leaf_region 4096 4, leaf_region 4100 4]
        (memory_of 4096 [170, 0, 0, 0, 0, 0, 0, 0])).vm_region_recurse_64 7 4096 0 0).is_submap
      = true ∧
    accepts ((nested_env 4 [submap_region 4096 8] [leaf_region 4096 4, leaf_region 4100 4]
        (memory_of 4096 [170, 0, 0, 0, 0, 0, 0, 0])).vm_region_recurse_64 7 4096 8 1) ∧
    ((nested_env 4 [submap_region 4096 8] [leaf_region 4096 4, leaf_region 4100 4]
        (memory_of 4096 [170, 0, 0, 0, 0, 0, 0, 0])).vm_region_recurse_64 7 4096 8 1).address
      = 4096 ∧
    (∃ r, memscan_scanner_next
        (nested_env 4 [submap_region 4096 8] [leaf_region 4096 4, leaf_region 4100 4]
          (memory_of 4096 [170, 0, 0, 0, 0, 0, 0, 0])) 30
        (memscan_scanner_create demo_target (exact_signature [170])
          { start_address := 4096, end_address := 0 }) = outcome.done r ∧
      r.ret = false ∧ r.match_write = none ∧
      occurs_at (memory_of 4096 [170, 0, 0, 0, 0, 0, 0, 0]) (exact_signature [170]) 4096) :=
  ⟨⟨_, rfl, rfl, rfl, rfl⟩, rfl, accepts_leaf _ rfl rfl rfl, rfl, ⟨_, rfl, rfl, rfl, by decide⟩⟩

/-- C13: the protection filter of the region enumerator. When `memscan_scanner_next_region`
returns, the last query it issued is the one whose reply decided: it returns true exactly when
that reply is a leaf (no submap) whose protection contains the default baseline, and the base
and the size of that region are left in the scanner; every query before the last was answered
with a region that is not accepted, so the region returned is the first accepted one in the
order of the enumeration; and after a leaf that fails the filter the enumeration goes on, the
next query being issued at the end (base + size) of the rejected region. The two equations say
the same of one iteration of the loop: an accepted leaf is returned at once, a rejected leaf
makes the loop go on from that region. -/
theorem protection_filter_of_enumerator (env : mach_env) :
    (∀ (fuel : Nat) (s : memscan_scanner) (r : region_result),
      memscan_scanner_next_region env fuel s = some r →
      (∃ t a sz d, r.calls.getLast? = some (os_call.region_query t a sz d) ∧
        (r.ret = true ↔
          ((env.vm_region_recurse_64 t a sz d).kr = 0 ∧
            (env.vm_region_recurse_64 t a sz d).is_submap = false ∧
            (env.vm_region_recurse_64 t a sz d).protection &&& VM_PROT_DEFAULT =
              VM_PROT_DEFAULT)) ∧
        r.scanner.region_address = (env.vm_region_recurse_64 t a sz d).address ∧
        r.scanner.region_size = (env.vm_region_recurse_64 t a sz d).size) ∧
      (∀ (i : Nat) (c : os_call), r.calls[i]? = some c → i + 1 < r.calls.length →
        ∃ t a sz d, c = os_call.region_query t a sz d ∧
          (env.vm_region_recurse_64 t a sz d).kr = 0 ∧
          ¬ accepts (env.vm_region_recurse_64 t a sz d)) ∧
      (∀ (i t a sz d : Nat), r.calls[i]? = some (os_call.region_query t a sz d) →
        (env.vm_region_recurse_64 t a sz d).kr = 0 →
        (env.vm_region_recurse_64 t a sz d).is_submap = false →
        (env.vm_region_recurse_64 t a sz d).protection &&& VM_PROT_DEFAULT ≠ VM_PROT_DEFAULT →
        r.calls[i + 1]? = some (os_call.region_query t
          (((env.vm_region_recurse_64 t a sz d).address +
            (env.vm_region_recurse_64 t a sz d).size) % U64)
          (env.vm_region_recurse_64 t a sz d).size
          (env.vm_region_recurse_64 t a sz d).depth))) ∧
    (∀ (fuel : Nat) (s : memscan_scanner) (calls : List os_call),
      accepts (cursor_reply env s) →
      next_region_loop env (fuel + 1) s calls = some
        { ret := true,
          scanner := { s with
            region_address := (cursor_reply env s).address
            region_size := (cursor_reply env s).size
            region_depth := (cursor_reply env s).depth },
          error_write := none, calls := calls ++ [cursor_query s] }) ∧
    (∀ (fuel : Nat) (s : memscan_scanner) (calls : List os_call),
      (cursor_reply env s).kr = 0 → (cursor_reply env s).is_submap = false →
      (cursor_reply env s).protection &&& VM_PROT_DEFAULT ≠ VM_PROT_DEFAULT →
      next_region_loop env (fuel + 1) s calls =
        next_region_loop env fuel
          { s with
            region_address := (cursor_reply env s).address
            region_size := (cursor_reply env s).size
            region_depth := (cursor_reply env s).depth }
          (calls ++ [cursor_query s])) := by
  refine ⟨?_, ?_, ?_⟩
  · intro fuel s r h
    unfold memscan_scanner_next_region at h
    obtain ⟨more, hm, hen, t, a, sz, d, hl, hp⟩ := next_region_loop_trace env _ _ _ _ h
    rw [List.nil_append] at hm
    rw [hm]
    obtain ⟨p1, p2, _, p4, _⟩ := hp
    refine ⟨⟨t, a, sz, d, hl, p4, p1, p2⟩, ?_, ?_⟩
    · intro i c hc hlt
      obtain ⟨a', sz', d', h0, h1, _⟩ := enumeration_queries env _ _ _ _ _ hen i c hc
      exact ⟨_, a', sz', d', h0, (h1 hlt).1, (h1 hlt).2.1⟩
    · intro i t' a' sz' d' hc hk hs hf
      obtain ⟨a2, sz2, d2, h0, h1, h2⟩ := enumeration_queries env _ _ _ _ _ hen i _ hc
      simp only [os_call.region_query.injEq] at h0
      obtain ⟨rfl, rfl, rfl, rfl⟩ := h0
      have hlen : i < more.length := by
        by_contra hge
        rw [List.getElem?_eq_none (by omega)] at hc
        exact absurd hc (by simp)
      have hlt : i + 1 < more.length := by
        by_contra hge
        rcases h2 (by omega) with h3 | h3
        · exact h3 hk
        · exact hf h3.2.2
      have := (h1 hlt).2.2
      simpa [depth_after, hs] using this
  · intro fuel s calls hacc
    obtain ⟨hk, hs, hf⟩ := hacc
    unfold cursor_reply at hk hs hf
    have h1 : ¬ (env.vm_region_recurse_64 s.target.task
        ((s.region_address + s.region_size) % U64) s.region_size s.region_depth).kr =
          KERN_INVALID_ADDRESS := by
      rw [hk]; decide
    rw [next_region_loop]
    simp only [h1, hk, hs, hf, if_false, ne_eq, not_true_eq_false, Bool.false_eq_true, if_true]
    rfl
  · intro fuel s calls hk hs hf
    unfold cursor_reply at hk hs hf
    have h1 : ¬ (env.vm_region_recurse_64 s.target.task
        ((s.region_address + s.region_size) % U64) s.region_size s.region_depth).kr =
          KERN_INVALID_ADDRESS := by
      rw [hk]; decide
    rw [next_region_loop]
    simp only [h1, hk, hs, hf, if_false, ne_eq, not_true_eq_false, Bool.false_eq_true]
    rfl

/-- C13 (witness): the regions `[4096, 4100)` (read-only, so it fails the filter) and
`[4100, 4108)` (read and write): the enumerator queries at 0, then at 4100, the end of the
rejected region, and returns the second region. -/
theorem protection_filter_of_enumerator_witness :
    ∃ r, memscan_scanner_next_region
        (layout_env 4 [{ address := 4096, size := 4, protection := 1, is_submap := false },
          leaf_region 4100 8] (memory_of 4096 [])) 5
        (memscan_scanner_create demo_target (exact_signature [170]) unbounded) = some r ∧
      r.ret = true ∧ r.scanner.region_address = 4100 ∧ r.scanner.region_size = 8 ∧
      r.calls = [os_call.region_query 7 0 0 0, os_call.region_query 7 4100 4 0] ∧
      r.calls[0 + 1]? = some (os_call.region_query 7 ((4096 + 4) % U64) 4 0) :=
  ⟨_, rfl, rfl, rfl, rfl, rfl,
    ((protection_filter_of_enumerator
      (layout_env 4 [{ address := 4096, size := 4, protection := 1, is_submap := false },
          leaf_region 4100 8] (memory_of 4096 []))).1 5
      (memscan_scanner_create demo_target (exact_signature [170]) unbounded) _ rfl).2.2
      0 7 0 0 0 rfl rfl rfl (by decide)⟩

/-- C14: `memscan_read` returns all or nothing. On a target whose successful reads deliver the
bytes of the memory: if the read of `length` bytes at `start` succeeds, the result is the buffer
holding the bytes at `start`, ..., `start + length - 1` (it has `length` elements) and nothing
is stored through `error`; if the read fails with the status `k`, the result is the null pointer
and `(MEMSCAN_ERROR_VM_READ_MEMORY_FAILED, k)` is stored through `error`. -/
theorem read_all_or_nothing (env : mach_env) (target : memscan_target) (memory : Nat → Nat)
    (start length : Nat)
    (hread : (env.vm_read_overwrite target.task start length).1 = 0 →
      (env.vm_read_overwrite target.task start length).2 = memory_slice memory start length) :
    ((env.vm_read_overwrite target.task start length).1 = 0 →
      memscan_read env target start length = (some (memory_slice memory start length), none) ∧
      (memory_slice memory start length).length = length ∧
      ∀ (i : Nat), i < length →
        (memory_slice memory start length)[i]? = some (memory (start + i))) ∧
    (∀ (k : Int), k ≠ 0 → (env.vm_read_overwrite target.task start length).1 = k →
      memscan_read env target start length =
        (none, some { memscan := MEMSCAN_ERROR_VM_READ_MEMORY_FAILED, mach := k })) := by
  constructor
  · intro h0
    refine ⟨?_, memory_slice_length _ _ _, fun i hi => memory_slice_get _ _ _ _ hi⟩
    unfold memscan_read
    simp only [h0, ne_eq, not_true_eq_false, if_false, hread h0]
  · intro k hk h
    unfold memscan_read
    simp only [h, ne_eq, hk, not_false_eq_true, if_true]

/-- C14 (witness): a region of 8 bytes at 4096: the read of 3 bytes at 4098 returns them, the
read of 3 bytes at 4102, which leaves the region, returns the null pointer and the error. -/
theorem read_all_or_nothing_witness :
    memscan_read (layout_env 4 [leaf_region 4096 8] (memory_of 4096 [1, 2, 3, 4, 5, 6, 7, 8]))
        demo_target 4098 3 = (some [3, 4, 5], none) ∧
    memscan_read (layout_env 4 [leaf_region 4096 8] (memory_of 4096 [1, 2, 3, 4, 5, 6, 7, 8]))
        demo_target 4102 3 =
      (none, some { memscan := MEMSCAN_ERROR_VM_READ_MEMORY_FAILED,
                    mach := KERN_INVALID_ADDRESS }) :=
  ⟨((read_all_or_nothing
      (layout_env 4 [leaf_region 4096 8] (memory_of 4096 [1, 2, 3, 4, 5, 6, 7, 8]))
      demo_target (memory_of 4096 [1, 2, 3, 4, 5, 6, 7, 8]) 4098 3 (fun _ => rfl)).1 rfl).1,
   (read_all_or_nothing
      (layout_env 4 [leaf_region 4096 8] (memory_of 4096 [1, 2, 3, 4, 5, 6, 7, 8]))
      demo_target (memory_of 4096 [1, 2, 3, 4, 5, 6, 7, 8]) 4102 3
      (fun h => absurd h (by decide))).2 KERN_INVALID_ADDRESS (by decide) rfl⟩

/-- C15: create and copy preserve the value and the invariant. Created from a byte sequence
and a mask of `n` elements each, a signature has length `n`, these bytes and this mask; the
copy of a signature whose arrays have `length` elements equals it; and the two arrays of a
parsed, of a created and of a copied signature have exactly `length` elements (for create and
copy: whenever the source arrays have at least that many). -/
theorem create_and_copy_preserve :
    (∀ (b : List Nat) (m : List Bool) (n : Nat), b.length = n → m.length = n →
      memscan_signature_create b m n = { length := n, signature := b, mask := m }) ∧
    (∀ (s : memscan_signature), well_formed s → memscan_signature_copy s = s) ∧
    (∀ (text : List Char), well_formed (memscan_signature_parse text)) ∧
    (∀ (b : List Nat) (m : List Bool) (n : Nat), n ≤ b.length → n ≤ m.length →
      well_formed (memscan_signature_create b m n)) ∧
    (∀ (s : memscan_signature), s.length ≤ s.signature.length → s.length ≤ s.mask.length →
      well_formed (memscan_signature_copy s)) := by
  refine ⟨?_, ?_, ?_, ?_, ?_⟩
  · intro b m n hb hm
    unfold memscan_signature_create memcpy
    rw [List.take_of_length_le (by omega), List.take_of_length_le (by omega)]
  · rintro ⟨n, b, m⟩ ⟨hb, hm⟩
    simp only at hb hm
    unfold memscan_signature_copy memcpy
    simp only
    rw [List.take_of_length_le (by omega), List.take_of_length_le (by omega)]
  · intro text
    obtain ⟨l1, l2, l3⟩ := parse_lengths text
    exact ⟨by rw [l2, l1], by rw [l3, l1]⟩
  · intro b m n hb hm
    unfold memscan_signature_create memcpy well_formed
    simp only [List.length_take]
    omega
  · intro s hb hm
    unfold memscan_signature_copy memcpy well_formed
    simp only [List.length_take]
    omega

/-- C15 (witness): a signature of three positions, created and copied. -/
theorem create_and_copy_preserve_witness :
    memscan_signature_create [170, 0, 204] [true, false, true] 3 =
      { length := 3, signature := [170, 0, 204], mask := [true, false, true] } ∧
    memscan_signature_copy
        { length := 3, signature := [170, 0, 204], mask := [true, false, true] } =
      { length := 3, signature := [170, 0, 204], mask := [true, false, true] } :=
  ⟨create_and_copy_preserve.1 _ _ 3 rfl rfl, create_and_copy_preserve.2.1 _ ⟨rfl, rfl⟩⟩

/-- C16 (counterexample): page size 4, the signature `AA AA BB`, an accepted region
`[4096, 4100)` holding `00 00 AA AA` followed by a region `[4100, 4108)` that fails the
protection filter and holds `11 11 11 11 00 00 00 00`. The first call returns false without an
error (the regions are exhausted). In the second call the sixth byte fetch is made after a
rollback, at the scan index -1 with the page address 4104, and the previous buffer holds
`00 00 AA AA`, the page at 4096, while the page before the page address, at 4100, holds
`11 11 11 11`. -/
theorem stale_previous_buffer_at_rollback :
    ∃ r1, memscan_scanner_next
        (layout_env 4 [leaf_region 4096 4,
            { address := 4100, size := 8, protection := 1, is_submap := false }]
          (memory_of 4096 [0, 0, 170, 170, 17, 17, 17, 17, 0, 0, 0, 0])) 40
        (memscan_scanner_create demo_target (exact_signature [170, 170, 187]) unbounded) =
          outcome.done r1 ∧
      r1.ret = false ∧ r1.error_write = none ∧
      ∃ x, (next_fetches
          (layout_env 4 [leaf_region 4096 4,
              { address := 4100, size := 8, protection := 1, is_submap := false }]
            (memory_of 4096 [0, 0, 170, 170, 17, 17, 17, 17, 0, 0, 0, 0])) 40
          r1.scanner)[5]? = some x ∧
        x.1.scan_index = -1 ∧ x.2 = 0 ∧ x.1.page_address = 4104 ∧
        x.1.previous_page_buffer = [0, 0, 170, 170] ∧
        memory_slice (memory_of 4096 [0, 0, 170, 170, 17, 17, 17, 17, 0, 0, 0, 0])
          (4104 - 4) 4 = [17, 17, 17, 17] :=
  ⟨_, rfl, rfl, rfl, _, rfl, rfl, rfl, rfl, rfl, rfl⟩

/-- C16 (amended): cursor and index bounds. On a target whose buffers have the page size `P`,
for a signature of 1 to `P` bytes, at every byte fetch of every call of `memscan_scanner_next`
on a scanner that was created and then used for calls, whatever they returned: the scan index
is at least `-P` and less than `P`, the match progress is less than the signature length, the
attempt under way started less than a page before the current page, and the byte fetched and
the mask and byte of the signature lie inside their arrays. When moreover the accepted regions
are whole pages, successful reads deliver the memory, and every earlier call on the scanner
returned true, a fetch at a negative scan index finds in the previous buffer the page
immediately before `page_address`, and fetches the byte of the memory at the scan position. -/
theorem fetch_within_bounds {env : mach_env} {target : memscan_target} {P : Nat}
    {memory : Nat → Nat} {sig : memscan_signature} {flt : memscan_filter}
    (se : sized_env env P) (hw : well_formed sig) (hpos : 1 ≤ sig.length)
    (hL : sig.length ≤ P) :
    (∀ (s : memscan_scanner), called env target sig flt s →
      ∀ (fuel : Nat) (x : memscan_scanner × Nat), x ∈ next_fetches env fuel s →
        -(P : Int) ≤ x.1.scan_index ∧ x.1.scan_index < P ∧ x.2 < sig.length ∧
        -(P : Int) < x.1.scan_index - x.2 ∧
        x.1.page_buffer.length = P ∧ x.1.previous_page_buffer.length = P ∧
        (∃ v, page_value x.1 = some v) ∧
        (∃ m, x.1.signature.mask[x.2]? = some m) ∧
        (∃ b, x.1.signature.signature[x.2]? = some b)) ∧
    (stable_target env target.task P memory →
      ∀ (s : memscan_scanner), reachable env target sig flt s →
      ∀ (fuel : Nat) (x : memscan_scanner × Nat), x ∈ next_fetches env fuel s →
        x.1.scan_index < 0 →
        x.1.previous_page_buffer = memory_slice memory (x.1.page_address - P) P ∧
        P ≤ x.1.page_address ∧
        page_value x.1 = some (memory (Int.toNat (x.1.page_address + x.1.scan_index)))) := by
  constructor
  · intro s hc fuel x hx
    obtain ⟨inv, hi⟩ := called_fetches se hw hL hpos target flt s hc fuel x hx
    have h1 := inv.start_gt
    have h2 := inv.progress_lt
    refine ⟨by omega, hi, h2, h1, inv.buffer_len, inv.previous_len,
      index_page_value se.page_small inv hi, ?_, ?_⟩
    · rw [inv.sig_eq]
      exact ⟨_, List.getElem?_eq_getElem (by rw [hw.2]; exact h2)⟩
    · rw [inv.sig_eq]
      exact ⟨_, List.getElem?_eq_getElem (by rw [hw.1]; exact h2)⟩
  · intro st s hr fuel x hx hneg
    obtain ⟨inv, hi⟩ := reachable_fetches st hw hL hpos target rfl s hr fuel x hx
    have hh := inv.history (by omega)
    exact ⟨hh.1, hh.2.1, page_value_eq st.page_small inv hi⟩

/-- C16 (witness): page size 4, the signature `AA AA BB` and the region `[4096, 4104)` holding
`00 00 AA AA 00 00 00 00`: the bounds hold at every fetch of the first call, among them the
fetch at the scan index -1 after the attempt that started at 4098 failed at 4100. -/
theorem fetch_within_bounds_witness :
    (∀ (x : memscan_scanner × Nat), x ∈ next_fetches
        (layout_env 4 [leaf_region 4096 8]
          (memory_of 4096 [0, 0, 170, 170, 0, 0, 0, 0])) 40
        (memscan_scanner_create demo_target (exact_signature [170, 170, 187]) unbounded) →
      -((4 : Nat) : Int) ≤ x.1.scan_index ∧ x.1.scan_index < (4 : Nat) ∧
      x.2 < (exact_signature [170, 170, 187]).length) ∧
    (∀ (x : memscan_scanner × Nat), x ∈ next_fetches
        (layout_env 4 [leaf_region 4096 8]
          (memory_of 4096 [0, 0, 170, 170, 0, 0, 0, 0])) 40
        (memscan_scanner_create demo_target (exact_signature [170, 170, 187]) unbounded) →
      x.1.scan_index < 0 →
      x.1.previous_page_buffer =
        memory_slice (memory_of 4096 [0, 0, 170, 170, 0, 0, 0, 0]) (x.1.page_address - 4) 4) ∧
    (∃ x, (next_fetches
        (layout_env 4 [leaf_region 4096 8]
          (memory_of 4096 [0, 0, 170, 170, 0, 0, 0, 0])) 40
        (memscan_scanner_create demo_target (exact_signature [170, 170, 187]) unbounded))[5]? =
          some x ∧ x.1.scan_index = -1 ∧ x.1.page_address = 4100) := by
  have se := layout_sized 4 [leaf_region 4096 8]
    (memory_of 4096 [0, 0, 170, 170, 0, 0, 0, 0]) (by decide) (by decide)
  have st : stable_target (layout_env 4 [leaf_region 4096 8]
      (memory_of 4096 [0, 0, 170, 170, 0, 0, 0, 0])) demo_target.task 4
      (memory_of 4096 [0, 0, 170, 170, 0, 0, 0, 0]) :=
    layout_stable 4 demo_target.task [leaf_region 4096 8] _ (by decide)
      (by decide) (by
        intro r hr
        simp only [List.mem_singleton] at hr
        subst hr
        decide)
  have hw : well_formed (exact_signature [170, 170, 187]) := ⟨rfl, rfl⟩
  have h := @fetch_within_bounds _ demo_target 4
    (memory_of 4096 [0, 0, 170, 170, 0, 0, 0, 0]) (exact_signature [170, 170, 187]) unbounded
    se hw (by decide) (by decide)
  refine ⟨?_, ?_, ⟨_, rfl, rfl, rfl⟩⟩
  · intro x hx
    obtain ⟨h1, h2, h3, _⟩ := h.1 _ called.created 40 x hx
    exact ⟨h1, h2, h3⟩
  · intro x hx hneg
    exact (h.2 st _ reachable.created 40 x hx hneg).1

/-- C18: each call restarts matching from the end of the last match. A later call of
`memscan_scanner_next` is the loop started with match progress 0 on the scanner the call before
left; after a call that reported a match at `a` the scan position is `a + L`, the byte just
past the match; and when the next call reports a match at `b`, then `a + L ≤ b`: successive
matches increase and do not overlap. This holds on a target whose address space is in
increasing address order, whose accepted regions are whole pages and whose successful reads
deliver the memory, for a signature of 1 to page-size bytes and a scanner whose earlier calls
all returned true. -/
theorem successive_matches_disjoint {env : mach_env} {target : memscan_target} {P : Nat}
    {memory : Nat → Nat} {sig : memscan_signature} {flt : memscan_filter} {top : Nat}
    (st : stable_target env target.task P memory) (os : ordered_space env target.task top)
    (hw : well_formed sig) (hpos : 1 ≤ sig.length) (hL : sig.length ≤ P)
    (s : memscan_scanner) (hs : reachable env target sig flt s) (fuel1 fuel2 : Nat)
    (r1 r2 : next_result) (a b : Nat)
    (h1 : memscan_scanner_next env fuel1 s = outcome.done r1) (hret1 : r1.ret = true)
    (hm1 : r1.match_write = some { address := a })
    (h2 : memscan_scanner_next env fuel2 r1.scanner = outcome.done r2) (hret2 : r2.ret = true)
    (hm2 : r2.match_write = some { address := b }) :
    a + sig.length ≤ b ∧
    (r1.scanner.page_address : Int) + r1.scanner.scan_index = ((a + sig.length : Nat) : Int) ∧
    memscan_scanner_next env fuel2 r1.scanner = scan_loop env fuel2 fuel2 r1.scanner 0 [] := by
  have hinv := reachable_inv st hw hL hpos target rfl s hs
  obtain ⟨inv1, a', hma, _, hend, _⟩ := next_sound st hw hL hpos target rfl s hinv fuel1 r1 h1 hret1
  rw [hm1, Option.some.injEq, memscan_match.mk.injEq] at hma
  subst hma
  have hp : ¬ r1.scanner.page_size = 0 := by
    have := st.page_pos
    rw [inv1.page_size_eq]
    omega
  have e : memscan_scanner_next env fuel2 r1.scanner =
      scan_loop env fuel2 fuel2 r1.scanner 0 [] := by
    unfold memscan_scanner_next
    rw [if_neg hp]
  rw [e] at h2
  obtain ⟨b', hmb, hle⟩ := loop_monotone st os hw hL fuel2 fuel2 r1.scanner 0 [] r2 inv1 h2 hret2
  rw [hm2, Option.some.injEq, memscan_match.mk.injEq] at hmb
  subst hmb
  refine ⟨?_, hend.symm, e⟩
  have : attempt_start r1.scanner 0 = a + sig.length := by
    unfold attempt_start
    omega
  omega

/-- C18 (witness): page size 4, one region holding `AA AA AA AA` and the signature `AA AA`:
the first call reports 4096, the second 4098 = 4096 + 2. -/
theorem successive_matches_disjoint_witness :
    4096 + (exact_signature [170, 170]).length ≤ 4098 ∧
    ∃ r1 r2, memscan_scanner_next
        (layout_env 4 [leaf_region 4096 4] (memory_of 4096 [170, 170, 170, 170])) 30
        (memscan_scanner_create demo_target (exact_signature [170, 170]) unbounded) =
          outcome.done r1 ∧ r1.match_write = some { address := 4096 } ∧
      memscan_scanner_next
        (layout_env 4 [leaf_region 4096 4] (memory_of 4096 [170, 170, 170, 170])) 30
        r1.scanner = outcome.done r2 ∧ r2.match_write = some { address := 4098 } :=
  ⟨(@successive_matches_disjoint
      (layout_env 4 [leaf_region 4096 4] (memory_of 4096 [170, 170, 170, 170])) demo_target 4
      (memory_of 4096 [170, 170, 170, 170]) (exact_signature [170, 170]) unbounded 4100
      (layout_stable 4 demo_target.task [leaf_region 4096 4]
        (memory_of 4096 [170, 170, 170, 170]) (by decide) (by decide)
        (by
          intro r hr
          simp only [List.mem_singleton] at hr
          subst hr
          decide))
      (layout_ordered 4 demo_target.task 4100 [leaf_region 4096 4]
        (memory_of 4096 [170, 170, 170, 170]) (by decide)
        (by
          intro r hr
          simp only [List.mem_singleton] at hr
          subst hr
          decide)
        (by
          intro r1 h1 r2 h2
          simp only [List.mem_singleton] at h1 h2
          subst h1 h2
          decide))
      ⟨rfl, rfl⟩ (by decide) (by decide) _ reachable.created 30 30 _ _ 4096 4098
      rfl rfl rfl rfl rfl rfl).1,
    _, _, rfl, rfl, rfl, rfl⟩

/-- C19: parsing never rejects a text. For every text `s` of `n` characters (a C string: no NUL
among them) `memscan_signature_parse` returns a signature of length `n / 2` (rounded down) whose
two arrays have that length; the mask at position `i` is false exactly when the pair `i`
contains `?` and true otherwise; a character appended to a text of even length is ignored; and
a pair without `?` whose first character is no hexadecimal digit, no white space and no sign
gives the byte 0 with the mask set, the same as the pair `00` gives. -/
theorem parse_never_rejects (s : List Char) (hs : ∀ c, c ∈ s → c.toNat ≠ 0) :
    (memscan_signature_parse s).length = s.length / 2 ∧
    well_formed (memscan_signature_parse s) ∧
    (∀ (i : Nat), i < s.length / 2 →
      ((memscan_signature_parse s).mask[i]? = some false ↔
        (char_at s (i * 2) = '?' ∨ char_at s (i * 2 + 1) = '?')) ∧
      ((memscan_signature_parse s).mask[i]? = some true ↔
        ¬ (char_at s (i * 2) = '?' ∨ char_at s (i * 2 + 1) = '?'))) ∧
    (∀ (c : Char), s.length % 2 = 0 →
      memscan_signature_parse (s ++ [c]) = memscan_signature_parse s) ∧
    (∀ (i : Nat), i < s.length / 2 →
      char_at s (i * 2) ≠ '?' → char_at s (i * 2 + 1) ≠ '?' →
      hex_digit_value (char_at s (i * 2)) = none → isspace (char_at s (i * 2)) = false →
      (char_at s (i * 2)).toNat ≠ 45 → (char_at s (i * 2)).toNat ≠ 43 →
      (memscan_signature_parse s).signature[i]? = some 0 ∧
      (memscan_signature_parse s).mask[i]? = some true ∧
      (memscan_signature_parse s).signature[i]? =
        (memscan_signature_parse ['0', '0']).signature[0]? ∧
      (memscan_signature_parse s).mask[i]? = (memscan_signature_parse ['0', '0']).mask[0]?) := by
  have hlen := strlen_no_nul s hs
  obtain ⟨l1, l2, l3⟩ := parse_lengths s
  rw [hlen] at l1 l2 l3
  refine ⟨l1, ⟨by rw [l2, l1], by rw [l3, l1]⟩, ?_, ?_, ?_⟩
  · intro i hi
    have hg := (parse_get s i (by rw [hlen]; exact hi)).2
    rw [hg]
    unfold parse_mask
    by_cases hq : char_at s (i * 2) = '?' ∨ char_at s (i * 2 + 1) = '?'
    · simp [hq]
    · simp [hq]
  · intro c heven
    exact parse_append_odd s hs c heven
  · intro i hi q1 q2 h1 h2 h3 h4
    obtain ⟨g1, g2⟩ := parse_get s i (by rw [hlen]; exact hi)
    obtain ⟨b1, b2⟩ := parse_byte_no_digits s hs i (by omega) q1 q2 h1 h2 h3 h4
    rw [g1, g2, b1, b2]
    exact ⟨rfl, rfl, by decide, by decide⟩

/-- C19 (witness): the text `zz?1-1 5xYa!` followed by one more character. -/
theorem parse_never_rejects_witness :
    memscan_signature_parse ['z', 'z', '?', '1', '-', '1', ' ', '5', 'x', 'Y', 'a', '!', '7'] =
      { length := 6, signature := [0, 0, 255, 5, 0, 10],
        mask := [true, false, true, true, true, true] } ∧
    memscan_signature_parse
        (['z', 'z', '?', '1', '-', '1', ' ', '5', 'x', 'Y', 'a', '!'] ++ ['7']) =
      memscan_signature_parse ['z', 'z', '?', '1', '-', '1', ' ', '5', 'x', 'Y', 'a', '!'] ∧
    (memscan_signature_parse
        ['z', 'z', '?', '1', '-', '1', ' ', '5', 'x', 'Y', 'a', '!']).signature[0]? =
      some 0 :=
  ⟨by decide,
    (parse_never_rejects ['z', 'z', '?', '1', '-', '1', ' ', '5', 'x', 'Y', 'a', '!']
      (by decide)).2.2.2.1 '7' (by decide),
    ((parse_never_rejects ['z', 'z', '?', '1', '-', '1', ' ', '5', 'x', 'Y', 'a', '!']
      (by decide)).2.2.2.2 0 (by decide) (by decide) (by decide) (by decide) (by decide)
      (by decide) (by decide)).1⟩

end SwiftSplit
